import Mathlib

/-!
# A shallow embedding of the inp tokenizer (`token.go`)

The Go tokenizer reads a keyword-driven text format (`*Keyword, key=val` header lines,
data lines, `**` comment lines, `*End Keyword` lines) from an `io.Reader` through a
growable byte buffer.  The embedding keeps the program state explicit:

* bytes are `UInt8`, Go strings and byte slices are `List UInt8`;
* Go `int` values (span bounds) are `Int`;
* the slice `z.buf` is three fields: the contents of its backing array (`buf`, positions
  past the end of the list hold the zero byte, as after `make`), its length `bufLen`
  and its capacity `bufCap`;
* an `io.Reader` is a script of pending `Read` results, after which it reports `io.EOF`;
* a slice expression that panics in Go makes `Token` return `none`;
* every `for` loop is a function recursing on a fuel argument that returns `none` when
  the fuel runs out; the callers pass `fuel z`, a bound on the bytes still to be read, and
  hand a `none` on, so a result `some z` is the result of the Go loop.
-/

namespace InpParser

/-! ## Token model -/

/-- The `TokenType` enumeration. -/
inductive TokenType where
  | ErrorToken
  | KeywordToken
  | EndKeywordToken
  | CommentToken
  deriving DecidableEq, Repr

/-- An attribute key-value pair. -/
structure Attribute where
  Key : List UInt8
  Val : List UInt8
  deriving DecidableEq, Repr

/-- The public token; `Typ` is the field `Type` of the source. -/
structure Token where
  Typ : TokenType
  Name : List UInt8 := []
  Data : List UInt8 := []
  Attr : List Attribute := []
  deriving DecidableEq, Repr

/-- Go `error` values the tokenizer can meet; `nil` is `none : Option Error`. -/
inductive Error where
  | EOF
  | ErrNoProgress
  | other (code : Nat)
  deriving DecidableEq, Repr

/-- The bytes of an ASCII string. -/
def bytes (s : String) : List UInt8 :=
  s.toList.map (fun c => c.toNat.toUInt8)

/-- Method `Token.paramString`: `", " + Key` and, when `Val` is non-empty, `"=" + Val`. -/
def Token.paramString (t : Token) : List UInt8 :=
  t.Attr.foldl
    (fun s p => (s ++ ([44, 32] ++ p.Key)) ++ (if p.Val.length > 0 then [61] ++ p.Val else []))
    []

/-- Method `Token.String`. -/
def Token.String (t : Token) : List UInt8 :=
  match t.Typ with
  | TokenType.ErrorToken => []
  | TokenType.CommentToken => t.Data
  | TokenType.EndKeywordToken => t.Data
  | TokenType.KeywordToken => [42] ++ t.Name ++ t.paramString ++ [10] ++ t.Data

/-! ## Readers -/

/-- The result `(n, err)` of one `Read` call, with the `n` bytes it stored. -/
structure ReadResult where
  data : List UInt8
  err : Option Error
  deriving DecidableEq, Repr

/-- An `io.Reader`: the results its next `Read` calls want to deliver, in order.  A result
that does not fit the destination is delivered in pieces, its error with the last
piece.  Once the script is used up every `Read` returns `(0, io.EOF)`. -/
structure Reader where
  script : List (List UInt8 × Option Error)
  deriving DecidableEq, Repr

/-- One call `r.Read(b)` with `len(b) = k`. -/
def Reader.Read (r : Reader) (k : Nat) : ReadResult × Reader :=
  match r.script with
  | [] => (⟨[], some Error.EOF⟩, r)
  | (bs, e) :: rest =>
    if bs.length ≤ k then (⟨bs, e⟩, ⟨rest⟩)
    else (⟨bs.take k, none⟩, ⟨(bs.drop k, e) :: rest⟩)

/-- Number of bytes a reader still holds. -/
def Reader.pending (r : Reader) : Nat :=
  (r.script.map (fun p => p.1.length)).sum

/-- A reader that hands out the given chunks one `Read` at a time, then `io.EOF`. -/
def chunkReader (chunks : List (List UInt8)) : Reader :=
  ⟨chunks.map (fun c => (c, none))⟩

/-- The reader `strings.NewReader(s)`: everything that fits, then `io.EOF`. -/
def stringsReader (s : List UInt8) : Reader :=
  chunkReader (if s = [] then [] else [s])

/-- The loop of `readAtLeastOneByte`, over any reader state `σ` with its `Read` function;
`i` counts the iterations still allowed. -/
def readAtLeastOneByteLoop {σ : Type} (read : σ → Nat → ReadResult × σ) :
    Nat → σ → Nat → ReadResult × σ
  | 0, r, _ => (⟨[], some Error.ErrNoProgress⟩, r)
  | i + 1, r, k =>
    let res := read r k
    if res.1.data.length ≠ 0 ∨ res.1.err ≠ none then res
    else readAtLeastOneByteLoop read i res.2 k

/-- Function `readAtLeastOneByte(r, b)` with `len(b) = k`. -/
def readAtLeastOneByte (r : Reader) (k : Nat) : ReadResult × Reader :=
  readAtLeastOneByteLoop Reader.Read 100 r k

/-! ## Tokenizer state -/

/-- A range `[start, end)` of bytes in the tokenizer's buffer. -/
structure span where
  start : Int
  end_ : Int
  deriving DecidableEq, Repr

/-- The `Tokenizer` struct. -/
structure Tokenizer where
  r : Reader
  tt : TokenType
  err : Option Error
  readErr : Option Error
  raw : span
  buf : List UInt8
  bufLen : Nat
  bufCap : Nat
  name : span
  data : span
  params : span
  deriving DecidableEq, Repr

/-- The byte at index `i` of the backing array. -/
def getByte (arr : List UInt8) (i : Nat) : UInt8 :=
  arr.getD i 0

/-- The bytes `arr[a:b]` of the backing array. -/
def sliceBuf (arr : List UInt8) (a b : Int) : List UInt8 :=
  let s := (arr.drop a.toNat).take (b - a).toNat
  s ++ List.replicate ((b - a).toNat - s.length) 0

/-- The backing array after `bs` is stored at index `pos`. -/
def writeAt (arr : List UInt8) (pos : Nat) (bs : List UInt8) : List UInt8 :=
  (arr.take pos ++ List.replicate (pos - arr.length) 0) ++ bs ++ arr.drop (pos + bs.length)

/-- Function `NewTokenizer`. -/
def NewTokenizer (r : Reader) : Tokenizer :=
  { r := r, tt := TokenType.ErrorToken, err := none, readErr := none,
    raw := ⟨0, 0⟩, buf := [], bufLen := 0, bufCap := 10240,
    name := ⟨0, 0⟩, data := ⟨0, 0⟩, params := ⟨0, 0⟩ }

/-- Method `Tokenizer.Err`. -/
def Tokenizer.Err (z : Tokenizer) : Option Error :=
  if z.tt ≠ TokenType.ErrorToken then none else z.err

/-- Method `Tokenizer.readByte`.  Each slice expression is the one of the source; they
are in bounds whenever `0 ≤ raw.start ≤ raw.end ≤ len(buf) ≤ cap(buf)`. -/
def readByte (z : Tokenizer) : UInt8 × Tokenizer :=
  if z.raw.end_ ≥ (z.bufLen : Int) then
    match z.readErr with
    | some e => (0, { z with err := some e })
    | none =>
      let c : Int := z.bufCap
      let d : Int := z.raw.end_ - z.raw.start
      let live := sliceBuf z.buf z.raw.start z.raw.end_
      let arr1 := if 2 * d > c then live else writeAt z.buf 0 live
      let cap1 := if 2 * d > c then 2 * z.bufCap else z.bufCap
      let x := z.raw.start
      let data1 : span := if x ≠ 0 then ⟨z.data.start - x, z.data.end_ - x⟩ else z.data
      let res := readAtLeastOneByte z.r (cap1 - d.toNat)
      let n := res.1.data.length
      if n = 0 then
        (0, { z with data := data1, raw := ⟨0, d⟩, buf := arr1, bufLen := d.toNat,
                     bufCap := cap1, r := res.2, readErr := res.1.err, err := res.1.err })
      else
        let arr2 := writeAt arr1 d.toNat res.1.data
        (getByte arr2 d.toNat,
          { z with data := data1, raw := ⟨0, d + 1⟩, buf := arr2, bufLen := d.toNat + n,
                   bufCap := cap1, r := res.2, readErr := res.1.err })
  else
    (getByte z.buf z.raw.end_.toNat, { z with raw := ⟨z.raw.start, z.raw.end_ + 1⟩ })

/-- A bound on the number of bytes `readByte` can still deliver: the unread rest of the
buffer and what the reader holds, plus one. -/
def fuel (z : Tokenizer) : Nat :=
  (((z.bufLen : Int) - z.raw.end_).toNat + z.r.pending) + 1

/-- The state after `z.raw.end -= k`. -/
def unread (z : Tokenizer) (k : Int) : Tokenizer :=
  { z with raw := ⟨z.raw.start, z.raw.end_ - k⟩ }

/-- The loop of `skipWhiteSpace`. -/
def skipWhiteSpaceLoop : Nat → Tokenizer → Option Tokenizer
  | 0, _ => none
  | n + 1, z =>
    let res := readByte z
    if res.2.err ≠ none then some res.2
    else if res.1 = 32 then skipWhiteSpaceLoop n res.2
    else some (unread res.2 1)

/-- Method `Tokenizer.skipWhiteSpace`. -/
def skipWhiteSpace (z : Tokenizer) : Option Tokenizer :=
  if z.err ≠ none then some z else skipWhiteSpaceLoop (fuel z) z

/-- The loop of `readKeywordName`. -/
def readKeywordNameLoop : Nat → Tokenizer → Option Tokenizer
  | 0, _ => none
  | n + 1, z =>
    let res := readByte z
    if res.2.err ≠ none then
      some { res.2 with name := ⟨res.2.name.start, res.2.raw.end_⟩ }
    else if res.1 = 44 then
      some { res.2 with name := ⟨res.2.name.start, res.2.raw.end_ - 1⟩ }
    else if res.1 = 10 then
      let z2 := unread res.2 1
      some { z2 with name := ⟨z2.name.start, z2.raw.end_⟩ }
    else readKeywordNameLoop n res.2

/-- Method `Tokenizer.readKeywordName`. -/
def readKeywordName (z : Tokenizer) : Option Tokenizer :=
  let z1 := { z with name := ⟨z.raw.end_ - 1, z.name.end_⟩ }
  readKeywordNameLoop (fuel z1) z1

/-- The closing loop of `readUntilLineBreak`. -/
def readUntilLineBreakLoop : Nat → Tokenizer → Option Tokenizer
  | 0, _ => none
  | n + 1, z =>
    let res := readByte z
    if res.2.err ≠ none then
      some { res.2 with data := ⟨res.2.data.start, res.2.raw.end_⟩ }
    else if res.1 = 10 then
      some { res.2 with data := ⟨res.2.data.start, res.2.raw.end_⟩ }
    else readUntilLineBreakLoop n res.2

/-- Method `Tokenizer.readUntilLineBreak`; `z.tt` still is the type of the previous
token when `Next` calls it. -/
def readUntilLineBreak (z : Tokenizer) : Option Tokenizer :=
  let z1 := { z with data := ⟨z.raw.end_ - 2, z.data.end_⟩ }
  (if z1.tt = TokenType.EndKeywordToken then readKeywordName z1 else some z1).bind
    (fun z2 => readUntilLineBreakLoop (fuel z2) z2)

/-- The first loop of `readKeywordWithData`: through the keyword line. -/
def headerLoop : Nat → Tokenizer → Option Tokenizer
  | 0, _ => none
  | n + 1, z =>
    let res := readByte z
    if res.2.err ≠ none then some res.2
    else if res.1 = 10 then some res.2
    else headerLoop n res.2

/-- The second loop of `readKeywordWithData`, with the counter `lineNo`. -/
def dataLoop : Nat → Nat → Tokenizer → Option (Nat × Tokenizer)
  | 0, _, _ => none
  | n + 1, lineNo, z =>
    let res := readByte z
    if res.2.err ≠ none then some (lineNo, res.2)
    else if res.1 = 10 then dataLoop n (lineNo + 1) res.2
    else if res.1 = 42 then some (lineNo, unread res.2 1)
    else dataLoop n lineNo res.2

/-- Method `Tokenizer.readKeywordWithData`. -/
def readKeywordWithData (z : Tokenizer) : Option (TokenType × Tokenizer) :=
  (readKeywordName z).bind fun z0 =>
  (skipWhiteSpace z0).bind fun z1 =>
  if z1.err ≠ none then some (TokenType.ErrorToken, z1)
  else
    (headerLoop (fuel z1) z1).bind fun z2 =>
    if z2.err ≠ none then some (TokenType.ErrorToken, z2)
    else
      let lineNo := 1
      let z3 := { z2 with params := ⟨z2.name.end_ + 2, z2.raw.end_ - 1⟩ }
      (dataLoop (fuel z3) lineNo z3).bind fun res =>
      if res.2.err ≠ none then some (TokenType.ErrorToken, res.2)
      else if res.1 > 1 then
        some (TokenType.KeywordToken,
          { res.2 with data := ⟨res.2.params.end_ + 1, res.2.raw.end_⟩ })
      else some (TokenType.KeywordToken, res.2)

/-- The part of the loop body of `Next` after a `*` has been read. -/
def nextAfterStar (z1 : Tokenizer) : Option Tokenizer :=
  let r2 := readByte z1
  if r2.2.err ≠ none then some { r2.2 with tt := TokenType.ErrorToken }
  else if r2.1 = 42 then
    (readUntilLineBreak r2.2).map fun z => { z with tt := TokenType.CommentToken }
  else if r2.1 = 69 ∨ r2.1 = 101 then
    let r3 := readByte r2.2
    if r3.2.err ≠ none then some { r3.2 with tt := TokenType.ErrorToken }
    else
      let r4 := readByte r3.2
      if r4.2.err ≠ none then some { r4.2 with tt := TokenType.ErrorToken }
      else if r3.1 = 110 ∧ r4.1 = 100 then
        (readUntilLineBreak (unread r4.2 2)).map fun z =>
          { z with tt := TokenType.EndKeywordToken }
      else
        (readKeywordWithData (unread r4.2 3)).map fun k => { k.2 with tt := k.1 }
  else
    (readKeywordWithData r2.2).map fun k => { k.2 with tt := k.1 }

/-- The loop of `Next`. -/
def nextLoop : Nat → Tokenizer → Option Tokenizer
  | 0, _ => none
  | n + 1, z =>
    let res := readByte z
    if res.2.err ≠ none then some { res.2 with tt := TokenType.ErrorToken }
    else if res.1 ≠ 42 then nextLoop n res.2
    else nextAfterStar res.2

/-- Method `Tokenizer.Next`: the new state, whose field `tt` is the returned type; `none`
only if a loop ran out of fuel. -/
def Next (z : Tokenizer) : Option Tokenizer :=
  let z0 := { z with raw := ⟨z.raw.end_, z.raw.end_⟩, data := ⟨z.raw.end_, z.raw.end_⟩ }
  if z0.err ≠ none then some { z0 with tt := TokenType.ErrorToken }
  else nextLoop (fuel z0) z0

/-! ## Token materialization -/

/-- Function `strings.Split(s, sep)` for a one-byte separator. -/
def split (sep : UInt8) : List UInt8 → List (List UInt8)
  | [] => [[]]
  | c :: cs =>
    if c = sep then [] :: split sep cs
    else
      match split sep cs with
      | [] => [[c]]
      | p :: ps => (c :: p) :: ps

/-- The slice expression `z.buf[s.start:s.end]`; `none` is Go's slice-bounds panic. -/
def goSlice (z : Tokenizer) (s : span) : Option (List UInt8) :=
  if 0 ≤ s.start ∧ s.start ≤ s.end_ ∧ s.end_ ≤ (z.bufCap : Int) then
    some (sliceBuf z.buf s.start s.end_)
  else none

/-- The attribute loop of `Token`. -/
def parseAttrs (sParams : List UInt8) : List Attribute :=
  (split 44 sParams).foldl
    (fun attr s =>
      match split 61 s with
      | [k] => attr ++ [⟨k, []⟩]
      | [k, v] => attr ++ [⟨k, v⟩]
      | _ => attr)
    []

/-- Method `Tokenizer.Token`. -/
def Tokenizer.Token (z : Tokenizer) : Option Token :=
  match z.tt with
  | TokenType.ErrorToken => some { Typ := z.tt }
  | TokenType.CommentToken =>
    (goSlice z z.data).map (fun d => { Typ := z.tt, Data := d })
  | TokenType.EndKeywordToken =>
    (goSlice z z.data).bind (fun d =>
      (goSlice z z.name).map (fun nm => { Typ := z.tt, Data := d, Name := nm }))
  | TokenType.KeywordToken =>
    (goSlice z z.data).bind (fun d =>
      (goSlice z z.name).bind (fun nm =>
        if z.params.start < z.params.end_ then
          (goSlice z z.params).map (fun p =>
            { Typ := z.tt, Data := d, Name := nm, Attr := parseAttrs p })
        else some { Typ := z.tt, Data := d, Name := nm }))

/-- The tokenizer after `k` calls of `Next`. -/
def nextN : Nat → Tokenizer → Option Tokenizer
  | 0, z => some z
  | k + 1, z => (Next z).bind (nextN k)

/-- The pairs (token type, `Token()`) of the first calls of `Next`, at most `k` of them, up
to the first `ErrorToken`. -/
def tokensUpTo : Nat → Tokenizer → List (TokenType × Option Token)
  | 0, _ => []
  | k + 1, z =>
    match Next z with
    | none => []
    | some z1 =>
      if z1.tt = TokenType.ErrorToken then []
      else (z1.tt, z1.Token) :: tokensUpTo k z1

/-- The token sequence of a tokenizer: every call of `Next` consumes a byte, so `fuel z`
calls reach the first `ErrorToken`. -/
def allTokens (z : Tokenizer) : List (TokenType × Option Token) :=
  tokensUpTo (fuel z) z

/-- The rendered text of a token sequence; a `Token()` that panics renders nothing. -/
def render (ts : List (TokenType × Option Token)) : List UInt8 :=
  (ts.map (fun p => match p.2 with
    | some t => t.String
    | none => [])).flatten

/-- The number of tokens of an input: the length of the token sequence when the input is
read from `strings.NewReader`. -/
def tokenCount (input : List UInt8) : Nat :=
  (allTokens (NewTokenizer (stringsReader input))).length


/-! ## Invariants used in the proofs -/

/-- The stream invariant: `z` has no error, its spans are in bounds, its buffer holds a prefix
of `input` and its reader the rest, in non-empty chunks, and no refill can move the
buffered bytes (the current token starts at offset 0, or the reader is used up).  With
`whole = true` the remaining input moreover arrives in one `Read` that fits the buffer. -/
structure Str (whole : Bool) (input : List UInt8) (z : Tokenizer) : Prop where
  err : z.err = none
  readErr : z.readErr = none
  start_nonneg : 0 ≤ z.raw.start
  start_le : z.raw.start ≤ z.raw.end_
  end_le : z.raw.end_ ≤ (z.bufLen : Int)
  len_le_cap : z.bufLen ≤ z.bufCap
  cap_pos : 0 < z.bufCap
  len_le : z.bufLen ≤ z.buf.length
  rd : ∃ cs : List (List UInt8), z.r = chunkReader cs ∧ (∀ c ∈ cs, c ≠ []) ∧
    z.buf.take z.bufLen ++ cs.flatten = input ∧ (z.raw.start = 0 ∨ cs = []) ∧
    (whole = true → input.length ≤ z.bufCap ∧ cs.length ≤ 1 ∧ (z.bufLen = 0 ∨ cs = []))

/-- State `z'` is `z` moved `k` bytes on in the same input, with nothing else changed. -/
structure Adv (w : Bool) (input : List UInt8) (z z' : Tokenizer) (k : Int) : Prop where
  str : Str w input z'
  raw : z'.raw = ⟨z.raw.start, z.raw.end_ + k⟩
  name : z'.name = z.name
  data : z'.data = z.data
  params : z'.params = z.params
  tt : z'.tt = z.tt


/-- The tokenizer `z` reads `input`, with the given spans and token type. -/
structure At (w : Bool) (input : List UInt8) (z : Tokenizer) (s e : Int) (nm dt pr : span)
    (t : TokenType) : Prop where
  str : Str w input z
  raw : z.raw = ⟨s, e⟩
  name : z.name = nm
  data : z.data = dt
  params : z.params = pr
  tt : z.tt = t

/-- The bytes `readByte` has still to deliver: the unread rest of the buffer, then what the
reader holds. -/
def restOf (z : Tokenizer) : List UInt8 :=
  (z.buf.take z.bufLen).drop z.raw.end_.toNat ++ (z.r.script.map (fun p => p.1)).flatten

/-- The bytes of the current raw span, `z.buf[z.raw.start:z.raw.end]`. -/
def pastOf (z : Tokenizer) : List UInt8 :=
  ((z.buf.take z.bufLen).take z.raw.end_.toNat).drop z.raw.start.toNat

/-- The well-formed states of a tokenizer over a reader of non-empty chunks: the spans of
`readByte` are in bounds, and the error, once set, is `io.EOF` at the end of the input. -/
structure WF (z : Tokenizer) : Prop where
  start_nonneg : 0 ≤ z.raw.start
  start_le : z.raw.start ≤ z.raw.end_
  end_le : z.raw.end_ ≤ (z.bufLen : Int)
  len_le_cap : z.bufLen ≤ z.bufCap
  cap_pos : 0 < z.bufCap
  len_le : z.bufLen ≤ z.buf.length
  rd : ∃ cs : List (List UInt8), z.r = chunkReader cs ∧ ∀ c ∈ cs, c ≠ []
  errs : (z.err = none ∧ z.readErr = none) ∨
    (z.err = some Error.EOF ∧ z.readErr = some Error.EOF ∧ z.raw.end_ = (z.bufLen : Int) ∧
      z.r = chunkReader [])

/-- Two well-formed states that `readByte`, `Next` and the scanning loops cannot tell apart:
the same bytes to come, the same bytes in the raw span, the same token type and error. -/
structure Sim (z1 z2 : Tokenizer) : Prop where
  wf1 : WF z1
  wf2 : WF z2
  rest : restOf z1 = restOf z2
  past : pastOf z1 = pastOf z2
  tt : z1.tt = z2.tt
  err : z1.err = z2.err

/-! ## Inputs made of well-formed lines -/

/-- The header text of an optional attribute: `, key` or `, key=val`. -/
def attrText : Option Attribute → List UInt8
  | none => []
  | some a => [44, 32] ++ a.Key ++ (if a.Val = [] then [] else 61 :: a.Val)

/-- An attribute whose header text `Token` parses back to it: no `,`, `=` or `\n` in key
and value, and a key when there is no value. -/
def attrValid : Option Attribute → Prop
  | none => True
  | some a => 10 ∉ a.Key ∧ 44 ∉ a.Key ∧ 61 ∉ a.Key ∧ 10 ∉ a.Val ∧ 44 ∉ a.Val ∧ 61 ∉ a.Val ∧
      (a.Val = [] → a.Key ≠ [])

instance attrValid.dec (a : Option Attribute) : Decidable (attrValid a) := by
  cases a <;> unfold attrValid <;> infer_instance

/-- One block of an input: a comment line, an end-keyword line, or a keyword line with at
most one attribute and its data lines. -/
inductive Block where
  | comment (t : List UInt8)
  | endKeyword (e : UInt8) (t : List UInt8)
  | keyword (name : List UInt8) (attr : Option Attribute) (D : List UInt8)

/-- The text of a block. -/
def Block.text : Block → List UInt8
  | Block.comment t => [42, 42] ++ t ++ [10]
  | Block.endKeyword e t => [42, e, 110, 100] ++ t ++ [10]
  | Block.keyword name attr D => [42] ++ name ++ attrText attr ++ [10] ++ D

/-- The blocks the tokenizer renders back unchanged: lines end at their `\n`; a keyword name
is non-empty, has no `,` and does not begin with `*`, `E` or `e`; data lines have no `*`
and each ends with `\n`. -/
def Block.valid : Block → Prop
  | Block.comment t => 10 ∉ t
  | Block.endKeyword e t => (e = 69 ∨ e = 101) ∧ 10 ∉ t
  | Block.keyword name attr D =>
    name ≠ [] ∧ 10 ∉ name ∧ 44 ∉ name ∧ name.head? ≠ some 42 ∧ name.head? ≠ some 69 ∧
      name.head? ≠ some 101 ∧ attrValid attr ∧ 42 ∉ D ∧ (D = [] ∨ D.getLast? = some 10)

instance Block.decValid (b : Block) : Decidable b.valid := by
  cases b <;> unfold Block.valid <;> infer_instance

/-- Whether a block is a keyword block. -/
def Block.isKeyword : Block → Bool
  | Block.keyword _ _ _ => true
  | _ => false

/-- The text of a sequence of blocks. -/
def blocksText (blocks : List Block) : List UInt8 :=
  (blocks.map Block.text).flatten

/-- What a step over one block leaves: the tokenizer at the end of the block, a name span
that can be sliced, and a token that renders as the text of the block. -/
structure Stepped (input : List UInt8) (z' : Tokenizer) (p q : Nat) (text : List UInt8) :
    Prop where
  tt : z'.tt ≠ TokenType.ErrorToken
  at_ : At true input z' p q z'.name z'.data z'.params z'.tt
  name : 0 ≤ z'.name.start ∧ z'.name.start ≤ z'.name.end_ ∧ z'.name.end_ ≤ (q : Int)
  token : z'.Token.map Token.String = some text

/-! ## The specification's reading of rendering and of reading with retries -/

/-- The attribute text of a keyword line as the specification words it: for each attribute
in order `, ` and the key and, only when the value is non-empty, `=` and the value. -/
def attrsText (attrs : List Attribute) : List UInt8 :=
  (attrs.map (fun a => [44, 32] ++ a.Key ++ (if a.Val = [] then [] else [61] ++ a.Val))).flatten

/-- The rendering of a token as the specification words it. -/
def renderSpec (t : Token) : List UInt8 :=
  match t.Typ with
  | TokenType.ErrorToken => []
  | TokenType.CommentToken => t.Data
  | TokenType.EndKeywordToken => t.Data
  | TokenType.KeywordToken => [42] ++ t.Name ++ attrsText t.Attr ++ [10] ++ t.Data

/-- The reader state after `i` calls of `Read` with a destination of length `k`. -/
def readerAfter {σ : Type} (read : σ → Nat → ReadResult × σ) (k : Nat) : Nat → σ → σ
  | 0, r => r
  | i + 1, r => readerAfter read k i (read r k).2

/-- The result and the reader state of call number `i` (counted from 0) in a succession of
`Read` calls with a destination of length `k`. -/
def nthRead {σ : Type} (read : σ → Nat → ReadResult × σ) (k : Nat) (i : Nat) (r : σ) :
    ReadResult × σ :=
  read (readerAfter read k i r) k

/-- A `Read` result `(0, nil)`. -/
def stalled (res : ReadResult) : Prop :=
  res.data.length = 0 ∧ res.err = none

instance stalled.dec (res : ReadResult) : Decidable (stalled res) := by
  unfold stalled; infer_instance

/-! ## The two halves of a refill in `readByte` -/

/-- The state of `readByte` once the live bytes `buf[raw.start:raw.end]` have been moved to
the start of the buffer, that is after `z.raw.start, z.raw.end, z.buf = 0, d, buf1[:d]`;
`readByte` comes here when the buffer is exhausted and no read error is pending. -/
def compactBuf (z : Tokenizer) : Tokenizer :=
  let c : Int := z.bufCap
  let d : Int := z.raw.end_ - z.raw.start
  let live := sliceBuf z.buf z.raw.start z.raw.end_
  let arr1 := if 2 * d > c then live else writeAt z.buf 0 live
  let cap1 := if 2 * d > c then 2 * z.bufCap else z.bufCap
  let x := z.raw.start
  let data1 : span := if x ≠ 0 then ⟨z.data.start - x, z.data.end_ - x⟩ else z.data
  { z with data := data1, raw := ⟨0, d⟩, buf := arr1, bufLen := d.toNat, bufCap := cap1 }

/-- The rest of `readByte` from the compacted state: one `readAtLeastOneByte` into the
free part `buf1[d:cap(buf1)]` of the buffer, then the byte at `raw.end`. -/
def fillBuf (zc : Tokenizer) : UInt8 × Tokenizer :=
  let res := readAtLeastOneByte zc.r (zc.bufCap - zc.bufLen)
  let n := res.1.data.length
  if n = 0 then
    (0, { zc with r := res.2, readErr := res.1.err, err := res.1.err })
  else
    let arr2 := writeAt zc.buf zc.bufLen res.1.data
    (getByte arr2 zc.raw.end_.toNat,
      { zc with raw := ⟨zc.raw.start, zc.raw.end_ + 1⟩, buf := arr2, bufLen := zc.bufLen + n,
                r := res.2, readErr := res.1.err })

/-- The tokenizer over the input `*A`, `*Node, x=1`, `1`, `*B` delivered in the two reads
`*A\n*Node,` and the rest, in its second `Next` at the moment `readKeywordName` has returned:
the buffer is exhausted, the current token starts at offset 3 and its name span is
`[4, 8)`, the bytes `Node`. -/
def midHeaderState : Tokenizer :=
  { r := chunkReader [bytes " x=1\n1\n*B\n"], tt := TokenType.KeywordToken, err := none,
    readErr := none, raw := ⟨3, 9⟩, buf := bytes "*A\n*Node,", bufLen := 9, bufCap := 10240,
    name := ⟨4, 8⟩, data := ⟨3, 3⟩, params := ⟨4, 2⟩ }

/-! ## Params texts made of pieces -/

/-- The text of one comma-separated piece of a params text: a key alone, or a key, `=` and
a value. -/
def pieceText (p : List UInt8 × Option (List UInt8)) : List UInt8 :=
  match p.2 with
  | none => p.1
  | some v => p.1 ++ 61 :: v

/-- The params text with the given pieces, separated by `,`. -/
def piecesText : List (List UInt8 × Option (List UInt8)) → List UInt8
  | [] => []
  | [p] => pieceText p
  | p :: q :: ps => pieceText p ++ 44 :: piecesText (q :: ps)

/-- The attribute a piece denotes when nothing is trimmed: its key and its value (empty
when the piece has no `=`) byte for byte. -/
def pieceAttr (p : List UInt8 × Option (List UInt8)) : Attribute :=
  ⟨p.1, p.2.getD []⟩

/-- A piece whose key and value contain no `,` and no `=`. -/
def pieceValid (p : List UInt8 × Option (List UInt8)) : Prop :=
  44 ∉ p.1 ∧ 61 ∉ p.1 ∧
    match p.2 with
    | none => True
    | some v => 44 ∉ v ∧ 61 ∉ v

instance pieceValid.dec (p : List UInt8 × Option (List UInt8)) : Decidable (pieceValid p) := by
  unfold pieceValid
  cases p.2 <;> infer_instance

/-! ## Reading under the stream invariant -/

theorem readAtLeastOneByte_nil (k : Nat) :
    readAtLeastOneByte (chunkReader []) k = (⟨[], some Error.EOF⟩, chunkReader []) := by
  simp [readAtLeastOneByte, readAtLeastOneByteLoop, Reader.Read, chunkReader]

theorem readAtLeastOneByte_cons (c : List UInt8) (cs : List (List UInt8)) (k : Nat)
    (hc : c ≠ []) (hk : 0 < k) :
    readAtLeastOneByte (chunkReader (c :: cs)) k =
      if c.length ≤ k then (⟨c, none⟩, chunkReader cs)
      else (⟨c.take k, none⟩, chunkReader (c.drop k :: cs)) := by
  have hlen : 0 < c.length := List.length_pos.mpr hc
  by_cases h : c.length ≤ k
  · simp [readAtLeastOneByte, readAtLeastOneByteLoop, Reader.Read, chunkReader, h, hc]
  · have : ¬ (k = 0) := by omega
    simp [readAtLeastOneByte, readAtLeastOneByteLoop, Reader.Read, chunkReader, h, hc, this]

theorem pending_chunkReader (cs : List (List UInt8)) :
    (chunkReader cs).pending = cs.flatten.length := by
  induction cs with
  | nil => simp [chunkReader, Reader.pending]
  | cons c cs ih =>
    simp [chunkReader, Reader.pending] at ih ⊢
    omega


theorem sliceBuf_eq (arr : List UInt8) (a b : Int) (ha : 0 ≤ a)
    (hb : b ≤ (arr.length : Int)) :
    sliceBuf arr a b = (arr.drop a.toNat).take (b - a).toNat := by
  have h0 : (b - a).toNat - ((arr.drop a.toNat).take (b - a).toNat).length = 0 := by
    simp only [List.length_take, List.length_drop]
    omega
  show _ ++ List.replicate ((b - a).toNat - ((arr.drop a.toNat).take (b - a).toNat).length) 0 = _
  rw [h0]
  simp

theorem getElem_of_drop {l : List UInt8} {p : Nat} {b : UInt8} {rest : List UInt8}
    (h : l.drop p = b :: rest) : l[p]? = some b := by
  have h1 : (l.drop p)[0]? = some b := by rw [h]; simp
  rw [List.getElem?_drop] at h1
  simpa using h1

theorem getByte_of_getElem {arr : List UInt8} {p : Nat} {b : UInt8}
    (h : arr[p]? = some b) : getByte arr p = b := by
  simp [getByte, List.getD, h]

theorem readAtLeastOneByte_chunks (c : List UInt8) (cs : List (List UInt8)) (k : Nat)
    (hne : ∀ x ∈ c :: cs, x ≠ []) (hk : 0 < k) :
    ∃ bs cs2, readAtLeastOneByte (chunkReader (c :: cs)) k = (⟨bs, none⟩, chunkReader cs2) ∧
      bs ≠ [] ∧ bs.length ≤ k ∧ bs ++ cs2.flatten = (c :: cs).flatten ∧
      (∀ x ∈ cs2, x ≠ []) ∧
      ((c :: cs).flatten.length ≤ k → (c :: cs).length ≤ 1 → cs2 = []) := by
  have hc : c ≠ [] := hne c (by simp)
  have hlen : 0 < c.length := List.length_pos.mpr hc
  rw [readAtLeastOneByte_cons c cs k hc hk]
  by_cases h : c.length ≤ k
  · refine ⟨c, cs, by simp [h], hc, h, by simp, fun x hx => hne x (by simp [hx]), ?_⟩
    intro _ h1
    simp at h1
    exact h1
  · refine ⟨c.take k, c.drop k :: cs, by simp [h], ?_, ?_, ?_, ?_, ?_⟩
    · intro h0
      have := congrArg List.length h0
      rw [List.length_take] at this
      simp only [List.length_nil] at this
      omega
    · simp
    · simp [← List.append_assoc]
    · intro x hx
      simp at hx
      rcases hx with hx | hx
      · intro h0
        rw [hx] at h0
        have := congrArg List.length h0
        simp at this
        omega
      · exact hne x (by simp [hx])
    · intro h1 _
      simp at h1
      omega

theorem readByte_ok {w : Bool} {input : List UInt8} {z : Tokenizer} (h : Str w input z)
    (p : Nat) (hp : z.raw.end_ = (p : Int)) (b : UInt8) (rest : List UInt8)
    (hd : input.drop p = b :: rest) :
    (readByte z).1 = b ∧ Str w input (readByte z).2 ∧
      (readByte z).2.raw = ⟨z.raw.start, z.raw.end_ + 1⟩ ∧
      (readByte z).2.name = z.name ∧ (readByte z).2.data = z.data ∧
      (readByte z).2.params = z.params ∧ (readByte z).2.tt = z.tt := by
  obtain ⟨cs, hr, hne, hin, hs, hw⟩ := h.rd
  have hpl : p ≤ z.bufLen := by have := h.end_le; omega
  have htl : (z.buf.take z.bufLen).length = z.bufLen := by
    rw [List.length_take]; exact Nat.min_eq_left h.len_le
  have hb : input[p]? = some b := getElem_of_drop hd
  by_cases hlt : z.raw.end_ < (z.bufLen : Int)
  · have hnot : ¬ (z.raw.end_ ≥ (z.bufLen : Int)) := by omega
    have hplt : p < z.bufLen := by omega
    have hbyte : getByte z.buf p = b := by
      apply getByte_of_getElem
      rw [← hin, List.getElem?_append_left (by omega),
        List.getElem?_take_of_lt (by omega)] at hb
      exact hb
    have hrb : readByte z = (getByte z.buf z.raw.end_.toNat,
        { z with raw := ⟨z.raw.start, z.raw.end_ + 1⟩ }) := by
      simp only [readByte, if_neg hnot]
    rw [hrb]
    refine ⟨?_, ?_, rfl, rfl, rfl, rfl, rfl⟩
    · rw [hp]; simpa using hbyte
    · exact ⟨h.err, h.readErr, h.start_nonneg, by simp; have := h.start_le; omega,
        by simp; omega, h.len_le_cap, h.cap_pos, h.len_le, cs, hr, hne, hin, hs, hw⟩
  · have hge : z.raw.end_ ≥ (z.bufLen : Int) := by omega
    have hpe : p = z.bufLen := by omega
    have hcs : cs.flatten = b :: rest := by
      rw [← hin, hpe] at hd
      rw [List.drop_append_eq_append_drop, htl] at hd
      simpa [List.drop_take] using hd
    cases cs with
    | nil => simp at hcs
    | cons c cs' =>
      have hc : c ≠ [] := hne c (by simp)
      have hs0 : z.raw.start = 0 := by
        rcases hs with h0 | h0
        · exact h0
        · simp at h0
      have hend : z.raw.end_ = (z.bufLen : Int) := by omega
      have hcapl := h.len_le_cap
      have hcpos := h.cap_pos
      have hll := h.len_le
      have hlive : sliceBuf z.buf 0 (z.bufLen : Int) = z.buf.take z.bufLen := by
        rw [sliceBuf_eq z.buf 0 _ (le_refl 0) (by omega)]
        simp
      obtain ⟨cap1, hcap1, hc1a, hc1b⟩ : ∃ cap1 : Nat,
          (if 2 * ((z.bufLen : Int) - 0) > (z.bufCap : Int) then 2 * z.bufCap else z.bufCap) = cap1
            ∧ z.bufCap ≤ cap1 ∧ z.bufLen < cap1 := by
        refine ⟨_, rfl, ?_, ?_⟩ <;> split <;> omega
      obtain ⟨arr1, harr1, ha1, ha2⟩ : ∃ arr1 : List UInt8,
          (if 2 * ((z.bufLen : Int) - 0) > (z.bufCap : Int) then sliceBuf z.buf 0 (z.bufLen : Int)
            else writeAt z.buf 0 (sliceBuf z.buf 0 (z.bufLen : Int))) = arr1
            ∧ arr1.take z.bufLen = z.buf.take z.bufLen ∧ z.bufLen ≤ arr1.length := by
        refine ⟨_, rfl, ?_, ?_⟩ <;> split <;>
          first | (simp [hlive, writeAt, htl]; omega) | simp [hlive, writeAt, htl]
      obtain ⟨bs, cs2, hres, hbs, hbk, hfl, hne2, hwh⟩ :=
        readAtLeastOneByte_chunks c cs' (cap1 - z.bufLen) hne (by omega)
      have hbl : bs.length ≠ 0 := by
        intro h0; exact hbs (List.length_eq_zero.mp h0)
      have hrb : readByte z = (getByte (writeAt arr1 z.bufLen bs) z.bufLen,
          { z with raw := ⟨0, (z.bufLen : Int) + 1⟩, buf := writeAt arr1 z.bufLen bs,
                   bufLen := z.bufLen + bs.length, bufCap := cap1, r := chunkReader cs2,
                   readErr := none }) := by
        simp only [readByte, if_pos hge, h.readErr, hs0, hend, hr, hcap1, harr1]
        simp [hres, hbl]
      rw [hrb]
      have hw2 : writeAt arr1 z.bufLen bs = z.buf.take z.bufLen ++ bs ++
          arr1.drop (z.bufLen + bs.length) := by
        simp [writeAt, ha1, Nat.sub_eq_zero_of_le ha2]
      have hbs0 : bs[0]? = some b := by
        have : (bs ++ cs2.flatten)[0]? = some b := by rw [hfl, hcs]; simp
        rwa [List.getElem?_append_left (by omega)] at this
      refine ⟨?_, ?_, ?_, rfl, rfl, rfl, rfl⟩
      · apply getByte_of_getElem
        rw [hw2, List.append_assoc, List.getElem?_append_right (by omega), htl,
          Nat.sub_self, List.getElem?_append_left (by omega)]
        exact hbs0
      · have hbl1 : 1 ≤ bs.length := by omega
        refine ⟨h.err, rfl, le_refl 0, by (simp; omega), by (simp; omega), by (simp; omega),
          by (simp; omega), ?_, cs2, rfl, hne2, ?_, Or.inl rfl, ?_⟩
        · simp [hw2]; omega
        · simp only [hw2]
          rw [List.append_assoc, List.take_append_eq_append_take, htl]
          simp [List.take_take, ← hin, ← hfl]
        · intro hwt
          obtain ⟨hw1, hw2', _⟩ := hw hwt
          have hil : input.length = z.bufLen + (c :: cs').flatten.length := by
            rw [← hin, List.length_append, htl]
          refine ⟨by (simp; omega), ?_, Or.inr ?_⟩
          · have := hwh (by omega) hw2'
            simp [this]
          · exact hwh (by omega) hw2'
      · simp [hs0, hend]


theorem Adv.trans {w : Bool} {input : List UInt8} {z z1 z2 : Tokenizer} {a b : Int}
    (h1 : Adv w input z z1 a) (h2 : Adv w input z1 z2 b) : Adv w input z z2 (a + b) := by
  refine ⟨h2.str, ?_, h2.name.trans h1.name, h2.data.trans h1.data,
    h2.params.trans h1.params, h2.tt.trans h1.tt⟩
  rw [h2.raw, h1.raw]
  simp
  omega

theorem Adv.castTo {w : Bool} {input : List UInt8} {z z' : Tokenizer} {a b : Int}
    (h : Adv w input z z' a) (hab : a = b) : Adv w input z z' b := hab ▸ h

theorem readByte_adv {w : Bool} {input : List UInt8} {z : Tokenizer} (h : Str w input z)
    (p : Nat) (hp : z.raw.end_ = (p : Int)) (b : UInt8) (rest : List UInt8)
    (hd : input.drop p = b :: rest) :
    (readByte z).1 = b ∧ Adv w input z (readByte z).2 1 ∧ (readByte z).2.err = none := by
  obtain ⟨h1, h2, h3, h4, h5, h6, h7⟩ := readByte_ok h p hp b rest hd
  exact ⟨h1, ⟨h2, h3, h4, h5, h6, h7⟩, h2.err⟩

theorem unread_adv {w : Bool} {input : List UInt8} {z : Tokenizer} (h : Str w input z)
    (k : Int) (hk0 : 0 ≤ k) (hk : z.raw.start ≤ z.raw.end_ - k) :
    Adv w input z (unread z k) (-k) := by
  refine ⟨⟨h.err, h.readErr, h.start_nonneg, hk, ?_, h.len_le_cap, h.cap_pos, h.len_le, h.rd⟩,
    ?_, rfl, rfl, rfl, rfl⟩
  · have := h.end_le
    show z.raw.end_ - k ≤ (z.bufLen : Int)
    omega
  · show (⟨z.raw.start, z.raw.end_ - k⟩ : span) = _
    simp
    omega

theorem drop_succ_of_drop {l : List UInt8} {p : Nat} {b : UInt8} {r : List UInt8}
    (h : l.drop p = b :: r) : l.drop (p + 1) = r := by
  rw [← List.drop_drop, h]
  rfl

theorem fuel_eq {w : Bool} {input : List UInt8} {z : Tokenizer} (h : Str w input z)
    (p : Nat) (hp : z.raw.end_ = (p : Int)) : fuel z = input.length - p + 1 := by
  obtain ⟨cs, hr, _, hin, _, _⟩ := h.rd
  have h1 := h.end_le
  have h2 := h.len_le
  have hl : input.length = z.bufLen + cs.flatten.length := by
    rw [← hin, List.length_append, List.length_take, Nat.min_eq_left h2]
  unfold fuel
  rw [hr, pending_chunkReader, hl, hp]
  omega

theorem fuel_gt {w : Bool} {input : List UInt8} {z : Tokenizer} (h : Str w input z)
    (p : Nat) (hp : z.raw.end_ = (p : Int)) (t r : List UInt8) (hd : input.drop p = t ++ r) :
    t.length + r.length < fuel z := by
  rw [fuel_eq h p hp]
  have := congrArg List.length hd
  simp at this
  omega

theorem headerLoop_ok {w : Bool} {input : List UInt8} :
    ∀ (t : List UInt8) (n : Nat) (z : Tokenizer) (p : Nat) (rest : List UInt8),
      Str w input z → z.raw.end_ = (p : Int) → input.drop p = t ++ 10 :: rest →
      10 ∉ t → t.length < n →
      ∃ z', headerLoop n z = some z' ∧ Adv w input z z' (t.length + 1) := by
  intro t
  induction t with
  | nil =>
    intro n z p rest hs hp hd _ hn
    obtain ⟨m, rfl⟩ : ∃ m, n = m + 1 := ⟨n - 1, by simp at hn; omega⟩
    obtain ⟨hb, ha, he⟩ := readByte_adv hs p hp 10 rest (by simpa using hd)
    exact ⟨(readByte z).2, by simp [headerLoop, hb, he], ha.castTo (by simp)⟩
  | cons c t ih =>
    intro n z p rest hs hp hd hnot hn
    obtain ⟨m, rfl⟩ : ∃ m, n = m + 1 := ⟨n - 1, by simp at hn; omega⟩
    have hc : c ≠ 10 := fun h => hnot (by simp [h])
    obtain ⟨hb, ha, he⟩ := readByte_adv hs p hp c (t ++ 10 :: rest) (by simpa using hd)
    obtain ⟨z', hz', ha'⟩ := ih m (readByte z).2 (p + 1) rest ha.str
      (by rw [ha.raw]; simp [hp]) (drop_succ_of_drop (by simpa using hd))
      (fun h => hnot (by simp [h])) (by simp at hn; omega)
    refine ⟨z', by simp [headerLoop, hb, he, hc, hz'], (ha.trans ha').castTo ?_⟩
    simp
    omega


theorem Adv.unreadBy {w : Bool} {input : List UInt8} {z z' : Tokenizer} {a : Int}
    (h : Adv w input z z' a) (hz : z.raw.start ≤ z.raw.end_) (k : Int) (hk0 : 0 ≤ k)
    (hk : k ≤ a) : Adv w input z (unread z' k) (a - k) := by
  have h2 := unread_adv h.str k hk0 (by rw [h.raw]; simp; omega)
  exact (h.trans h2).castTo (by omega)

theorem skipWhiteSpaceLoop_ok {w : Bool} {input : List UInt8} :
    ∀ (k n : Nat) (z : Tokenizer) (p : Nat) (b : UInt8) (rest : List UInt8),
      Str w input z → z.raw.end_ = (p : Int) →
      input.drop p = List.replicate k 32 ++ b :: rest → b ≠ 32 → k < n →
      ∃ z', skipWhiteSpaceLoop n z = some z' ∧ Adv w input z z' k := by
  intro k
  induction k with
  | zero =>
    intro n z p b rest hs hp hd hb32 hn
    obtain ⟨m, rfl⟩ : ∃ m, n = m + 1 := ⟨n - 1, by omega⟩
    obtain ⟨hb, ha, he⟩ := readByte_adv hs p hp b rest (by simpa using hd)
    exact ⟨unread (readByte z).2 1, by simp [skipWhiteSpaceLoop, hb, he, hb32],
      (ha.unreadBy hs.start_le 1 (by omega) (by omega)).castTo (by simp)⟩
  | succ k ih =>
    intro n z p b rest hs hp hd hb32 hn
    obtain ⟨m, rfl⟩ : ∃ m, n = m + 1 := ⟨n - 1, by omega⟩
    have hd' : input.drop p = 32 :: (List.replicate k 32 ++ b :: rest) := by
      simpa [List.replicate_succ] using hd
    obtain ⟨hb, ha, he⟩ := readByte_adv hs p hp 32 _ hd'
    obtain ⟨z', hz', ha'⟩ := ih m (readByte z).2 (p + 1) b rest ha.str
      (by rw [ha.raw]; simp [hp]) (drop_succ_of_drop hd') hb32 (by omega)
    refine ⟨z', by simp [skipWhiteSpaceLoop, hb, he, hz'], (ha.trans ha').castTo ?_⟩
    push_cast
    omega

theorem dataLoop_ok {w : Bool} {input : List UInt8} :
    ∀ (t : List UInt8) (n lineNo : Nat) (z : Tokenizer) (p : Nat) (rest : List UInt8),
      Str w input z → z.raw.end_ = (p : Int) → input.drop p = t ++ 42 :: rest →
      42 ∉ t → t.length < n →
      ∃ z', dataLoop n lineNo z = some (lineNo + t.count 10, z') ∧
        Adv w input z z' t.length := by
  intro t
  induction t with
  | nil =>
    intro n lineNo z p rest hs hp hd _ hn
    obtain ⟨m, rfl⟩ : ∃ m, n = m + 1 := ⟨n - 1, by simp at hn; omega⟩
    obtain ⟨hb, ha, he⟩ := readByte_adv hs p hp 42 rest (by simpa using hd)
    exact ⟨unread (readByte z).2 1, by simp [dataLoop, hb, he],
      (ha.unreadBy hs.start_le 1 (by omega) (by omega)).castTo (by simp)⟩
  | cons c t ih =>
    intro n lineNo z p rest hs hp hd hnot hn
    obtain ⟨m, rfl⟩ : ∃ m, n = m + 1 := ⟨n - 1, by simp at hn; omega⟩
    have hc : c ≠ 42 := fun h => hnot (by simp [h])
    have hd' : input.drop p = c :: (t ++ 42 :: rest) := by simpa using hd
    obtain ⟨hb, ha, he⟩ := readByte_adv hs p hp c _ hd'
    by_cases hc10 : c = 10
    · obtain ⟨z', hz', ha'⟩ := ih m (lineNo + 1) (readByte z).2 (p + 1) rest ha.str
        (by rw [ha.raw]; simp [hp]) (drop_succ_of_drop hd')
        (fun h => hnot (by simp [h])) (by simp at hn; omega)
      refine ⟨z', ?_, (ha.trans ha').castTo (by simp; omega)⟩
      rw [hc10] at hb
      simp only [dataLoop, hb, he]
      simp [hz', hc10, List.count_cons]
      omega
    · obtain ⟨z', hz', ha'⟩ := ih m lineNo (readByte z).2 (p + 1) rest ha.str
        (by rw [ha.raw]; simp [hp]) (drop_succ_of_drop hd')
        (fun h => hnot (by simp [h])) (by simp at hn; omega)
      refine ⟨z', ?_, (ha.trans ha').castTo (by simp; omega)⟩
      simp only [dataLoop, hb, he]
      have : ¬ (10 = c) := fun h => hc10 h.symm
      simp [hz', hc10, hc, List.count_cons, this]

theorem readUntilLineBreakLoop_ok {w : Bool} {input : List UInt8} :
    ∀ (t : List UInt8) (n : Nat) (z : Tokenizer) (p : Nat) (rest : List UInt8),
      Str w input z → z.raw.end_ = (p : Int) → input.drop p = t ++ 10 :: rest →
      10 ∉ t → t.length < n →
      ∃ z', Adv w input z z' (t.length + 1) ∧
        readUntilLineBreakLoop n z =
          some { z' with data := ⟨z.data.start, (p : Int) + t.length + 1⟩ } := by
  intro t
  induction t with
  | nil =>
    intro n z p rest hs hp hd _ hn
    obtain ⟨m, rfl⟩ : ∃ m, n = m + 1 := ⟨n - 1, by simp at hn; omega⟩
    obtain ⟨hb, ha, he⟩ := readByte_adv hs p hp 10 rest (by simpa using hd)
    refine ⟨(readByte z).2, ha.castTo (by simp), ?_⟩
    simp [readUntilLineBreakLoop, hb, he, ha.data, ha.raw, hp]
  | cons c t ih =>
    intro n z p rest hs hp hd hnot hn
    obtain ⟨m, rfl⟩ : ∃ m, n = m + 1 := ⟨n - 1, by simp at hn; omega⟩
    have hc : c ≠ 10 := fun h => hnot (by simp [h])
    have hd' : input.drop p = c :: (t ++ 10 :: rest) := by simpa using hd
    obtain ⟨hb, ha, he⟩ := readByte_adv hs p hp c _ hd'
    obtain ⟨z', ha', hz'⟩ := ih m (readByte z).2 (p + 1) rest ha.str
      (by rw [ha.raw]; simp [hp]) (drop_succ_of_drop hd')
      (fun h => hnot (by simp [h])) (by simp at hn; omega)
    refine ⟨z', (ha.trans ha').castTo (by simp; omega), ?_⟩
    simp only [readUntilLineBreakLoop, hb, he]
    simp [hc, hz', ha.data]
    omega

theorem readKeywordNameLoop_nl {w : Bool} {input : List UInt8} :
    ∀ (t : List UInt8) (n : Nat) (z : Tokenizer) (p : Nat) (rest : List UInt8),
      Str w input z → z.raw.end_ = (p : Int) → input.drop p = t ++ 10 :: rest →
      10 ∉ t → 44 ∉ t → t.length < n →
      ∃ z', Adv w input z z' t.length ∧
        readKeywordNameLoop n z =
          some { z' with name := ⟨z.name.start, (p : Int) + t.length⟩ } := by
  intro t
  induction t with
  | nil =>
    intro n z p rest hs hp hd _ _ hn
    obtain ⟨m, rfl⟩ : ∃ m, n = m + 1 := ⟨n - 1, by simp at hn; omega⟩
    obtain ⟨hb, ha, he⟩ := readByte_adv hs p hp 10 rest (by simpa using hd)
    refine ⟨unread (readByte z).2 1,
      (ha.unreadBy hs.start_le 1 (by omega) (by omega)).castTo (by simp), ?_⟩
    simp [readKeywordNameLoop, hb, he, unread, ha.name, ha.raw, hp]
  | cons c t ih =>
    intro n z p rest hs hp hd hnot hnot2 hn
    obtain ⟨m, rfl⟩ : ∃ m, n = m + 1 := ⟨n - 1, by simp at hn; omega⟩
    have hc : c ≠ 10 := fun h => hnot (by simp [h])
    have hc2 : c ≠ 44 := fun h => hnot2 (by simp [h])
    have hd' : input.drop p = c :: (t ++ 10 :: rest) := by simpa using hd
    obtain ⟨hb, ha, he⟩ := readByte_adv hs p hp c _ hd'
    obtain ⟨z', ha', hz'⟩ := ih m (readByte z).2 (p + 1) rest ha.str
      (by rw [ha.raw]; simp [hp]) (drop_succ_of_drop hd')
      (fun h => hnot (by simp [h])) (fun h => hnot2 (by simp [h])) (by simp at hn; omega)
    refine ⟨z', (ha.trans ha').castTo (by simp; omega), ?_⟩
    simp only [readKeywordNameLoop, hb, he]
    simp [hc, hc2, hz', ha.name]
    omega

theorem readKeywordNameLoop_comma {w : Bool} {input : List UInt8} :
    ∀ (t : List UInt8) (n : Nat) (z : Tokenizer) (p : Nat) (rest : List UInt8),
      Str w input z → z.raw.end_ = (p : Int) → input.drop p = t ++ 44 :: rest →
      10 ∉ t → 44 ∉ t → t.length < n →
      ∃ z', Adv w input z z' (t.length + 1) ∧
        readKeywordNameLoop n z =
          some { z' with name := ⟨z.name.start, (p : Int) + t.length⟩ } := by
  intro t
  induction t with
  | nil =>
    intro n z p rest hs hp hd _ _ hn
    obtain ⟨m, rfl⟩ : ∃ m, n = m + 1 := ⟨n - 1, by simp at hn; omega⟩
    obtain ⟨hb, ha, he⟩ := readByte_adv hs p hp 44 rest (by simpa using hd)
    refine ⟨(readByte z).2, ha.castTo (by simp), ?_⟩
    simp [readKeywordNameLoop, hb, he, ha.name, ha.raw, hp]
  | cons c t ih =>
    intro n z p rest hs hp hd hnot hnot2 hn
    obtain ⟨m, rfl⟩ : ∃ m, n = m + 1 := ⟨n - 1, by simp at hn; omega⟩
    have hc : c ≠ 10 := fun h => hnot (by simp [h])
    have hc2 : c ≠ 44 := fun h => hnot2 (by simp [h])
    have hd' : input.drop p = c :: (t ++ 44 :: rest) := by simpa using hd
    obtain ⟨hb, ha, he⟩ := readByte_adv hs p hp c _ hd'
    obtain ⟨z', ha', hz'⟩ := ih m (readByte z).2 (p + 1) rest ha.str
      (by rw [ha.raw]; simp [hp]) (drop_succ_of_drop hd')
      (fun h => hnot (by simp [h])) (fun h => hnot2 (by simp [h])) (by simp at hn; omega)
    refine ⟨z', (ha.trans ha').castTo (by simp; omega), ?_⟩
    simp only [readKeywordNameLoop, hb, he]
    simp [hc, hc2, hz', ha.name]
    omega


theorem At.adv {w : Bool} {input : List UInt8} {z z' : Tokenizer} {s e : Int}
    {nm dt pr : span} {t : TokenType} {k : Int} (h : At w input z s e nm dt pr t)
    (ha : Adv w input z z' k) : At w input z' s (e + k) nm dt pr t := by
  refine ⟨ha.str, ?_, ha.name.trans h.name, ha.data.trans h.data, ha.params.trans h.params,
    ha.tt.trans h.tt⟩
  rw [ha.raw, h.raw]

theorem Str.congr {w : Bool} {input : List UInt8} {z z' : Tokenizer} (h : Str w input z)
    (h1 : z'.r = z.r) (h2 : z'.err = z.err) (h3 : z'.readErr = z.readErr) (h4 : z'.raw = z.raw)
    (h5 : z'.buf = z.buf) (h6 : z'.bufLen = z.bufLen) (h7 : z'.bufCap = z.bufCap) :
    Str w input z' := by
  obtain ⟨a1, a2, a3, a4, a5, a6, a7, a8, a9⟩ := h
  refine ⟨?_, ?_, ?_, ?_, ?_, ?_, ?_, ?_, ?_⟩
  · rw [h2]; exact a1
  · rw [h3]; exact a2
  · rw [h4]; exact a3
  · rw [h4]; exact a4
  · rw [h4, h6]; exact a5
  · rw [h6, h7]; exact a6
  · rw [h7]; exact a7
  · rw [h5, h6]; exact a8
  · rw [h1, h4, h5, h6, h7]; exact a9

theorem At.setName {w : Bool} {input : List UInt8} {z : Tokenizer} {s e : Int}
    {nm dt pr : span} {t : TokenType} (h : At w input z s e nm dt pr t) (nm' : span) :
    At w input { z with name := nm' } s e nm' dt pr t :=
  ⟨h.str.congr rfl rfl rfl rfl rfl rfl rfl, h.raw, rfl, h.data, h.params, h.tt⟩

theorem At.setData {w : Bool} {input : List UInt8} {z : Tokenizer} {s e : Int}
    {nm dt pr : span} {t : TokenType} (h : At w input z s e nm dt pr t) (dt' : span) :
    At w input { z with data := dt' } s e nm dt' pr t :=
  ⟨h.str.congr rfl rfl rfl rfl rfl rfl rfl, h.raw, h.name, rfl, h.params, h.tt⟩

theorem At.setParams {w : Bool} {input : List UInt8} {z : Tokenizer} {s e : Int}
    {nm dt pr : span} {t : TokenType} (h : At w input z s e nm dt pr t) (pr' : span) :
    At w input { z with params := pr' } s e nm dt pr' t :=
  ⟨h.str.congr rfl rfl rfl rfl rfl rfl rfl, h.raw, h.name, h.data, rfl, h.tt⟩

theorem At.setTT {w : Bool} {input : List UInt8} {z : Tokenizer} {s e : Int}
    {nm dt pr : span} {t : TokenType} (h : At w input z s e nm dt pr t) (t' : TokenType) :
    At w input { z with tt := t' } s e nm dt pr t' :=
  ⟨h.str.congr rfl rfl rfl rfl rfl rfl rfl, h.raw, h.name, h.data, h.params, rfl⟩

theorem At.end_eq {w : Bool} {input : List UInt8} {z : Tokenizer} {s e : Int}
    {nm dt pr : span} {t : TokenType} (h : At w input z s e nm dt pr t) : z.raw.end_ = e := by
  rw [h.raw]

theorem At.start_le {w : Bool} {input : List UInt8} {z : Tokenizer} {s e : Int}
    {nm dt pr : span} {t : TokenType} (h : At w input z s e nm dt pr t) : s ≤ e := by
  have := h.str.start_le
  rw [h.raw] at this
  exact this

theorem At.cast {w : Bool} {input : List UInt8} {z : Tokenizer} {s e e' : Int}
    {nm nm' dt dt' pr pr' : span} {t : TokenType} (h : At w input z s e nm dt pr t)
    (he : e = e') (hn : nm = nm') (hd : dt = dt') (hp : pr = pr') :
    At w input z s e' nm' dt' pr' t := by
  subst he hn hd hp
  exact h

/-- One successful `readByte`. -/
theorem At.readByte {w : Bool} {input : List UInt8} {z : Tokenizer} {s : Int} {p : Nat}
    {nm dt pr : span} {t : TokenType} (h : At w input z s p nm dt pr t)
    (b : UInt8) (rest : List UInt8) (hd : input.drop p = b :: rest) :
    (InpParser.readByte z).1 = b ∧ (InpParser.readByte z).2.err = none ∧
      At w input (InpParser.readByte z).2 s ((p + 1 : Nat) : Int) nm dt pr t := by
  obtain ⟨h1, h2, h3⟩ := readByte_adv h.str p h.end_eq b rest hd
  exact ⟨h1, h3, (h.adv h2).cast (by push_cast; rfl) rfl rfl rfl⟩

theorem readKeywordName_nl {w : Bool} {input : List UInt8} {z : Tokenizer} {s : Int}
    {p : Nat} {nm dt pr : span} {t : TokenType} (h : At w input z s p nm dt pr t)
    (name rest : List UInt8) (hd : input.drop p = name ++ 10 :: rest)
    (h10 : 10 ∉ name) (h44 : 44 ∉ name) :
    ∃ z', readKeywordName z = some z' ∧
      At w input z' s ((p + name.length : Nat) : Int)
        ⟨(p : Int) - 1, (p : Int) + name.length⟩ dt pr t := by
  have h1 := h.setName ⟨z.raw.end_ - 1, z.name.end_⟩
  have hf := fuel_gt h1.str p h1.end_eq name (10 :: rest) hd
  obtain ⟨z', ha, hz'⟩ := readKeywordNameLoop_nl name
    (fuel { z with name := ⟨z.raw.end_ - 1, z.name.end_⟩ })
    { z with name := ⟨z.raw.end_ - 1, z.name.end_⟩ } p rest h1.str h1.end_eq hd h10 h44
    (by omega)
  have h2 := (h1.adv ha).setName ⟨z.raw.end_ - 1, (p : Int) + name.length⟩
  refine ⟨_, hz', h2.cast (by push_cast; omega) (by rw [h.end_eq]) rfl rfl⟩

theorem readKeywordName_comma {w : Bool} {input : List UInt8} {z : Tokenizer} {s : Int}
    {p : Nat} {nm dt pr : span} {t : TokenType} (h : At w input z s p nm dt pr t)
    (name rest : List UInt8) (hd : input.drop p = name ++ 44 :: rest)
    (h10 : 10 ∉ name) (h44 : 44 ∉ name) :
    ∃ z', readKeywordName z = some z' ∧
      At w input z' s ((p + name.length + 1 : Nat) : Int)
        ⟨(p : Int) - 1, (p : Int) + name.length⟩ dt pr t := by
  have h1 := h.setName ⟨z.raw.end_ - 1, z.name.end_⟩
  have hf := fuel_gt h1.str p h1.end_eq name (44 :: rest) hd
  obtain ⟨z', ha, hz'⟩ := readKeywordNameLoop_comma name
    (fuel { z with name := ⟨z.raw.end_ - 1, z.name.end_⟩ })
    { z with name := ⟨z.raw.end_ - 1, z.name.end_⟩ } p rest h1.str h1.end_eq hd h10 h44
    (by omega)
  have h2 := (h1.adv ha).setName ⟨z.raw.end_ - 1, (p : Int) + name.length⟩
  refine ⟨_, hz', h2.cast (by push_cast; omega) (by rw [h.end_eq]) rfl rfl⟩

theorem skipWhiteSpace_ok {w : Bool} {input : List UInt8} {z : Tokenizer} {s : Int}
    {p : Nat} {nm dt pr : span} {t : TokenType} (h : At w input z s p nm dt pr t)
    (k : Nat) (b : UInt8) (rest : List UInt8)
    (hd : input.drop p = List.replicate k 32 ++ b :: rest) (hb : b ≠ 32) :
    ∃ z', skipWhiteSpace z = some z' ∧ At w input z' s ((p + k : Nat) : Int) nm dt pr t := by
  have hf := fuel_gt h.str p h.end_eq _ (b :: rest) hd
  obtain ⟨z', hz', ha⟩ := skipWhiteSpaceLoop_ok k (fuel z) z p b rest h.str h.end_eq hd hb
    (by simp at hf; omega)
  refine ⟨z', ?_, (h.adv ha).cast (by push_cast; rfl) rfl rfl rfl⟩
  simp only [skipWhiteSpace, h.str.err, hz']
  simp

theorem drop_append_of_drop {l : List UInt8} {p : Nat} {t r : List UInt8}
    (h : l.drop p = t ++ r) : l.drop (p + t.length) = r := by
  rw [← List.drop_drop, h]
  simp

theorem spaces_split (line : List UInt8) :
    ∃ (k : Nat) (line' : List UInt8), line = List.replicate k 32 ++ line' ∧
      ∀ b r, line' = b :: r → b ≠ 32 := by
  induction line with
  | nil => exact ⟨0, [], by simp, by simp⟩
  | cons c t ih =>
    by_cases hc : c = 32
    · obtain ⟨k, line', h1, h2⟩ := ih
      exact ⟨k + 1, line', by simp [List.replicate_succ, hc, h1], h2⟩
    · refine ⟨0, c :: t, by simp, ?_⟩
      intro b r h
      simp at h
      rw [← h.1]
      exact hc

/-- Functions `skipWhiteSpace` and the first loop of `readKeywordWithData` together consume the rest
of the keyword line. -/
theorem skip_header_ok {w : Bool} {input : List UInt8} {z : Tokenizer} {s : Int} {p : Nat}
    {nm dt pr : span} {t : TokenType} (h : At w input z s p nm dt pr t)
    (line rest : List UInt8) (hd : input.drop p = line ++ 10 :: rest) (h10 : 10 ∉ line) :
    ∃ z1 z2, skipWhiteSpace z = some z1 ∧ z1.err = none ∧
      headerLoop (fuel z1) z1 = some z2 ∧ z2.err = none ∧
      At w input z2 s ((p + line.length + 1 : Nat) : Int) nm dt pr t := by
  obtain ⟨k, line', hl, hne⟩ := spaces_split line
  have h10' : 10 ∉ line' := fun hm => h10 (by rw [hl]; simp [hm])
  have hlen : line.length = k + line'.length := by rw [hl]; simp
  have hb : ∃ b r, line' ++ 10 :: rest = b :: r ∧ b ≠ 32 := by
    cases hq : line' with
    | nil => exact ⟨10, rest, by simp, by decide⟩
    | cons b r => exact ⟨b, r ++ 10 :: rest, by simp, hne b r hq⟩
  obtain ⟨b, r, hbr, hb32⟩ := hb
  have hd1 : input.drop p = List.replicate k 32 ++ b :: r := by
    rw [hd, hl, ← hbr]; simp
  obtain ⟨z1, hz1, h1⟩ := skipWhiteSpace_ok h k b r hd1 hb32
  have hd2 : input.drop (p + k) = line' ++ 10 :: rest := by
    have := drop_append_of_drop hd1
    simpa [hbr] using this
  have hf := fuel_gt h1.str (p + k) h1.end_eq line' (10 :: rest) hd2
  obtain ⟨z2, hz2, ha⟩ := headerLoop_ok line' (fuel z1) z1
    (p + k) rest h1.str h1.end_eq hd2 h10' (by omega)
  refine ⟨z1, z2, hz1, h1.str.err, hz2, ha.str.err, (h1.adv ha).cast ?_ rfl rfl rfl⟩
  push_cast
  omega

/-- A keyword whose header line and data lines are followed by a `*`. -/
theorem readKeywordWithData_ok {w : Bool} {input : List UInt8} {z : Tokenizer} {s : Int}
    {p : Nat} {nm dt pr : span} {t : TokenType} (h : At w input z s p nm dt pr t)
    (name tail D rest : List UInt8)
    (hd : input.drop p = name ++ tail ++ 10 :: (D ++ 42 :: rest))
    (hname10 : 10 ∉ name) (hname44 : 44 ∉ name)
    (htail : tail = [] ∨ ∃ line, tail = 44 :: line) (htail10 : 10 ∉ tail) (hD : 42 ∉ D) :
    ∃ z', readKeywordWithData z = some (TokenType.KeywordToken, z') ∧
    At w input z' s
      ((p + name.length + tail.length + 1 + D.length : Nat) : Int)
      ⟨(p : Int) - 1, (p : Int) + name.length⟩
      (if 10 ∈ D then ⟨(p : Int) + name.length + tail.length + 1,
          (p : Int) + name.length + tail.length + 1 + D.length⟩ else dt)
      ⟨(p : Int) + name.length + 2, (p : Int) + name.length + tail.length⟩ t := by
  obtain ⟨q, hq⟩ : ∃ q : Nat, q = p + name.length + tail.length + 1 := ⟨_, rfl⟩
  have key : ∃ z0 z1 z2, readKeywordName z = some z0 ∧ skipWhiteSpace z0 = some z1 ∧
      z1.err = none ∧ headerLoop (fuel z1) z1 = some z2 ∧ z2.err = none ∧
      At w input z2 s (q : Int) ⟨(p : Int) - 1, (p : Int) + name.length⟩ dt pr t := by
    rcases htail with h0 | ⟨line, h0⟩
    · subst h0
      obtain ⟨z0, hz0, h1⟩ := readKeywordName_nl h name (D ++ 42 :: rest) (by simpa using hd)
        hname10 hname44
      have hd1 : input.drop (p + name.length) = [] ++ 10 :: (D ++ 42 :: rest) := by
        have := drop_append_of_drop (t := name) (r := 10 :: (D ++ 42 :: rest))
          (by simpa using hd)
        simpa using this
      obtain ⟨z1, z2, a, b, c, d, e⟩ := skip_header_ok h1 [] (D ++ 42 :: rest) hd1 (by simp)
      exact ⟨z0, z1, z2, hz0, a, b, c, d, e.cast (by simp [hq]) rfl rfl rfl⟩
    · subst h0
      have h10l : 10 ∉ line := fun hm => htail10 (by simp [hm])
      obtain ⟨z0, hz0, h1⟩ := readKeywordName_comma h name (line ++ 10 :: (D ++ 42 :: rest))
        (by simpa using hd) hname10 hname44
      have hd1 : input.drop (p + name.length + 1) = line ++ 10 :: (D ++ 42 :: rest) := by
        have := drop_append_of_drop (t := name ++ [44]) (r := line ++ 10 :: (D ++ 42 :: rest))
          (by simpa using hd)
        simpa [Nat.add_assoc] using this
      obtain ⟨z1, z2, a, b, c, d, e⟩ := skip_header_ok h1 line (D ++ 42 :: rest) hd1 h10l
      exact ⟨z0, z1, z2, hz0, a, b, c, d, e.cast (by simp [hq]; omega) rfl rfl rfl⟩
  obtain ⟨z0, z1, z2, hz0, hz1, he1, hz2, he2, h2⟩ := key
  have hd2 : input.drop q = D ++ 42 :: rest := by
    have := drop_append_of_drop (t := name ++ tail ++ [10]) (r := D ++ 42 :: rest)
      (by simpa using hd)
    rw [hq]
    simpa [Nat.add_assoc] using this
  have h3 := h2.setParams ⟨z2.name.end_ + 2, z2.raw.end_ - 1⟩
  have hf := fuel_gt h3.str q h3.end_eq D (42 :: rest) hd2
  obtain ⟨z4, hz4, ha4⟩ := dataLoop_ok D
    (fuel { z2 with params := ⟨z2.name.end_ + 2, z2.raw.end_ - 1⟩ }) 1
    { z2 with params := ⟨z2.name.end_ + 2, z2.raw.end_ - 1⟩ } q rest h3.str h3.end_eq hd2 hD
    (by omega)
  have h4 := h3.adv ha4
  have hrk : readKeywordWithData z =
      if 1 + D.count 10 > 1 then
        some (TokenType.KeywordToken, { z4 with data := ⟨z4.params.end_ + 1, z4.raw.end_⟩ })
      else some (TokenType.KeywordToken, z4) := by
    simp only [readKeywordWithData, hz0, hz1, Option.some_bind, he1, hz2, hz4]
    simp [he2, h4.str.err]
  rw [hrk]
  have hcnt : 1 + D.count 10 > 1 ↔ 10 ∈ D := by
    rw [← List.count_pos_iff]
    omega
  by_cases hm : 10 ∈ D
  · rw [if_pos (hcnt.mpr hm), if_pos hm]
    refine ⟨_, rfl, (h4.setData _).cast ?_ rfl ?_ ?_⟩
    · push_cast; omega
    · rw [h4.params, h4.end_eq, h2.end_eq, hq]; simp
    · rw [h2.name, h2.end_eq, hq]; simp
  · rw [if_neg (fun hc => hm (hcnt.mp hc)), if_neg hm]
    refine ⟨_, rfl, h4.cast ?_ rfl rfl ?_⟩
    · push_cast; omega
    · rw [h2.name, h2.end_eq, hq]; simp

theorem At.next {w : Bool} {input : List UInt8} {z : Tokenizer} {s : Int} {p : Nat}
    {nm dt pr : span} {t : TokenType} (h : At w input z s p nm dt pr t)
    (hw : w = true ∨ p = 0) :
    At w input { z with raw := ⟨z.raw.end_, z.raw.end_⟩, data := ⟨z.raw.end_, z.raw.end_⟩ }
      p p nm ⟨p, p⟩ pr t := by
  have he := h.end_eq
  obtain ⟨a1, a2, a3, a4, a5, a6, a7, a8, cs, b1, b2, b3, b4, b5⟩ := h.str
  refine ⟨⟨a1, a2, ?_, le_refl _, a5, a6, a7, a8, cs, b1, b2, b3, ?_, b5⟩, ?_, h.name, ?_,
    h.params, h.tt⟩
  · show 0 ≤ z.raw.end_
    omega
  · show z.raw.end_ = 0 ∨ cs = []
    rcases hw with hw | hw
    · obtain ⟨_, _, c3⟩ := b5 hw
      rcases c3 with c3 | c3
      · left; omega
      · right; exact c3
    · left; rw [he, hw]; rfl
  · rw [he]
  · rw [he]

theorem At_new (chunks : List (List UInt8)) (hne : ∀ c ∈ chunks, c ≠ []) :
    At false chunks.flatten (NewTokenizer (chunkReader chunks)) 0 (0 : Nat) ⟨0, 0⟩ ⟨0, 0⟩ ⟨0, 0⟩
      TokenType.ErrorToken := by
  refine ⟨⟨rfl, rfl, le_refl _, le_refl _, le_refl _, ?_, ?_, ?_, chunks, rfl, hne, ?_, Or.inl rfl,
    ?_⟩, rfl, rfl, rfl, rfl, rfl⟩ <;> simp [NewTokenizer]

theorem At_new_whole (input : List UInt8) (hlen : input.length ≤ 10240) :
    At true input (NewTokenizer (stringsReader input)) 0 (0 : Nat) ⟨0, 0⟩ ⟨0, 0⟩ ⟨0, 0⟩
      TokenType.ErrorToken := by
  refine ⟨⟨rfl, rfl, le_refl _, le_refl _, le_refl _, ?_, ?_, ?_,
    (if input = [] then [] else [input]), rfl, ?_, ?_, Or.inl rfl, ?_⟩, rfl, rfl, rfl, rfl, rfl⟩
  · simp [NewTokenizer]
  · simp [NewTokenizer]
  · simp [NewTokenizer]
  · intro c hc
    split at hc <;> simp at hc
    rw [hc]; assumption
  · split <;> simp [NewTokenizer, *]
  · intro _
    refine ⟨by simpa [NewTokenizer] using hlen, ?_, Or.inl rfl⟩
    split <;> simp

theorem goSlice_eq {w : Bool} {input : List UInt8} {z : Tokenizer} (h : Str w input z)
    (a b : Nat) (hab : a ≤ b) (hb : (b : Int) ≤ z.raw.end_) :
    goSlice z ⟨(a : Int), (b : Int)⟩ = some ((input.drop a).take (b - a)) := by
  obtain ⟨cs, _, _, hin, _, _⟩ := h.rd
  have h1 := h.end_le
  have h2 := h.len_le_cap
  have h3 := h.len_le
  have hbl : b ≤ z.bufLen := by omega
  have hc : (0 : Int) ≤ (a : Int) ∧ (a : Int) ≤ (b : Int) ∧ (b : Int) ≤ (z.bufCap : Int) := by
    omega
  simp only [goSlice, hc, and_self, if_true]
  rw [sliceBuf_eq z.buf a b (by omega) (by omega)]
  have e1 : ((b : Int) - (a : Int)).toNat = b - a := by omega
  rw [e1, Int.toNat_ofNat, ← List.drop_take, ← List.drop_take, ← hin,
    List.take_append_of_le_length (by rw [List.length_take]; omega), List.take_take,
    Nat.min_eq_left hbl]

theorem take_of_drop {l : List UInt8} {p : Nat} {t r : List UInt8} (h : l.drop p = t ++ r) :
    (l.drop p).take t.length = t := by
  rw [h]
  simp


/-- Function `Next` at a `*`: the rest of the call is `nextAfterStar`. -/
theorem Next_star {w : Bool} {input : List UInt8} {z : Tokenizer} {s : Int} {p : Nat}
    {nm dt pr : span} {t : TokenType} (h : At w input z s p nm dt pr t)
    (hw : w = true ∨ p = 0) (rest : List UInt8) (hd : input.drop p = 42 :: rest) :
    ∃ z1, Next z = nextAfterStar z1 ∧ At w input z1 p ((p + 1 : Nat) : Int) nm ⟨p, p⟩ pr t := by
  have h0 := h.next hw
  have hf := fuel_gt h0.str p h0.end_eq [42] rest (by simpa using hd)
  obtain ⟨m, hm⟩ := Nat.exists_eq_succ_of_ne_zero
    (Nat.ne_of_gt (Nat.lt_of_le_of_lt (Nat.zero_le _) hf))
  obtain ⟨hb, he, h1⟩ := h0.readByte 42 rest hd
  refine ⟨_, ?_, h1⟩
  have herr : ¬ (z.err ≠ none) := by simp [h.str.err]
  simp only [Next]
  rw [if_neg herr, hm]
  simp [nextLoop, hb, he]

theorem Next_keyword {w : Bool} {input : List UInt8} {z : Tokenizer} {s : Int} {p : Nat}
    {nm dt pr : span} {t : TokenType} (h : At w input z s p nm dt pr t)
    (hw : w = true ∨ p = 0) (c : UInt8) (name tail D rest : List UInt8)
    (hd : input.drop p = 42 :: c :: (name ++ tail ++ 10 :: (D ++ 42 :: rest)))
    (hc1 : c ≠ 42) (hc2 : c ≠ 69) (hc3 : c ≠ 101)
    (hname10 : 10 ∉ name) (hname44 : 44 ∉ name)
    (htail : tail = [] ∨ ∃ line, tail = 44 :: line) (htail10 : 10 ∉ tail) (hD : 42 ∉ D) :
    ∃ z', Next z = some z' ∧
    At w input z' p ((p + 2 + name.length + tail.length + 1 + D.length : Nat) : Int)
      ⟨(p : Int) + 1, (p : Int) + 2 + name.length⟩
      (if 10 ∈ D then ⟨(p : Int) + 2 + name.length + tail.length + 1,
          (p : Int) + 2 + name.length + tail.length + 1 + D.length⟩ else ⟨p, p⟩)
      ⟨(p : Int) + 2 + name.length + 2, (p : Int) + 2 + name.length + tail.length⟩
      TokenType.KeywordToken := by
  obtain ⟨z1, hz1, h1⟩ := Next_star h hw _ hd
  obtain ⟨hb, he, h2⟩ := h1.readByte c _ (drop_succ_of_drop hd)
  have hd2 : input.drop (p + 1 + 1) = name ++ tail ++ 10 :: (D ++ 42 :: rest) :=
    drop_succ_of_drop (drop_succ_of_drop hd)
  obtain ⟨z', hk1, hk2⟩ := readKeywordWithData_ok h2 name tail D rest hd2 hname10 hname44 htail
    htail10 hD
  have hn : Next z = some { z' with tt := TokenType.KeywordToken } := by
    rw [hz1]
    simp only [nextAfterStar, hb, he]
    simp [hc1, hc2, hc3, hk1]
  refine ⟨_, hn, (hk2.setTT _).cast ?_ ?_ ?_ ?_⟩
  · push_cast; omega
  · simp; omega
  · split <;> first | (simp; omega) | simp
  · simp; omega

theorem slice_of_eq {l : List UInt8} (A X B : List UInt8) (h : l = A ++ X ++ B) (a b : Nat)
    (ha : a = A.length) (hb : b = A.length + X.length) : (l.drop a).take (b - a) = X := by
  subst ha hb h
  simp

theorem goSlice_of_eq {w : Bool} {input : List UInt8} {z : Tokenizer} (h : Str w input z)
    (A X B : List UInt8) (hin : input = A ++ X ++ B) (a b : Int) (ha : a = (A.length : Int))
    (hb : b = (A.length : Int) + X.length) (he : b ≤ z.raw.end_) :
    goSlice z ⟨a, b⟩ = some X := by
  subst ha hb
  have := goSlice_eq h A.length (A.length + X.length) (by omega) (by push_cast; exact he)
  rw [slice_of_eq A X B hin _ _ rfl rfl] at this
  rw [← this]
  push_cast
  rfl

/-- C1: for an input `*` + name + `\n` + D + `*` + rest, delivered in any non-empty
chunks, where name is non-empty, has no `,` or `\n` and does not begin with `*`, `E` or `e`,
and D is a non-empty run of `\n`-terminated lines without `*`, the first `Next` on a fresh
tokenizer returns `KeywordToken` and `Token` has `Name = name`, no attributes and
`Data = D`. -/
theorem keyword_with_data_first_token (chunks : List (List UInt8)) (name D rest : List UInt8)
    (hchunks : ∀ c ∈ chunks, c ≠ [])
    (hinput : chunks.flatten = [42] ++ name ++ [10] ++ D ++ [42] ++ rest)
    (hne : name ≠ []) (h44 : 44 ∉ name) (h10 : 10 ∉ name)
    (hstar : name.head? ≠ some 42) (hE : name.head? ≠ some 69) (he : name.head? ≠ some 101)
    (hD : D.getLast? = some 10) (hDs : 42 ∉ D) :
    ∃ z1, Next (NewTokenizer (chunkReader chunks)) = some z1 ∧
      z1.tt = TokenType.KeywordToken ∧
      z1.Token = some { Typ := TokenType.KeywordToken, Name := name, Data := D, Attr := [] } := by
  cases name with
  | nil => exact absurd rfl hne
  | cons c name' =>
    have hc1 : c ≠ 42 := fun h => hstar (by simp [h])
    have hc2 : c ≠ 69 := fun h => hE (by simp [h])
    have hc3 : c ≠ 101 := fun h => he (by simp [h])
    have hmem : 10 ∈ D := List.mem_of_getLast?_eq_some hD
    have h0 := At_new chunks hchunks
    have hd : chunks.flatten.drop 0 = 42 :: c :: (name' ++ [] ++ 10 :: (D ++ 42 :: rest)) := by
      rw [hinput]; simp
    obtain ⟨z1, hz1, hk⟩ := Next_keyword h0 (Or.inr rfl) c name' [] D rest hd hc1 hc2 hc3
      (fun h => h10 (by simp [h])) (fun h => h44 (by simp [h])) (Or.inl rfl) (by simp) hDs
    rw [if_pos hmem] at hk
    refine ⟨z1, hz1, hk.tt, ?_⟩
    have hnm := goSlice_of_eq hk.str [42] (c :: name') ([10] ++ D ++ [42] ++ rest)
      (by rw [hinput]; simp) (((0 : Nat) : Int) + 1) (((0 : Nat) : Int) + 2 + name'.length)
      (by simp) (by simp; omega) (by rw [hk.end_eq]; push_cast; omega)
    have hdt := goSlice_of_eq hk.str ([42] ++ c :: name' ++ [10]) D ([42] ++ rest)
      (by rw [hinput]; simp) (((0 : Nat) : Int) + 2 + name'.length + ([] : List UInt8).length + 1)
      (((0 : Nat) : Int) + 2 + name'.length + ([] : List UInt8).length + 1 + D.length)
      (by simp; omega) (by simp; omega) (by rw [hk.end_eq]; push_cast; omega)
    have hpr : ¬ (z1.params.start < z1.params.end_) := by
      rw [hk.params]; simp
    rw [← hk.name] at hnm
    rw [← hk.data] at hdt
    simp only [Tokenizer.Token, hk.tt, hnm, hdt, Option.bind_eq_bind, Option.some_bind, if_neg hpr]

/-- The spec's own example of C1: `*Node` with two data lines, then `*Element, type=C3D8`. -/
theorem keyword_with_data_first_token_witness :
    ∃ z1, Next (NewTokenizer (chunkReader
        [bytes "*Node\n1, 0.0, 0.0\n2, 1.0, 0.0\n*Element, type=C3D8\n"])) = some z1 ∧
      z1.tt = TokenType.KeywordToken ∧
      z1.Token = some { Typ := TokenType.KeywordToken, Name := bytes "Node",
                        Data := bytes "1, 0.0, 0.0\n2, 1.0, 0.0\n", Attr := [] } :=
  keyword_with_data_first_token [bytes "*Node\n1, 0.0, 0.0\n2, 1.0, 0.0\n*Element, type=C3D8\n"]
    (bytes "Node") (bytes "1, 0.0, 0.0\n2, 1.0, 0.0\n") (bytes "Element, type=C3D8\n")
    (by decide) (by decide) (by decide) (by decide) (by decide) (by decide) (by decide)
    (by decide) (by decide) (by decide)


theorem At.unread {w : Bool} {input : List UInt8} {z : Tokenizer} {s e : Int}
    {nm dt pr : span} {t : TokenType} (h : At w input z s e nm dt pr t)
    (k : Int) (hk0 : 0 ≤ k) (hk : s ≤ e - k) :
    At w input (InpParser.unread z k) s (e - k) nm dt pr t := by
  have ha := unread_adv h.str k hk0 (by rw [h.raw]; exact hk)
  exact (h.adv ha).cast (by omega) rfl rfl rfl

theorem takeWhile_split (line : List UInt8) :
    ∃ tw : List UInt8, tw = line.takeWhile (fun b => b != 44) ∧ 44 ∉ tw ∧
      (tw = line ∨ ∃ l2, line = tw ++ 44 :: l2) := by
  refine ⟨_, rfl, ?_, ?_⟩
  · intro hx
    have := List.mem_takeWhile_imp hx
    simp at this
  · have hsplit := List.takeWhile_append_dropWhile (fun b => b != 44) line
    cases hq : line.dropWhile (fun b => b != 44) with
    | nil =>
      left
      rw [hq, List.append_nil] at hsplit
      exact hsplit
    | cons b l2 =>
      right
      have := List.head_dropWhile_not (fun b => b != 44) line
        (by rw [hq]; simp)
      simp [hq] at this
      refine ⟨l2, ?_⟩
      rw [hq, this] at hsplit
      exact hsplit.symm

/-- The line scan of a comment or end-keyword line; the name span is set only when the
previous token was an `EndKeywordToken`. -/
theorem readUntilLineBreak_ok {w : Bool} {input : List UInt8} {z : Tokenizer} {s : Int}
    {p : Nat} {nm dt pr : span} {t : TokenType} (h : At w input z s p nm dt pr t)
    (line rest : List UInt8) (hd : input.drop p = line ++ 10 :: rest) (h10 : 10 ∉ line) :
    ∃ z', readUntilLineBreak z = some z' ∧
    At w input z' s ((p + line.length + 1 : Nat) : Int)
      (if t = TokenType.EndKeywordToken then
        ⟨(p : Int) - 1, (p : Int) + (line.takeWhile (fun b => b != 44)).length⟩ else nm)
      ⟨(p : Int) - 2, (p : Int) + line.length + 1⟩ pr t := by
  have h1 := h.setData ⟨z.raw.end_ - 2, z.data.end_⟩
  obtain ⟨tw, htw, hl44, hl2⟩ := takeWhile_split line
  rw [← htw]
  have key : ∃ (z2 : Tokenizer) (k : Nat) (l2 : List UInt8),
      (if z.tt = TokenType.EndKeywordToken then
        readKeywordName { z with data := ⟨z.raw.end_ - 2, z.data.end_⟩ }
        else some { z with data := ⟨z.raw.end_ - 2, z.data.end_⟩ }) = some z2 ∧
      input.drop (p + k) = l2 ++ 10 :: rest
      ∧ 10 ∉ l2 ∧ k + l2.length = line.length ∧
      At w input z2 s ((p + k : Nat) : Int)
        (if t = TokenType.EndKeywordToken then ⟨(p : Int) - 1, (p : Int) + tw.length⟩ else nm)
        ⟨(p : Int) - 2, z.data.end_⟩ pr t := by
    by_cases ht : t = TokenType.EndKeywordToken
    · have htt : z.tt = TokenType.EndKeywordToken := by rw [h.tt]; exact ht
      rw [if_pos htt, if_pos ht]
      rcases hl2 with h0 | ⟨l2, h0⟩
      · subst h0
        obtain ⟨z2, hz2, hn⟩ := readKeywordName_nl h1 tw rest hd h10 hl44
        refine ⟨z2, tw.length, [], hz2, ?_, by simp, by simp, hn.cast rfl rfl ?_ rfl⟩
        · have := drop_append_of_drop hd
          simpa using this
        · rw [h.end_eq]
      · subst h0
        have hl10 : 10 ∉ tw := fun hm => h10 (by simp [hm])
        obtain ⟨z2, hz2, hn⟩ := readKeywordName_comma h1 tw (l2 ++ 10 :: rest)
          (by simpa using hd) hl10 hl44
        refine ⟨z2, tw.length + 1, l2, hz2, ?_, ?_, by simp; omega, hn.cast rfl rfl ?_ rfl⟩
        · have := drop_append_of_drop (t := tw ++ [44]) (r := l2 ++ 10 :: rest)
            (by simpa using hd)
          simpa [Nat.add_assoc] using this
        · intro hm
          exact h10 (by simp [hm])
        · rw [h.end_eq]
    · have htt : ¬ z.tt = TokenType.EndKeywordToken := by rw [h.tt]; exact ht
      rw [if_neg htt, if_neg ht]
      exact ⟨_, 0, line, rfl, by simpa using hd, h10, by simp,
        h1.cast (by simp) rfl (by rw [h.end_eq]) rfl⟩
  obtain ⟨z2, k, l2, hz2, hd2, h10', hkl, h2⟩ := key
  have hf := fuel_gt h2.str (p + k) h2.end_eq l2 (10 :: rest) hd2
  obtain ⟨z3, ha, hz3⟩ := readUntilLineBreakLoop_ok l2 (fuel z2) z2 (p + k) rest h2.str
    h2.end_eq hd2 h10' (by omega)
  have hrl : readUntilLineBreak z =
      some { z3 with data := ⟨z2.data.start, ((p + k : Nat) : Int) + l2.length + 1⟩ } := by
    simp only [readUntilLineBreak, hz2, Option.some_bind, hz3]
  refine ⟨_, hrl, ((h2.adv ha).setData _).cast ?_ rfl ?_ rfl⟩
  · push_cast; omega
  · rw [h2.data]
    simp
    omega

theorem Next_comment {w : Bool} {input : List UInt8} {z : Tokenizer} {s : Int} {p : Nat}
    {nm dt pr : span} {t : TokenType} (h : At w input z s p nm dt pr t)
    (hw : w = true ∨ p = 0) (line rest : List UInt8)
    (hd : input.drop p = 42 :: 42 :: (line ++ 10 :: rest)) (h10 : 10 ∉ line) :
    ∃ z', Next z = some z' ∧
    At w input z' p ((p + 2 + line.length + 1 : Nat) : Int)
      (if t = TokenType.EndKeywordToken then
        ⟨(p : Int) + 1, (p : Int) + 2 + (line.takeWhile (fun b => b != 44)).length⟩ else nm)
      ⟨(p : Int), (p : Int) + 2 + line.length + 1⟩ pr TokenType.CommentToken := by
  obtain ⟨z1, hz1, h1⟩ := Next_star h hw _ hd
  obtain ⟨hb, he, h2⟩ := h1.readByte 42 _ (drop_succ_of_drop hd)
  have hd2 : input.drop (p + 1 + 1) = line ++ 10 :: rest :=
    drop_succ_of_drop (drop_succ_of_drop hd)
  obtain ⟨z', hz', h3⟩ := readUntilLineBreak_ok h2 line rest hd2 h10
  have hn : Next z = some { z' with tt := TokenType.CommentToken } := by
    rw [hz1]
    simp only [nextAfterStar, hb, he]
    simp [hz']
  refine ⟨_, hn, (h3.setTT _).cast ?_ ?_ ?_ rfl⟩
  · push_cast; omega
  · split <;> first | (simp; omega) | simp
  · simp; omega

/-- C4: for an input that begins with `**` + t + `\n`, t without `\n`, delivered in any
non-empty chunks, the first `Next` on a fresh tokenizer returns `CommentToken` and the
token's `Data` is `**` + t + `\n`, byte for byte. -/
theorem comment_round_trip (chunks : List (List UInt8)) (t rest : List UInt8)
    (hchunks : ∀ c ∈ chunks, c ≠ [])
    (hinput : chunks.flatten = [42, 42] ++ t ++ [10] ++ rest) (h10 : 10 ∉ t) :
    ∃ z1, Next (NewTokenizer (chunkReader chunks)) = some z1 ∧
      z1.tt = TokenType.CommentToken ∧
      z1.Token = some { Typ := TokenType.CommentToken, Data := [42, 42] ++ t ++ [10] } := by
  have h0 := At_new chunks hchunks
  have hd : chunks.flatten.drop 0 = 42 :: 42 :: (t ++ 10 :: rest) := by
    rw [hinput]; simp
  obtain ⟨z1, hz1, hk⟩ := Next_comment h0 (Or.inr rfl) t rest hd h10
  refine ⟨z1, hz1, hk.tt, ?_⟩
  have hdt := goSlice_of_eq hk.str [] ([42, 42] ++ t ++ [10]) rest
    (by rw [hinput]; simp) ((0 : Nat) : Int) (((0 : Nat) : Int) + 2 + t.length + 1)
    (by simp) (by simp; omega) (by rw [hk.end_eq]; push_cast; omega)
  rw [← hk.data] at hdt
  simp only [Tokenizer.Token, hk.tt, hdt, Option.map_some']

/-- The spec's example of C4, the comment line `** foo bar`, followed by a keyword. -/
theorem comment_round_trip_witness :
    ∃ z1, Next (NewTokenizer (chunkReader [bytes "** foo bar\n*Node\n"])) = some z1 ∧
      z1.tt = TokenType.CommentToken ∧
      z1.Token =
        some { Typ := TokenType.CommentToken, Data := [42, 42] ++ bytes " foo bar" ++ [10] } :=
  comment_round_trip [bytes "** foo bar\n*Node\n"] (bytes " foo bar") (bytes "*Node\n")
    (by decide) (by decide) (by decide)

/-! ## Evaluations of the code at inputs where it departs from the specification -/

/-- C2 at the spec's example `*Elastic, type=ISOTROPIC`: after the look-ahead that rules
out `*End`, `Next` rewinds three bytes instead of two, so the name span starts at the `*`
and `Token().Name` is `*Elastic`, not `Elastic`. -/
theorem elastic_name_keeps_star :
    (Next (NewTokenizer (stringsReader (bytes "*Elastic, type=ISOTROPIC\n*Density\n")))).bind
        Tokenizer.Token =
      some { Typ := TokenType.KeywordToken, Name := bytes "*Elastic", Data := [],
             Attr := [⟨bytes "type", bytes "ISOTROPIC"⟩] } := by
  decide

/-- C3 at the spec's two examples: the keyword that ends the input (`*Density`,
`*Element, type=C3D8`) is not produced; the second `Next` returns `ErrorToken` with
`Err() = io.EOF`. -/
theorem last_keyword_is_dropped :
    (nextN 2 (NewTokenizer (stringsReader (bytes "*Elastic, type=ISOTROPIC\n*Density\n")))).map
        (fun z => (z.tt, z.Err)) = some (TokenType.ErrorToken, some Error.EOF) ∧
    (nextN 2 (NewTokenizer (stringsReader
        (bytes "*Node\n1, 0.0, 0.0\n2, 1.0, 0.0\n*Element, type=C3D8\n")))).map
        (fun z => (z.tt, z.Err)) = some (TokenType.ErrorToken, some Error.EOF) := by
  decide

/-- C5 at the spec's example `*End Part`: on a fresh tokenizer the name is never parsed
(`Name` is empty), and after another `EndKeywordToken` the name of `*End Assembly` is
`End Assembly`; the `Data` is the full line in both cases. -/
theorem end_keyword_name_not_parsed :
    (Next (NewTokenizer (stringsReader (bytes "*End Part\n")))).bind Tokenizer.Token =
      some { Typ := TokenType.EndKeywordToken, Name := [], Data := bytes "*End Part\n" } ∧
    (nextN 2 (NewTokenizer (stringsReader (bytes "*End Part\n*End Assembly\n")))).bind
        Tokenizer.Token =
      some { Typ := TokenType.EndKeywordToken, Name := bytes "End Assembly",
             Data := bytes "*End Assembly\n" } := by
  decide

/-- C6 at the input `*A`, `*Node, x=1`, one data line, `*B`: delivered in the two chunks
`*A\n*Node` and the rest, the second token is named `e`; delivered in one chunk it is named
`Node`. -/
theorem chunking_changes_tokens :
    allTokens (NewTokenizer (chunkReader [bytes "*A\n*Node", bytes ", x=1\n1\n*B\n"])) =
      [(TokenType.KeywordToken, some { Typ := TokenType.KeywordToken, Name := bytes "A" }),
       (TokenType.KeywordToken,
        some { Typ := TokenType.KeywordToken, Name := bytes "e", Data := bytes "1\n",
               Attr := [⟨bytes "x", bytes "1"⟩] })] ∧
    allTokens (NewTokenizer (chunkReader [bytes "*A\n*Node, x=1\n1\n*B\n"])) =
      [(TokenType.KeywordToken, some { Typ := TokenType.KeywordToken, Name := bytes "A" }),
       (TokenType.KeywordToken,
        some { Typ := TokenType.KeywordToken, Name := bytes "Node", Data := bytes "1\n",
               Attr := [⟨bytes "x", bytes "1"⟩] })] := by
  decide!

/-- C10 at `a=b=c`: `strings.Split(s, "=")` yields three parts, which no case of the switch
takes, so the attribute is dropped instead of being `{a, b=c}`: the token of
`*A, a=b=c` has no attribute, and of the params `a=b=c, d=e` only ` d=e` is left. -/
theorem attribute_with_two_equals_dropped :
    (Next (NewTokenizer (stringsReader (bytes "*A, a=b=c\n*B\n")))).bind Tokenizer.Token =
      some { Typ := TokenType.KeywordToken, Name := bytes "A", Data := [], Attr := [] } ∧
    parseAttrs (bytes "a=b=c, d=e") = [⟨bytes " d", bytes "e"⟩] := by
  decide

/-! ## The sticky error -/


theorem readAtLeastOneByteLoop_progress {σ : Type} (read : σ → Nat → ReadResult × σ) :
    ∀ (i : Nat) (r : σ) (k : Nat),
      (readAtLeastOneByteLoop read i r k).1.data.length ≠ 0 ∨
        (readAtLeastOneByteLoop read i r k).1.err ≠ none := by
  intro i
  induction i with
  | zero => intro r k; right; simp [readAtLeastOneByteLoop]
  | succ i ih =>
    intro r k
    unfold readAtLeastOneByteLoop
    by_cases h : (read r k).1.data.length ≠ 0 ∨ (read r k).1.err ≠ none
    · rw [if_pos h]
      exact h
    · rw [if_neg h]
      exact ih _ _

theorem Next_of_err (z : Tokenizer) (h : z.err ≠ none) :
    Next z = some { z with raw := ⟨z.raw.end_, z.raw.end_⟩, data := ⟨z.raw.end_, z.raw.end_⟩,
                           tt := TokenType.ErrorToken } := by
  simp [Next, h]

theorem readKeywordWithData_error (z z' : Tokenizer) (t : TokenType)
    (h : readKeywordWithData z = some (t, z')) :
    t = TokenType.KeywordToken ∨ (t = TokenType.ErrorToken ∧ z'.err ≠ none) := by
  unfold readKeywordWithData at h
  cases h0 : readKeywordName z with
  | none => simp [h0] at h
  | some z0 =>
    cases h1 : skipWhiteSpace z0 with
    | none => simp [h0, h1] at h
    | some z1 =>
      simp only [h0, h1, Option.some_bind] at h
      by_cases e1 : z1.err ≠ none
      · rw [if_pos e1] at h; simp only [Option.some.injEq, Prod.mk.injEq] at h
        right; rw [← h.1, ← h.2]; exact ⟨rfl, e1⟩
      · rw [if_neg e1] at h
        cases h2 : headerLoop (fuel z1) z1 with
        | none => simp [h2] at h
        | some z2 =>
          simp only [h2, Option.some_bind] at h
          by_cases e2 : z2.err ≠ none
          · rw [if_pos e2] at h; simp only [Option.some.injEq, Prod.mk.injEq] at h
            right; rw [← h.1, ← h.2]; exact ⟨rfl, e2⟩
          · rw [if_neg e2] at h
            cases h3 : dataLoop (fuel { z2 with params := ⟨z2.name.end_ + 2, z2.raw.end_ - 1⟩ }) 1
                { z2 with params := ⟨z2.name.end_ + 2, z2.raw.end_ - 1⟩ } with
            | none => simp [h3] at h
            | some res =>
              simp only [h3, Option.some_bind] at h
              by_cases e3 : res.2.err ≠ none
              · rw [if_pos e3] at h; simp only [Option.some.injEq, Prod.mk.injEq] at h
                right; rw [← h.1, ← h.2]; exact ⟨rfl, e3⟩
              · rw [if_neg e3] at h
                split at h <;> simp only [Option.some.injEq, Prod.mk.injEq] at h <;>
                  exact Or.inl h.1.symm

theorem nextAfterStar_error (z z' : Tokenizer) (h : nextAfterStar z = some z')
    (ht : z'.tt = TokenType.ErrorToken) : z'.err ≠ none := by
  unfold nextAfterStar at h
  by_cases e2 : (readByte z).2.err ≠ none
  · rw [if_pos e2] at h
    simp only [Option.some.injEq] at h
    rw [← h]; exact e2
  · rw [if_neg e2] at h
    have key : ∀ k : TokenType × Tokenizer, readKeywordWithData (readByte z).2 = some k ∨
        readKeywordWithData (unread (readByte (readByte (readByte z).2).2).2 3) = some k →
        z' = { k.2 with tt := k.1 } → z'.err ≠ none := by
      intro k hk hz
      have hk' : k.1 = TokenType.KeywordToken ∨ (k.1 = TokenType.ErrorToken ∧ k.2.err ≠ none) := by
        rcases hk with hk | hk
        · exact readKeywordWithData_error _ k.2 k.1 hk
        · exact readKeywordWithData_error _ k.2 k.1 hk
      rw [hz] at ht ⊢
      rcases hk' with hk' | hk'
      · simp [hk'] at ht
      · exact hk'.2
    by_cases c1 : (readByte z).1 = 42
    · rw [if_pos c1] at h
      cases hq : readUntilLineBreak (readByte z).2 with
      | none => simp [hq] at h
      | some y => simp [hq] at h; rw [← h] at ht; simp at ht
    · rw [if_neg c1] at h
      by_cases c2 : (readByte z).1 = 69 ∨ (readByte z).1 = 101
      · rw [if_pos c2] at h
        by_cases e3 : (readByte (readByte z).2).2.err ≠ none
        · rw [if_pos e3] at h
          simp only [Option.some.injEq] at h
          rw [← h]; exact e3
        · rw [if_neg e3] at h
          by_cases e4 : (readByte (readByte (readByte z).2).2).2.err ≠ none
          · rw [if_pos e4] at h
            simp only [Option.some.injEq] at h
            rw [← h]; exact e4
          · rw [if_neg e4] at h
            split at h
            · cases hq : readUntilLineBreak (unread (readByte (readByte (readByte z).2).2).2 2) with
              | none => simp [hq] at h
              | some y => simp [hq] at h; rw [← h] at ht; simp at ht
            · cases hq : readKeywordWithData
                  (unread (readByte (readByte (readByte z).2).2).2 3) with
              | none => simp [hq] at h
              | some k => simp [hq] at h; exact key k (Or.inr hq) h.symm
      · rw [if_neg c2] at h
        cases hq : readKeywordWithData (readByte z).2 with
        | none => simp [hq] at h
        | some k => simp [hq] at h; exact key k (Or.inl hq) h.symm

theorem nextLoop_error : ∀ (n : Nat) (z z' : Tokenizer), nextLoop n z = some z' →
    z'.tt = TokenType.ErrorToken → z'.err ≠ none := by
  intro n
  induction n with
  | zero => intro z z' h; simp [nextLoop] at h
  | succ n ih =>
    intro z z' h ht
    unfold nextLoop at h
    by_cases e : (readByte z).2.err ≠ none
    · rw [if_pos e] at h
      simp only [Option.some.injEq] at h
      rw [← h]; exact e
    · rw [if_neg e] at h
      by_cases c : (readByte z).1 ≠ 42
      · rw [if_pos c] at h
        exact ih _ _ h ht
      · rw [if_neg c] at h
        exact nextAfterStar_error _ _ h ht

theorem Next_error (z z' : Tokenizer) (h : Next z = some z')
    (ht : z'.tt = TokenType.ErrorToken) : z'.err ≠ none := by
  by_cases e : z.err ≠ none
  · rw [Next_of_err z e] at h
    simp only [Option.some.injEq] at h
    rw [← h]; exact e
  · unfold Next at h
    rw [if_neg e] at h
    exact nextLoop_error _ _ _ h ht

theorem nextN_of_err : ∀ (k : Nat) (z : Tokenizer), z.err ≠ none → z.tt = TokenType.ErrorToken →
    ∃ zk, nextN k z = some zk ∧ zk.tt = TokenType.ErrorToken ∧ zk.err = z.err := by
  intro k
  induction k with
  | zero => intro z _ ht; exact ⟨z, rfl, ht, rfl⟩
  | succ k ih =>
    intro z he _
    obtain ⟨zk, h1, h2, h3⟩ := ih
      { z with raw := ⟨z.raw.end_, z.raw.end_⟩, data := ⟨z.raw.end_, z.raw.end_⟩,
               tt := TokenType.ErrorToken } he rfl
    exact ⟨zk, by simp only [nextN, Next_of_err z he, Option.some_bind, h1], h2, h3⟩

theorem bytes_chunkReader (cs : List (List UInt8)) :
    ((chunkReader cs).script.map (fun p => p.1)).flatten = cs.flatten := by
  simp [chunkReader, Function.comp_def]

theorem restOf_eq {z : Tokenizer} (cs : List (List UInt8)) (hr : z.r = chunkReader cs) :
    restOf z = (z.buf.take z.bufLen).drop z.raw.end_.toNat ++ cs.flatten := by
  rw [restOf, hr, bytes_chunkReader]

theorem readByte_of_err (z : Tokenizer) (e : Error) (e1 : z.err = some e)
    (e2 : z.readErr = some e) (hge : z.raw.end_ ≥ (z.bufLen : Int)) : readByte z = (0, z) := by
  cases z
  simp only at e1 e2 hge
  subst e1 e2
  simp [readByte, hge]

theorem WF.nat {z : Tokenizer} (h : WF z) :
    ∃ s e : Nat, z.raw.start = (s : Int) ∧ z.raw.end_ = (e : Int) ∧ s ≤ e ∧ e ≤ z.bufLen :=
  ⟨z.raw.start.toNat, z.raw.end_.toNat, by have := h.start_nonneg; omega,
    by have := h.start_nonneg; have := h.start_le; omega,
    by have := h.start_nonneg; have := h.start_le; omega,
    by have := h.start_nonneg; have := h.start_le; have := h.end_le; omega⟩

theorem pastOf_eq {z : Tokenizer} (h : WF z) (s e : Nat) (hs : z.raw.start = (s : Int))
    (he : z.raw.end_ = (e : Int)) (hel : e ≤ z.bufLen) :
    pastOf z = (z.buf.drop s).take (e - s) ∧ sliceBuf z.buf z.raw.start z.raw.end_ = pastOf z := by
  have h6 := h.len_le
  have e1 : pastOf z = (z.buf.drop s).take (e - s) := by
    rw [pastOf, hs, he]
    simp only [Int.toNat_ofNat, List.take_take, Nat.min_eq_left hel]
    rw [List.drop_take]
  refine ⟨e1, ?_⟩
  rw [e1, sliceBuf_eq z.buf _ _ (by omega) (by omega), hs, he]
  congr 1
  omega

/-- The refill of `readByte`: the live bytes move to the front of the new buffer. -/
theorem refill_facts {z : Tokenizer} (h : WF z) (s e : Nat) (hs : z.raw.start = (s : Int))
    (he : z.raw.end_ = (e : Int)) (hse : s ≤ e) (hel : e ≤ z.bufLen) :
    ∃ (cap1 : Nat) (arr1 : List UInt8),
      (if 2 * (z.raw.end_ - z.raw.start) > (z.bufCap : Int) then 2 * z.bufCap else z.bufCap)
        = cap1 ∧
      (if 2 * (z.raw.end_ - z.raw.start) > (z.bufCap : Int) then
        sliceBuf z.buf z.raw.start z.raw.end_
        else writeAt z.buf 0 (sliceBuf z.buf z.raw.start z.raw.end_)) = arr1 ∧
      (z.raw.end_ - z.raw.start).toNat = e - s ∧
      z.bufCap ≤ cap1 ∧ e - s < cap1 ∧ arr1.take (e - s) = pastOf z ∧ e - s ≤ arr1.length ∧
      (pastOf z).length = e - s := by
  have h4 := h.len_le_cap
  have h5 := h.cap_pos
  have h6 := h.len_le
  obtain ⟨hp, hl⟩ := pastOf_eq h s e hs he hel
  have hpl : (pastOf z).length = e - s := by
    rw [hp, List.length_take, List.length_drop]
    omega
  refine ⟨_, _, rfl, rfl, by omega, ?_, ?_, ?_, ?_, hpl⟩
  · split <;> omega
  · split <;> omega
  · split
    · rw [hl, ← hpl, List.take_length]
    · rw [hl]
      simp [writeAt, ← hpl]
  · split
    · rw [hl, hpl]
    · rw [hl]
      simp [writeAt, hpl]

/-- The three cases of `readByte` on a well-formed state. -/
theorem readByte_view {z : Tokenizer} (h : WF z) :
    (z.err ≠ none → readByte z = (0, z)) ∧
    (z.err = none → restOf z = [] →
      (readByte z).1 = 0 ∧ WF (readByte z).2 ∧ (readByte z).2.err = some Error.EOF ∧
      restOf (readByte z).2 = [] ∧ pastOf (readByte z).2 = pastOf z ∧
      (readByte z).2.tt = z.tt) ∧
    (z.err = none → ∀ b r, restOf z = b :: r →
      (readByte z).1 = b ∧ WF (readByte z).2 ∧ (readByte z).2.err = none ∧
      restOf (readByte z).2 = r ∧ pastOf (readByte z).2 = pastOf z ++ [b] ∧
      (readByte z).2.tt = z.tt) := by
  obtain ⟨cs, hr, hne⟩ := h.rd
  obtain ⟨s, e, hs, he, hse, hel⟩ := h.nat
  have h4 := h.len_le_cap
  have h5 := h.cap_pos
  have h6 := h.len_le
  have htl : (z.buf.take z.bufLen).length = z.bufLen := by
    rw [List.length_take]; exact Nat.min_eq_left h6
  have hrest0 := restOf_eq cs hr
  rw [he, Int.toNat_ofNat] at hrest0
  obtain ⟨cap1, arr1, hcap1, harr1, hd, hc1a, hc1b, ha1, ha2, hpl⟩ := refill_facts h s e hs he hse hel
  have hre : z.err = none → z.readErr = none := by
    intro e0
    rcases h.errs with ⟨_, e⟩ | ⟨e, _⟩
    · exact e
    · rw [e0] at e; cases e
  refine ⟨?_, ?_, ?_⟩
  · intro he0
    rcases h.errs with ⟨e1, _⟩ | ⟨e1, e2, e3, e4⟩
    · exact absurd e1 he0
    · exact readByte_of_err z _ e1 e2 (by omega)
  · intro he0 hrest
    rw [hrest0] at hrest
    have hcs : cs = [] := by
      cases cs with
      | nil => rfl
      | cons c cs' =>
        have hc := hne c (by simp)
        have := congrArg List.length hrest
        simp at this
        exact absurd this.2.1 hc
    have hend : e = z.bufLen := by
      have := congrArg List.length hrest
      simp [htl] at this
      omega
    have hge : z.raw.end_ ≥ (z.bufLen : Int) := by omega
    subst hcs
    have hrb : readByte z = (0, { z with
        data := if z.raw.start ≠ 0 then
          ⟨z.data.start - z.raw.start, z.data.end_ - z.raw.start⟩ else z.data,
        raw := ⟨0, z.raw.end_ - z.raw.start⟩, buf := arr1,
        bufLen := e - s, bufCap := cap1, r := chunkReader [],
        readErr := some Error.EOF, err := some Error.EOF }) := by
      simp only [readByte, if_pos hge, hre he0, hr, hcap1, harr1, readAtLeastOneByte_nil, hd]
      simp
    rw [hrb]
    refine ⟨rfl, ⟨le_refl _, ?_, ?_, ?_, ?_, ha2,
      ⟨[], rfl, by simp⟩, Or.inr ⟨rfl, rfl, ?_, rfl⟩⟩, rfl, ?_, ?_, rfl⟩
    · show (0 : Int) ≤ z.raw.end_ - z.raw.start
      omega
    · show z.raw.end_ - z.raw.start ≤ ((e - s : Nat) : Int)
      omega
    · show e - s ≤ cap1
      omega
    · show 0 < cap1
      omega
    · show z.raw.end_ - z.raw.start = ((e - s : Nat) : Int)
      omega
    · show List.drop (z.raw.end_ - z.raw.start).toNat (arr1.take (e - s)) ++ _ = []
      rw [hd]
      simp [chunkReader]
    · show List.drop (0 : Int).toNat ((arr1.take (e - s)).take (z.raw.end_ - z.raw.start).toNat)
        = pastOf z
      rw [hd, List.take_take, Nat.min_self, ha1]
      rfl
  · intro he0 b r hrest
    rw [hrest0] at hrest
    by_cases hlt : e < z.bufLen
    · have hnot : ¬ (z.raw.end_ ≥ (z.bufLen : Int)) := by omega
      have hrb : readByte z = (getByte z.buf z.raw.end_.toNat,
          { z with raw := ⟨z.raw.start, z.raw.end_ + 1⟩ }) := by
        simp only [readByte, if_neg hnot]
      have hdrop : (z.buf.take z.bufLen).drop e =
          getByte z.buf e :: (z.buf.take z.bufLen).drop (e + 1) := by
        have hlt' : e < (z.buf.take z.bufLen).length := by omega
        rw [List.drop_eq_getElem_cons hlt']
        congr 1
        rw [List.getElem_take]
        simp [getByte, List.getD, List.getElem?_eq_getElem (show e < z.buf.length by omega)]
      rw [hdrop] at hrest
      simp only [List.cons_append, List.cons.injEq] at hrest
      rw [hrb]
      refine ⟨?_, ⟨h.start_nonneg, ?_, ?_, h4, h5, h6, ⟨cs, hr, hne⟩, Or.inl ⟨he0, hre he0⟩⟩, he0,
        ?_, ?_, rfl⟩
      · rw [he, Int.toNat_ofNat]; exact hrest.1
      · show z.raw.start ≤ z.raw.end_ + 1
        omega
      · show z.raw.end_ + 1 ≤ (z.bufLen : Int)
        omega
      · show List.drop (z.raw.end_ + 1).toNat (z.buf.take z.bufLen) ++ _ = r
        rw [hr, bytes_chunkReader, he, show ((e : Int) + 1).toNat = e + 1 from by omega]
        exact hrest.2
      · show List.drop z.raw.start.toNat ((z.buf.take z.bufLen).take (z.raw.end_ + 1).toNat) = _
        rw [pastOf, he, hs, show ((e : Int) + 1).toNat = e + 1 from by omega]
        simp only [Int.toNat_ofNat]
        rw [List.take_succ, List.drop_append_of_le_length (by rw [List.length_take]; omega)]
        congr 1
        have hlt' : e < (z.buf.take z.bufLen).length := by omega
        rw [List.getElem?_eq_getElem hlt']
        simp only [Option.toList]
        rw [← hrest.1, List.getElem_take]
        simp [getByte, List.getD, List.getElem?_eq_getElem (show e < z.buf.length by omega)]
    · have hend : e = z.bufLen := by omega
      have hge : z.raw.end_ ≥ (z.bufLen : Int) := by omega
      have hcs : cs.flatten = b :: r := by
        rw [hend, List.drop_of_length_le (by omega)] at hrest
        simpa using hrest
      cases cs with
      | nil => simp at hcs
      | cons c cs' =>
        obtain ⟨bs, cs2, hres, hbs, hbk, hfl, hne2, _⟩ :=
          readAtLeastOneByte_chunks c cs' (cap1 - (e - s)) hne (by omega)
        have hbl : bs.length ≠ 0 := by
          intro h0; exact hbs (List.length_eq_zero.mp h0)
        have hbl1 : 1 ≤ bs.length := by omega
        have hrb : readByte z = (getByte (writeAt arr1 (e - s) bs) (e - s), { z with
            data := if z.raw.start ≠ 0 then
              ⟨z.data.start - z.raw.start, z.data.end_ - z.raw.start⟩ else z.data,
            raw := ⟨0, z.raw.end_ - z.raw.start + 1⟩, buf := writeAt arr1 (e - s) bs,
            bufLen := e - s + bs.length, bufCap := cap1, r := chunkReader cs2,
            readErr := none }) := by
          simp only [readByte, if_pos hge, hre he0, hr, hcap1, harr1, hd]
          simp [hres, hbl]
        have hw2 : writeAt arr1 (e - s) bs = pastOf z ++ bs ++ arr1.drop (e - s + bs.length) := by
          simp [writeAt, ha1, Nat.sub_eq_zero_of_le ha2]
        have hbs0 : bs = b :: bs.tail ∧ bs.tail ++ cs2.flatten = r := by
          cases bs with
          | nil => exact absurd rfl hbs
          | cons b0 bt =>
            rw [hcs] at hfl
            simp only [List.cons_append, List.cons.injEq] at hfl
            simp [hfl.1, hfl.2]
        have htk : (writeAt arr1 (e - s) bs).take (e - s + bs.length) = pastOf z ++ bs := by
          rw [hw2, List.take_append_of_le_length (by simp [hpl])]
          rw [List.take_of_length_le (by simp [hpl])]
        rw [hrb]
        refine ⟨?_, ⟨le_refl _, ?_, ?_, ?_, ?_, ?_, ⟨cs2, rfl, hne2⟩, Or.inl ⟨he0, rfl⟩⟩, he0,
          ?_, ?_, rfl⟩
        · apply getByte_of_getElem
          rw [hw2, List.append_assoc, List.getElem?_append_right (by omega), hpl, Nat.sub_self,
            List.getElem?_append_left (by omega), hbs0.1]
          simp
        · show (0 : Int) ≤ z.raw.end_ - z.raw.start + 1
          omega
        · show z.raw.end_ - z.raw.start + 1 ≤ ((e - s + bs.length : Nat) : Int)
          omega
        · show e - s + bs.length ≤ cap1
          omega
        · show 0 < cap1
          omega
        · show e - s + bs.length ≤ (writeAt arr1 (e - s) bs).length
          rw [hw2]
          simp [hpl]
        · show List.drop (z.raw.end_ - z.raw.start + 1).toNat
            ((writeAt arr1 (e - s) bs).take (e - s + bs.length)) ++ _ = r
          rw [htk, bytes_chunkReader,
            show (z.raw.end_ - z.raw.start + 1).toNat = (pastOf z).length + 1 from by omega,
            ← List.drop_drop, List.drop_left, ← hbs0.2]
          congr 1
          cases bs with
          | nil => exact absurd rfl hbs
          | cons b0 bt => simp
        · show List.drop (0 : Int).toNat (((writeAt arr1 (e - s) bs).take (e - s + bs.length)).take
            (z.raw.end_ - z.raw.start + 1).toNat) = _
          rw [htk, show (z.raw.end_ - z.raw.start + 1).toNat = (pastOf z).length + 1 from by omega]
          rw [List.take_append_eq_append_take, List.take_of_length_le (by omega)]
          simp only [Int.toNat_zero, List.drop_zero]
          congr 1
          rw [hbs0.1]
          simp


theorem readByte_sim {z1 z2 : Tokenizer} (h : Sim z1 z2) :
    (readByte z1).1 = (readByte z2).1 ∧ Sim (readByte z1).2 (readByte z2).2 ∧
    (restOf (readByte z1).2).length ≤ (restOf z1).length ∧
    ((readByte z1).2.err = none → z1.err = none ∧
      (restOf (readByte z1).2).length + 1 = (restOf z1).length ∧
      (pastOf (readByte z1).2).length = (pastOf z1).length + 1) := by
  obtain ⟨a1, b1, c1⟩ := readByte_view h.wf1
  obtain ⟨a2, b2, c2⟩ := readByte_view h.wf2
  by_cases he : z1.err = none
  · have he2 : z2.err = none := by rw [← h.err]; exact he
    cases hr : restOf z1 with
    | nil =>
      obtain ⟨x1, x2, x3, x4, x5, x6⟩ := b1 he hr
      obtain ⟨y1, y2, y3, y4, y5, y6⟩ := b2 he2 (by rw [← h.rest]; exact hr)
      refine ⟨by rw [x1, y1], ⟨x2, y2, by rw [x4, y4], by rw [x5, y5, h.past],
        by rw [x6, y6, h.tt], by rw [x3, y3]⟩, by simp [x4], ?_⟩
      intro hc
      rw [x3] at hc
      cases hc
    | cons b r =>
      obtain ⟨x1, x2, x3, x4, x5, x6⟩ := c1 he b r hr
      obtain ⟨y1, y2, y3, y4, y5, y6⟩ := c2 he2 b r (by rw [← h.rest]; exact hr)
      refine ⟨by rw [x1, y1], ⟨x2, y2, by rw [x4, y4], by rw [x5, y5, h.past],
        by rw [x6, y6, h.tt], by rw [x3, y3]⟩, by simp [x4, hr], ?_⟩
      intro _
      exact ⟨he, by simp [x4, hr], by simp [x5]⟩
  · have he2 : z2.err ≠ none := by rw [← h.err]; exact he
    rw [a1 he, a2 he2]
    exact ⟨rfl, h, le_refl _, fun hc => absurd hc he⟩


theorem WF.congrWF {z z' : Tokenizer} (h : WF z)
    (h1 : z'.r = z.r) (h2 : z'.err = z.err) (h3 : z'.readErr = z.readErr) (h4 : z'.raw = z.raw)
    (h5 : z'.buf = z.buf) (h6 : z'.bufLen = z.bufLen) (h7 : z'.bufCap = z.bufCap) :
    WF z' ∧ restOf z' = restOf z ∧ pastOf z' = pastOf z := by
  obtain ⟨a1, a2, a3, a4, a5, a6, a7, a8⟩ := h
  refine ⟨⟨?_, ?_, ?_, ?_, ?_, ?_, ?_, ?_⟩, ?_, ?_⟩
  · rw [h4]; exact a1
  · rw [h4]; exact a2
  · rw [h4, h6]; exact a3
  · rw [h6, h7]; exact a4
  · rw [h7]; exact a5
  · rw [h5, h6]; exact a6
  · rw [h1]; exact a7
  · rw [h1, h2, h3, h4, h6]; exact a8
  · simp only [restOf, h1, h4, h5, h6]
  · simp only [pastOf, h4, h5, h6]

/-- Updates of `name`, `data`, `params` and `tt` keep two states indistinguishable. -/
theorem Sim.congrSim {z1 z2 : Tokenizer} (h : Sim z1 z2) (z1' z2' : Tokenizer)
    (a1 : z1'.r = z1.r) (a2 : z1'.err = z1.err) (a3 : z1'.readErr = z1.readErr)
    (a4 : z1'.raw = z1.raw) (a5 : z1'.buf = z1.buf) (a6 : z1'.bufLen = z1.bufLen)
    (a7 : z1'.bufCap = z1.bufCap)
    (b1 : z2'.r = z2.r) (b2 : z2'.err = z2.err) (b3 : z2'.readErr = z2.readErr)
    (b4 : z2'.raw = z2.raw) (b5 : z2'.buf = z2.buf) (b6 : z2'.bufLen = z2.bufLen)
    (b7 : z2'.bufCap = z2.bufCap) (ht : z1'.tt = z2'.tt) :
    Sim z1' z2' ∧ restOf z1' = restOf z1 := by
  obtain ⟨x1, x2, x3⟩ := h.wf1.congrWF a1 a2 a3 a4 a5 a6 a7
  obtain ⟨y1, y2, y3⟩ := h.wf2.congrWF b1 b2 b3 b4 b5 b6 b7
  exact ⟨⟨x1, y1, by rw [x2, y2, h.rest], by rw [x3, y3, h.past], ht, by rw [a2, b2, h.err]⟩, x2⟩

theorem drop_split (L : List UInt8) (a e : Nat) (ha : a ≤ e) (he : e ≤ L.length) :
    L.drop a = (L.take e).drop a ++ L.drop e := by
  conv_lhs => rw [← List.take_append_drop e L]
  rw [List.drop_append_of_le_length (by rw [List.length_take]; omega)]

theorem take_drop_shrink (L : List UInt8) (a e s : Nat) (ha : a ≤ e) :
    (L.take a).drop s = ((L.take e).drop s).take (a - s) := by
  rw [List.drop_take, List.drop_take, List.take_take]
  congr 1
  omega

theorem unread_view {z : Tokenizer} (h : WF z) (he : z.err = none) (k : Nat)
    (hk : k ≤ (pastOf z).length) :
    WF (unread z k) ∧
    restOf (unread z k) = (pastOf z).drop ((pastOf z).length - k) ++ restOf z ∧
    pastOf (unread z k) = (pastOf z).take ((pastOf z).length - k) := by
  obtain ⟨s, e, hs, hee, hse, hel⟩ := h.nat
  have h6 := h.len_le
  have htl : (z.buf.take z.bufLen).length = z.bufLen := by
    rw [List.length_take]; exact Nat.min_eq_left h6
  have hpl : (pastOf z).length = e - s := by
    rw [pastOf, hs, hee]
    simp only [Int.toNat_ofNat, List.length_drop, List.length_take, htl]
    omega
  have hre : z.readErr = none := by
    rcases h.errs with ⟨_, e0⟩ | ⟨e0, _⟩
    · exact e0
    · rw [he] at e0; cases e0
  have hek : (z.raw.end_ - (k : Int)).toNat = e - k := by omega
  refine ⟨⟨h.start_nonneg, ?_, ?_, h.len_le_cap, h.cap_pos, h6, h.rd, Or.inl ⟨he, hre⟩⟩, ?_, ?_⟩
  · show z.raw.start ≤ z.raw.end_ - k
    omega
  · show z.raw.end_ - k ≤ (z.bufLen : Int)
    omega
  · show List.drop (z.raw.end_ - (k : Int)).toNat (z.buf.take z.bufLen) ++ _ = _
    rw [hek, restOf, hee, Int.toNat_ofNat, ← List.append_assoc]
    congr 1
    rw [hpl, pastOf, hs, hee]
    simp only [Int.toNat_ofNat, List.drop_drop]
    rw [show s + (e - s - k) = e - k from by omega]
    exact drop_split _ (e - k) e (by omega) (by omega)
  · show List.drop z.raw.start.toNat ((z.buf.take z.bufLen).take (z.raw.end_ - (k : Int)).toNat) = _
    rw [hek, hpl, pastOf, hs, hee]
    simp only [Int.toNat_ofNat]
    rw [take_drop_shrink _ (e - k) e s (by omega)]
    congr 1
    omega

theorem unread_sim {z1 z2 : Tokenizer} (h : Sim z1 z2) (he : z1.err = none) (k : Nat)
    (hk : k ≤ (pastOf z1).length) :
    Sim (unread z1 k) (unread z2 k) ∧
    (restOf (unread z1 k)).length = (restOf z1).length + k ∧
    (pastOf (unread z1 k)).length + k = (pastOf z1).length := by
  obtain ⟨x1, x2, x3⟩ := unread_view h.wf1 he k hk
  obtain ⟨y1, y2, y3⟩ := unread_view h.wf2 (by rw [← h.err]; exact he) k
    (by rw [← h.past]; exact hk)
  refine ⟨⟨x1, y1, by rw [x2, y2, h.past, h.rest], by rw [x3, y3, h.past], h.tt, h.err⟩, ?_, ?_⟩
  · rw [x2]
    simp
    omega
  · rw [x3]
    simp
    omega


theorem Sim.withName {z1 z2 : Tokenizer} (h : Sim z1 z2) (n1 n2 : span) :
    Sim { z1 with name := n1 } { z2 with name := n2 } :=
  (h.congrSim { z1 with name := n1 }
      { z2 with name := n2 }
    rfl rfl rfl rfl rfl rfl rfl rfl rfl rfl rfl rfl rfl rfl h.tt).1

theorem Sim.withData {z1 z2 : Tokenizer} (h : Sim z1 z2) (n1 n2 : span) :
    Sim { z1 with data := n1 } { z2 with data := n2 } :=
  (h.congrSim { z1 with data := n1 }
      { z2 with data := n2 }
    rfl rfl rfl rfl rfl rfl rfl rfl rfl rfl rfl rfl rfl rfl h.tt).1

theorem Sim.withParams {z1 z2 : Tokenizer} (h : Sim z1 z2) (n1 n2 : span) :
    Sim { z1 with params := n1 } { z2 with params := n2 } :=
  (h.congrSim { z1 with params := n1 }
      { z2 with params := n2 }
    rfl rfl rfl rfl rfl rfl rfl rfl rfl rfl rfl rfl rfl rfl h.tt).1

theorem Sim.withTT {z1 z2 : Tokenizer} (h : Sim z1 z2) (t : TokenType) :
    Sim { z1 with tt := t } { z2 with tt := t } :=
  (h.congrSim { z1 with tt := t }
      { z2 with tt := t }
    rfl rfl rfl rfl rfl rfl rfl rfl rfl rfl rfl rfl rfl rfl rfl).1

theorem Sim.err_iff {z1 z2 : Tokenizer} (h : Sim z1 z2) : z1.err ≠ none ↔ z2.err ≠ none := by
  rw [h.err]

theorem skipWhiteSpaceLoop_sim : ∀ (n : Nat) (z1 z2 : Tokenizer), Sim z1 z2 →
    (restOf z1).length < n →
    ∃ z1' z2', skipWhiteSpaceLoop n z1 = some z1' ∧ skipWhiteSpaceLoop n z2 = some z2' ∧
      Sim z1' z2' ∧ (restOf z1').length ≤ (restOf z1).length := by
  intro n
  induction n with
  | zero => intro z1 z2 _ hn; omega
  | succ n ih =>
    intro z1 z2 h hn
    obtain ⟨hb, hs, hle, hp⟩ := readByte_sim h
    unfold skipWhiteSpaceLoop
    by_cases he : (readByte z1).2.err ≠ none
    · rw [if_pos he, if_pos (hs.err_iff.mp he)]
      exact ⟨_, _, rfl, rfl, hs, hle⟩
    · rw [if_neg he, if_neg (fun hc => he (hs.err_iff.mpr hc))]
      have he0 : (readByte z1).2.err = none := by simpa using he
      obtain ⟨_, hr, hpa⟩ := hp he0
      rw [← hb]
      by_cases hc : (readByte z1).1 = 32
      · rw [if_pos hc, if_pos hc]
        obtain ⟨z1', z2', a, b, c, d⟩ := ih _ _ hs (by omega)
        exact ⟨z1', z2', a, b, c, by omega⟩
      · rw [if_neg hc, if_neg hc]
        obtain ⟨u1, u2, _⟩ := unread_sim hs he0 1 (by omega)
        exact ⟨_, _, rfl, rfl, u1, by simp only [Nat.cast_one] at u2; omega⟩

theorem headerLoop_sim : ∀ (n : Nat) (z1 z2 : Tokenizer), Sim z1 z2 →
    (restOf z1).length < n →
    ∃ z1' z2', headerLoop n z1 = some z1' ∧ headerLoop n z2 = some z2' ∧
      Sim z1' z2' ∧ (restOf z1').length ≤ (restOf z1).length := by
  intro n
  induction n with
  | zero => intro z1 z2 _ hn; omega
  | succ n ih =>
    intro z1 z2 h hn
    obtain ⟨hb, hs, hle, hp⟩ := readByte_sim h
    unfold headerLoop
    by_cases he : (readByte z1).2.err ≠ none
    · rw [if_pos he, if_pos (hs.err_iff.mp he)]
      exact ⟨_, _, rfl, rfl, hs, hle⟩
    · rw [if_neg he, if_neg (fun hc => he (hs.err_iff.mpr hc))]
      have he0 : (readByte z1).2.err = none := by simpa using he
      obtain ⟨_, hr, hpa⟩ := hp he0
      rw [← hb]
      by_cases hc : (readByte z1).1 = 10
      · rw [if_pos hc, if_pos hc]
        exact ⟨_, _, rfl, rfl, hs, hle⟩
      · rw [if_neg hc, if_neg hc]
        obtain ⟨z1', z2', a, b, c, d⟩ := ih _ _ hs (by omega)
        exact ⟨z1', z2', a, b, c, by omega⟩

theorem dataLoop_sim : ∀ (n lineNo : Nat) (z1 z2 : Tokenizer), Sim z1 z2 →
    (restOf z1).length < n →
    ∃ (k : Nat) (z1' z2' : Tokenizer), dataLoop n lineNo z1 = some (k, z1') ∧
      dataLoop n lineNo z2 = some (k, z2') ∧
      Sim z1' z2' ∧ (restOf z1').length ≤ (restOf z1).length := by
  intro n
  induction n with
  | zero => intro _ z1 z2 _ hn; omega
  | succ n ih =>
    intro lineNo z1 z2 h hn
    obtain ⟨hb, hs, hle, hp⟩ := readByte_sim h
    unfold dataLoop
    by_cases he : (readByte z1).2.err ≠ none
    · rw [if_pos he, if_pos (hs.err_iff.mp he)]
      exact ⟨_, _, _, rfl, rfl, hs, hle⟩
    · rw [if_neg he, if_neg (fun hc => he (hs.err_iff.mpr hc))]
      have he0 : (readByte z1).2.err = none := by simpa using he
      obtain ⟨_, hr, hpa⟩ := hp he0
      rw [← hb]
      by_cases hc : (readByte z1).1 = 10
      · rw [if_pos hc, if_pos hc]
        obtain ⟨k, z1', z2', a, b, c, d⟩ := ih (lineNo + 1) _ _ hs (by omega)
        exact ⟨k, z1', z2', a, b, c, by omega⟩
      · rw [if_neg hc, if_neg hc]
        by_cases hc2 : (readByte z1).1 = 42
        · rw [if_pos hc2, if_pos hc2]
          obtain ⟨u1, u2, _⟩ := unread_sim hs he0 1 (by omega)
          exact ⟨_, _, _, rfl, rfl, u1, by simp only [Nat.cast_one] at u2; omega⟩
        · rw [if_neg hc2, if_neg hc2]
          obtain ⟨k, z1', z2', a, b, c, d⟩ := ih lineNo _ _ hs (by omega)
          exact ⟨k, z1', z2', a, b, c, by omega⟩

theorem readUntilLineBreakLoop_sim : ∀ (n : Nat) (z1 z2 : Tokenizer), Sim z1 z2 →
    (restOf z1).length < n →
    ∃ z1' z2', readUntilLineBreakLoop n z1 = some z1' ∧ readUntilLineBreakLoop n z2 = some z2' ∧
      Sim z1' z2' ∧ (restOf z1').length ≤ (restOf z1).length := by
  intro n
  induction n with
  | zero => intro z1 z2 _ hn; omega
  | succ n ih =>
    intro z1 z2 h hn
    obtain ⟨hb, hs, hle, hp⟩ := readByte_sim h
    unfold readUntilLineBreakLoop
    by_cases he : (readByte z1).2.err ≠ none
    · rw [if_pos he, if_pos (hs.err_iff.mp he)]
      exact ⟨_, _, rfl, rfl, hs.withData _ _, hle⟩
    · rw [if_neg he, if_neg (fun hc => he (hs.err_iff.mpr hc))]
      have he0 : (readByte z1).2.err = none := by simpa using he
      obtain ⟨_, hr, hpa⟩ := hp he0
      rw [← hb]
      by_cases hc : (readByte z1).1 = 10
      · rw [if_pos hc, if_pos hc]
        exact ⟨_, _, rfl, rfl, hs.withData _ _, hle⟩
      · rw [if_neg hc, if_neg hc]
        obtain ⟨z1', z2', a, b, c, d⟩ := ih _ _ hs (by omega)
        exact ⟨z1', z2', a, b, c, by omega⟩

theorem readKeywordNameLoop_sim : ∀ (n : Nat) (z1 z2 : Tokenizer), Sim z1 z2 →
    (restOf z1).length < n →
    ∃ z1' z2', readKeywordNameLoop n z1 = some z1' ∧ readKeywordNameLoop n z2 = some z2' ∧
      Sim z1' z2' ∧ (restOf z1').length ≤ (restOf z1).length := by
  intro n
  induction n with
  | zero => intro z1 z2 _ hn; omega
  | succ n ih =>
    intro z1 z2 h hn
    obtain ⟨hb, hs, hle, hp⟩ := readByte_sim h
    unfold readKeywordNameLoop
    by_cases he : (readByte z1).2.err ≠ none
    · rw [if_pos he, if_pos (hs.err_iff.mp he)]
      exact ⟨_, _, rfl, rfl, hs.withName _ _, hle⟩
    · rw [if_neg he, if_neg (fun hc => he (hs.err_iff.mpr hc))]
      have he0 : (readByte z1).2.err = none := by simpa using he
      obtain ⟨_, hr, hpa⟩ := hp he0
      rw [← hb]
      by_cases hc : (readByte z1).1 = 44
      · rw [if_pos hc, if_pos hc]
        exact ⟨_, _, rfl, rfl, hs.withName _ _, hle⟩
      · rw [if_neg hc, if_neg hc]
        by_cases hc2 : (readByte z1).1 = 10
        · rw [if_pos hc2, if_pos hc2]
          obtain ⟨u1, u2, _⟩ := unread_sim hs he0 1 (by omega)
          refine ⟨_, _, rfl, rfl, u1.withName _ _, ?_⟩
          simp only [Nat.cast_one] at u2
          show (restOf (unread (readByte z1).2 1)).length ≤ _
          omega
        · rw [if_neg hc2, if_neg hc2]
          obtain ⟨z1', z2', a, b, c, d⟩ := ih _ _ hs (by omega)
          exact ⟨z1', z2', a, b, c, by omega⟩


theorem pending_eq (r : Reader) : r.pending = ((r.script.map (fun p => p.1)).flatten).length := by
  rw [Reader.pending, List.length_flatten, List.map_map]
  rfl

theorem fuel_eq_rest {z : Tokenizer} (h : WF z) : fuel z = (restOf z).length + 1 := by
  obtain ⟨s, e, hs, he, hse, hel⟩ := h.nat
  have h6 := h.len_le
  rw [fuel, restOf, pending_eq, List.length_append, List.length_drop, List.length_take, he]
  simp only [Int.toNat_ofNat]
  omega

theorem Sim.fuel_same {z1 z2 : Tokenizer} (h : Sim z1 z2) : fuel z2 = fuel z1 := by
  rw [fuel_eq_rest h.wf1, fuel_eq_rest h.wf2, h.rest]

theorem skipWhiteSpace_sim {z1 z2 : Tokenizer} (h : Sim z1 z2) :
    ∃ z1' z2', skipWhiteSpace z1 = some z1' ∧ skipWhiteSpace z2 = some z2' ∧
      Sim z1' z2' ∧ (restOf z1').length ≤ (restOf z1).length := by
  unfold skipWhiteSpace
  by_cases he : z1.err ≠ none
  · rw [if_pos he, if_pos (h.err_iff.mp he)]
    exact ⟨_, _, rfl, rfl, h, le_refl _⟩
  · rw [if_neg he, if_neg (fun hc => he (h.err_iff.mpr hc)), h.fuel_same]
    exact skipWhiteSpaceLoop_sim _ _ _ h (by rw [fuel_eq_rest h.wf1]; omega)

theorem readKeywordName_sim {z1 z2 : Tokenizer} (h : Sim z1 z2) :
    ∃ z1' z2', readKeywordName z1 = some z1' ∧ readKeywordName z2 = some z2' ∧
      Sim z1' z2' ∧ (restOf z1').length ≤ (restOf z1).length := by
  obtain ⟨h1, hr⟩ := h.congrSim { z1 with name := ⟨z1.raw.end_ - 1, z1.name.end_⟩ }
      { z2 with name := ⟨z2.raw.end_ - 1, z2.name.end_⟩ }
    rfl rfl rfl rfl rfl rfl rfl rfl rfl rfl rfl rfl rfl rfl h.tt
  obtain ⟨z1', z2', a, b, c, d⟩ := readKeywordNameLoop_sim
    (fuel { z1 with name := ⟨z1.raw.end_ - 1, z1.name.end_⟩ }) _ _ h1
    (by rw [fuel_eq_rest h1.wf1]; omega)
  have e1 : readKeywordName z1 =
      readKeywordNameLoop (fuel { z1 with name := ⟨z1.raw.end_ - 1, z1.name.end_⟩ })
        { z1 with name := ⟨z1.raw.end_ - 1, z1.name.end_⟩ } := rfl
  have e2 : readKeywordName z2 =
      readKeywordNameLoop (fuel { z2 with name := ⟨z2.raw.end_ - 1, z2.name.end_⟩ })
        { z2 with name := ⟨z2.raw.end_ - 1, z2.name.end_⟩ } := rfl
  rw [e1, e2, h1.fuel_same]
  exact ⟨z1', z2', a, b, c, by rw [← hr]; exact d⟩

theorem readUntilLineBreak_sim {z1 z2 : Tokenizer} (h : Sim z1 z2) :
    ∃ z1' z2', readUntilLineBreak z1 = some z1' ∧ readUntilLineBreak z2 = some z2' ∧
      Sim z1' z2' ∧ (restOf z1').length ≤ (restOf z1).length := by
  obtain ⟨h1, hr⟩ := h.congrSim { z1 with data := ⟨z1.raw.end_ - 2, z1.data.end_⟩ }
      { z2 with data := ⟨z2.raw.end_ - 2, z2.data.end_⟩ }
    rfl rfl rfl rfl rfl rfl rfl rfl rfl rfl rfl rfl rfl rfl h.tt
  have key : ∃ y1 y2,
      (if z1.tt = TokenType.EndKeywordToken then
        readKeywordName { z1 with data := ⟨z1.raw.end_ - 2, z1.data.end_⟩ }
        else some { z1 with data := ⟨z1.raw.end_ - 2, z1.data.end_⟩ }) = some y1 ∧
      (if z2.tt = TokenType.EndKeywordToken then
        readKeywordName { z2 with data := ⟨z2.raw.end_ - 2, z2.data.end_⟩ }
        else some { z2 with data := ⟨z2.raw.end_ - 2, z2.data.end_⟩ }) = some y2 ∧
      Sim y1 y2 ∧ (restOf y1).length ≤ (restOf z1).length := by
    by_cases ht : z1.tt = TokenType.EndKeywordToken
    · rw [if_pos ht, if_pos (by rw [← h.tt]; exact ht)]
      obtain ⟨y1, y2, a, b, c, d⟩ := readKeywordName_sim h1
      exact ⟨y1, y2, a, b, c, by rw [← hr]; exact d⟩
    · rw [if_neg ht, if_neg (by rw [← h.tt]; exact ht)]
      exact ⟨_, _, rfl, rfl, h1, by rw [hr]⟩
  obtain ⟨y1, y2, a, b, c, d⟩ := key
  obtain ⟨z1', z2', a', b', c', d'⟩ := readUntilLineBreakLoop_sim (fuel y1) y1 y2 c
    (by rw [fuel_eq_rest c.wf1]; omega)
  refine ⟨z1', z2', ?_, ?_, c', by omega⟩
  · simp only [readUntilLineBreak, a, Option.some_bind, a']
  · simp only [readUntilLineBreak, b, Option.some_bind, c.fuel_same, b']

theorem readKeywordWithData_sim {z1 z2 : Tokenizer} (h : Sim z1 z2) :
    ∃ (t : TokenType) (z1' z2' : Tokenizer), readKeywordWithData z1 = some (t, z1') ∧
      readKeywordWithData z2 = some (t, z2') ∧
      Sim z1' z2' ∧ (restOf z1').length ≤ (restOf z1).length := by
  obtain ⟨x1, x2, a0, b0, c0, d0⟩ := readKeywordName_sim h
  obtain ⟨y1, y2, a1, b1, c1, d1⟩ := skipWhiteSpace_sim c0
  simp only [readKeywordWithData, a0, b0, a1, b1, Option.some_bind]
  by_cases e1 : y1.err ≠ none
  · rw [if_pos e1, if_pos (c1.err_iff.mp e1)]
    exact ⟨_, _, _, rfl, rfl, c1, by omega⟩
  · rw [if_neg e1, if_neg (fun hc => e1 (c1.err_iff.mpr hc))]
    obtain ⟨w1, w2, a2, b2, c2, d2⟩ := headerLoop_sim (fuel y1) y1 y2 c1
      (by rw [fuel_eq_rest c1.wf1]; omega)
    rw [c1.fuel_same, a2, b2]
    simp only [Option.some_bind]
    by_cases e2 : w1.err ≠ none
    · rw [if_pos e2, if_pos (c2.err_iff.mp e2)]
      exact ⟨_, _, _, rfl, rfl, c2, by omega⟩
    · rw [if_neg e2, if_neg (fun hc => e2 (c2.err_iff.mpr hc))]
      obtain ⟨c3, hr3⟩ := c2.congrSim { w1 with params := ⟨w1.name.end_ + 2, w1.raw.end_ - 1⟩ }
          { w2 with params := ⟨w2.name.end_ + 2, w2.raw.end_ - 1⟩ }
        rfl rfl rfl rfl rfl rfl rfl rfl rfl rfl rfl rfl rfl rfl c2.tt
      obtain ⟨k, v1, v2, a4, b4, c4, d4⟩ := dataLoop_sim
        (fuel { w1 with params := ⟨w1.name.end_ + 2, w1.raw.end_ - 1⟩ }) 1 _ _ c3
        (by rw [fuel_eq_rest c3.wf1]; omega)
      rw [c3.fuel_same, a4, b4]
      rw [hr3] at d4
      simp only [Option.some_bind]
      by_cases e3 : v1.err ≠ none
      · rw [if_pos e3, if_pos (c4.err_iff.mp e3)]
        exact ⟨_, _, _, rfl, rfl, c4, by omega⟩
      · rw [if_neg e3, if_neg (fun hc => e3 (c4.err_iff.mpr hc))]
        by_cases hk : k > 1
        · rw [if_pos hk, if_pos hk]
          obtain ⟨c5, hr5⟩ := c4.congrSim { v1 with data := ⟨v1.params.end_ + 1, v1.raw.end_⟩ }
              { v2 with data := ⟨v2.params.end_ + 1, v2.raw.end_⟩ }
            rfl rfl rfl rfl rfl rfl rfl rfl rfl rfl rfl rfl rfl rfl c4.tt
          exact ⟨_, _, _, rfl, rfl, c5, by rw [hr5]; omega⟩
        · rw [if_neg hk, if_neg hk]
          exact ⟨_, _, _, rfl, rfl, c4, by omega⟩


theorem Sim.setTT_rest {z1 z2 : Tokenizer} (h : Sim z1 z2) (t : TokenType) :
    Sim { z1 with tt := t } { z2 with tt := t } ∧
    restOf { z1 with tt := t } = restOf z1 :=
  h.congrSim { z1 with tt := t }
      { z2 with tt := t }
    rfl rfl rfl rfl rfl rfl rfl rfl rfl rfl rfl rfl rfl rfl rfl

theorem nextAfterStar_sim {z1 z2 : Tokenizer} (h : Sim z1 z2) :
    ∃ z1' z2', nextAfterStar z1 = some z1' ∧ nextAfterStar z2 = some z2' ∧
      Sim z1' z2' ∧ (restOf z1').length ≤ (restOf z1).length := by
  obtain ⟨hb2, hs2, hle2, hp2⟩ := readByte_sim h
  have keyK : ∀ y1 y2 : Tokenizer, Sim y1 y2 → (restOf y1).length ≤ (restOf z1).length →
      ∃ z1' z2', (readKeywordWithData y1).map (fun k => { k.2 with tt := k.1 }) = some z1' ∧
        (readKeywordWithData y2).map (fun k => { k.2 with tt := k.1 }) = some z2' ∧
        Sim z1' z2' ∧ (restOf z1').length ≤ (restOf z1).length := by
    intro y1 y2 hy hl
    obtain ⟨t, v1, v2, a, b, c, d⟩ := readKeywordWithData_sim hy
    obtain ⟨c', hr⟩ := c.setTT_rest t
    exact ⟨_, _, by rw [a]; rfl, by rw [b]; rfl, c', by rw [hr]; omega⟩
  have keyL : ∀ (y1 y2 : Tokenizer) (t : TokenType), Sim y1 y2 →
      (restOf y1).length ≤ (restOf z1).length →
      ∃ z1' z2', (readUntilLineBreak y1).map (fun z => { z with tt := t }) = some z1' ∧
        (readUntilLineBreak y2).map (fun z => { z with tt := t }) = some z2' ∧
        Sim z1' z2' ∧ (restOf z1').length ≤ (restOf z1).length := by
    intro y1 y2 t hy hl
    obtain ⟨v1, v2, a, b, c, d⟩ := readUntilLineBreak_sim hy
    obtain ⟨c', hr⟩ := c.setTT_rest t
    exact ⟨_, _, by rw [a]; rfl, by rw [b]; rfl, c', by rw [hr]; omega⟩
  unfold nextAfterStar
  by_cases e2 : (readByte z1).2.err ≠ none
  · rw [if_pos e2, if_pos (hs2.err_iff.mp e2)]
    obtain ⟨c', hr⟩ := hs2.setTT_rest TokenType.ErrorToken
    exact ⟨_, _, rfl, rfl, c', by rw [hr]; exact hle2⟩
  · rw [if_neg e2, if_neg (fun hc => e2 (hs2.err_iff.mpr hc))]
    have e20 : (readByte z1).2.err = none := by simpa using e2
    obtain ⟨_, hr2, hpa2⟩ := hp2 e20
    rw [← hb2]
    by_cases c1 : (readByte z1).1 = 42
    · rw [if_pos c1, if_pos c1]
      exact keyL _ _ _ hs2 hle2
    · rw [if_neg c1, if_neg c1]
      by_cases c2 : (readByte z1).1 = 69 ∨ (readByte z1).1 = 101
      · rw [if_pos c2, if_pos c2]
        obtain ⟨hb3, hs3, hle3, hp3⟩ := readByte_sim hs2
        by_cases e3 : (readByte (readByte z1).2).2.err ≠ none
        · rw [if_pos e3, if_pos (hs3.err_iff.mp e3)]
          obtain ⟨c', hr⟩ := hs3.setTT_rest TokenType.ErrorToken
          exact ⟨_, _, rfl, rfl, c', by rw [hr]; omega⟩
        · rw [if_neg e3, if_neg (fun hc => e3 (hs3.err_iff.mpr hc))]
          have e30 : (readByte (readByte z1).2).2.err = none := by simpa using e3
          obtain ⟨_, hr3, hpa3⟩ := hp3 e30
          obtain ⟨hb4, hs4, hle4, hp4⟩ := readByte_sim hs3
          by_cases e4 : (readByte (readByte (readByte z1).2).2).2.err ≠ none
          · rw [if_pos e4, if_pos (hs4.err_iff.mp e4)]
            obtain ⟨c', hr⟩ := hs4.setTT_rest TokenType.ErrorToken
            exact ⟨_, _, rfl, rfl, c', by rw [hr]; omega⟩
          · rw [if_neg e4, if_neg (fun hc => e4 (hs4.err_iff.mpr hc))]
            have e40 : (readByte (readByte (readByte z1).2).2).2.err = none := by simpa using e4
            obtain ⟨_, hr4, hpa4⟩ := hp4 e40
            rw [← hb3, ← hb4]
            by_cases c3 : (readByte (readByte z1).2).1 = 110 ∧
                (readByte (readByte (readByte z1).2).2).1 = 100
            · rw [if_pos c3, if_pos c3]
              obtain ⟨u1, u2, _⟩ := unread_sim hs4 e40 2 (by omega)
              exact keyL _ _ _ u1 (by simp only [Nat.cast_ofNat] at u2; omega)
            · rw [if_neg c3, if_neg c3]
              obtain ⟨u1, u2, _⟩ := unread_sim hs4 e40 3 (by omega)
              exact keyK _ _ u1 (by simp only [Nat.cast_ofNat] at u2; omega)
      · rw [if_neg c2, if_neg c2]
        exact keyK _ _ hs2 hle2

theorem nextLoop_sim : ∀ (n : Nat) (z1 z2 : Tokenizer), Sim z1 z2 →
    (restOf z1).length < n →
    ∃ z1' z2', nextLoop n z1 = some z1' ∧ nextLoop n z2 = some z2' ∧
      Sim z1' z2' ∧ (restOf z1').length ≤ (restOf z1).length ∧
      (z1'.err = none → (restOf z1').length < (restOf z1).length) := by
  intro n
  induction n with
  | zero => intro z1 z2 _ hn; omega
  | succ n ih =>
    intro z1 z2 h hn
    obtain ⟨hb, hs, hle, hp⟩ := readByte_sim h
    unfold nextLoop
    by_cases he : (readByte z1).2.err ≠ none
    · rw [if_pos he, if_pos (hs.err_iff.mp he)]
      obtain ⟨c', hr⟩ := hs.setTT_rest TokenType.ErrorToken
      exact ⟨_, _, rfl, rfl, c', by rw [hr]; exact hle, fun hc => absurd hc he⟩
    · rw [if_neg he, if_neg (fun hc => he (hs.err_iff.mpr hc))]
      have he0 : (readByte z1).2.err = none := by simpa using he
      obtain ⟨_, hr, hpa⟩ := hp he0
      rw [← hb]
      by_cases hc : (readByte z1).1 ≠ 42
      · rw [if_pos hc, if_pos hc]
        obtain ⟨z1', z2', a, b, c, d, e⟩ := ih _ _ hs (by omega)
        exact ⟨z1', z2', a, b, c, by omega, fun _ => by omega⟩
      · rw [if_neg hc, if_neg hc]
        obtain ⟨z1', z2', a, b, c, d⟩ := nextAfterStar_sim hs
        exact ⟨z1', z2', a, b, c, by omega, fun _ => by omega⟩

theorem WF.atStart {z : Tokenizer} (h : WF z) :
    WF { z with raw := ⟨z.raw.end_, z.raw.end_⟩, data := ⟨z.raw.end_, z.raw.end_⟩ } ∧
    restOf { z with raw := ⟨z.raw.end_, z.raw.end_⟩, data := ⟨z.raw.end_, z.raw.end_⟩ }
      = restOf z ∧
    pastOf { z with raw := ⟨z.raw.end_, z.raw.end_⟩, data := ⟨z.raw.end_, z.raw.end_⟩ } = [] := by
  obtain ⟨s, e, hs, he, hse, hel⟩ := h.nat
  refine ⟨⟨?_, le_refl _, h.end_le, h.len_le_cap, h.cap_pos, h.len_le, h.rd, h.errs⟩, rfl, ?_⟩
  · show 0 ≤ z.raw.end_
    omega
  · show List.drop z.raw.end_.toNat ((z.buf.take z.bufLen).take z.raw.end_.toNat) = []
    rw [List.drop_eq_nil_iff]
    simp

theorem Sim.simStart {z1 z2 : Tokenizer} (h : Sim z1 z2) :
    Sim { z1 with raw := ⟨z1.raw.end_, z1.raw.end_⟩, data := ⟨z1.raw.end_, z1.raw.end_⟩ }
      { z2 with raw := ⟨z2.raw.end_, z2.raw.end_⟩, data := ⟨z2.raw.end_, z2.raw.end_⟩ } := by
  obtain ⟨a1, a2, a3⟩ := h.wf1.atStart
  obtain ⟨b1, b2, b3⟩ := h.wf2.atStart
  exact ⟨a1, b1, by rw [a2, b2, h.rest], by rw [a3, b3], h.tt, h.err⟩

/-- Function `Next` on two indistinguishable states: both calls return, the new states are
indistinguishable, and a call that leaves no error has consumed input. -/
theorem Next_sim {z1 z2 : Tokenizer} (h : Sim z1 z2) :
    ∃ z1' z2', Next z1 = some z1' ∧ Next z2 = some z2' ∧ Sim z1' z2' ∧
      (restOf z1').length ≤ (restOf z1).length ∧
      (z1'.err = none → (restOf z1').length < (restOf z1).length) := by
  have h0 := h.simStart
  have hr0 := h.wf1.atStart.2.1
  unfold Next
  by_cases he : z1.err ≠ none
  · rw [if_pos he, if_pos (h.err_iff.mp he)]
    obtain ⟨c', hr⟩ := h0.setTT_rest TokenType.ErrorToken
    exact ⟨_, _, rfl, rfl, c', by rw [hr, hr0], fun hc => absurd hc he⟩
  · rw [if_neg he, if_neg (fun hc => he (h.err_iff.mpr hc)), h0.fuel_same]
    obtain ⟨z1', z2', a, b, c, d, e⟩ := nextLoop_sim
      (fuel { z1 with raw := ⟨z1.raw.end_, z1.raw.end_⟩, data := ⟨z1.raw.end_, z1.raw.end_⟩ })
      _ _ h0 (by rw [fuel_eq_rest h0.wf1]; omega)
    exact ⟨z1', z2', a, b, c, by rw [← hr0]; exact d, by rw [← hr0]; exact e⟩

theorem Sim.refl {z : Tokenizer} (h : WF z) : Sim z z := ⟨h, h, rfl, rfl, rfl, rfl⟩

/-- Token types do not depend on the chunking. -/
theorem tokensUpTo_sim : ∀ (m : Nat) (z1 z2 : Tokenizer), Sim z1 z2 →
    (tokensUpTo m z1).map Prod.fst = (tokensUpTo m z2).map Prod.fst := by
  intro m
  induction m with
  | zero => intro z1 z2 _; rfl
  | succ m ih =>
    intro z1 z2 h
    obtain ⟨z1', z2', a, b, c, _, _⟩ := Next_sim h
    simp only [tokensUpTo, a, b]
    by_cases ht : z1'.tt = TokenType.ErrorToken
    · rw [if_pos ht, if_pos (by rw [← c.tt]; exact ht)]
    · rw [if_neg ht, if_neg (by rw [← c.tt]; exact ht)]
      simp only [List.map_cons, c.tt, ih z1' z2' c]

theorem nextN_err_state : ∀ (k : Nat) (z : Tokenizer), z.err ≠ none →
    ∃ zk, nextN (k + 1) z = some zk ∧ zk.tt = TokenType.ErrorToken ∧ zk.err = z.err := by
  intro k z he
  obtain ⟨zk, h1, h2, h3⟩ := nextN_of_err k
    { z with raw := ⟨z.raw.end_, z.raw.end_⟩, data := ⟨z.raw.end_, z.raw.end_⟩,
             tt := TokenType.ErrorToken } he rfl
  exact ⟨zk, by simp only [nextN, Next_of_err z he, Option.some_bind, h1], h2, h3⟩

theorem tokensUpTo_err (m : Nat) (z : Tokenizer) (he : z.err ≠ none) : tokensUpTo m z = [] := by
  cases m with
  | zero => rfl
  | succ m => simp [tokensUpTo, Next_of_err z he]

theorem WF.err_eof {z : Tokenizer} (h : WF z) (he : z.err ≠ none) : z.err = some Error.EOF := by
  rcases h.errs with ⟨e, _⟩ | ⟨e, _⟩
  · exact absurd e he
  · exact e

/-- The calls of `Next` on a well-formed state: each returns; the first ones, as many as
`tokensUpTo` lists, return a token and all later ones `ErrorToken` with `io.EOF`. -/
theorem nextN_count : ∀ (m : Nat) (z : Tokenizer), WF z → (restOf z).length < m →
    ∀ k, ∃ zk, nextN (k + 1) z = some zk ∧
      (zk.tt = TokenType.ErrorToken ↔ (tokensUpTo m z).length ≤ k) ∧
      (zk.tt = TokenType.ErrorToken → zk.err = some Error.EOF) := by
  intro m
  induction m with
  | zero => intro z _ hm; omega
  | succ m ih =>
    intro z h hm k
    obtain ⟨z', _, a, _, c, d, e⟩ := Next_sim (Sim.refl h)
    by_cases ht : z'.tt = TokenType.ErrorToken
    · have he := Next_error z z' a ht
      have htok : tokensUpTo (m + 1) z = [] := by simp [tokensUpTo, a, ht]
      obtain ⟨zk, h1, h2, h3⟩ := nextN_of_err k z' he ht
      refine ⟨zk, by simp only [nextN, a, Option.some_bind] at h1 ⊢; exact h1, ?_, ?_⟩
      · rw [htok]; simp [h2]
      · intro _; rw [h3]; exact c.wf1.err_eof he
    · have htok : tokensUpTo (m + 1) z = (z'.tt, z'.Token) :: tokensUpTo m z' := by
        simp [tokensUpTo, a, ht]
      cases k with
      | zero =>
        refine ⟨z', by simp only [nextN, a, Option.some_bind], ?_, fun hc => absurd hc ht⟩
        rw [htok]; simp [ht]
      | succ k =>
        by_cases he : z'.err = none
        · obtain ⟨zk, h1, h2, h3⟩ := ih z' c.wf1 (by have := e he; omega) k
          refine ⟨zk, by rw [nextN, a, Option.some_bind]; exact h1, ?_, h3⟩
          rw [htok, h2]; simp
        · obtain ⟨zk, h1, h2, h3⟩ := nextN_err_state k z' he
          refine ⟨zk, by rw [nextN, a, Option.some_bind]; exact h1, ?_, ?_⟩
          · rw [htok, tokensUpTo_err m z' he]; simp [h2]
          · intro _; rw [h3]; exact c.wf1.err_eof he

theorem WF_new (chunks : List (List UInt8)) (hne : ∀ c ∈ chunks, c ≠ []) :
    WF (NewTokenizer (chunkReader chunks)) ∧
    restOf (NewTokenizer (chunkReader chunks)) = chunks.flatten ∧
    pastOf (NewTokenizer (chunkReader chunks)) = [] := by
  refine ⟨⟨le_refl _, le_refl _, le_refl _, ?_, ?_, ?_, ⟨chunks, rfl, hne⟩, Or.inl ⟨rfl, rfl⟩⟩,
    ?_, ?_⟩
  · simp [NewTokenizer]
  · simp [NewTokenizer]
  · simp [NewTokenizer]
  · rw [restOf_eq chunks rfl]
    simp [NewTokenizer]
  · simp [pastOf, NewTokenizer]

theorem Sim_new (chunks : List (List UInt8)) (hne : ∀ c ∈ chunks, c ≠ []) :
    Sim (NewTokenizer (chunkReader chunks)) (NewTokenizer (stringsReader chunks.flatten)) := by
  obtain ⟨a1, a2, a3⟩ := WF_new chunks hne
  obtain ⟨b1, b2, b3⟩ := WF_new (if chunks.flatten = [] then [] else [chunks.flatten])
    (by intro c hc; split at hc <;> simp at hc; rw [hc]; assumption)
  refine ⟨a1, b1, ?_, ?_, rfl, rfl⟩
  · rw [a2, stringsReader, b2]
    split <;> simp [*]
  · rw [a3, stringsReader, b3]

/-- C8: for every input delivered in non-empty chunks and then `io.EOF`, every call of `Next`
returns (each loop in it ends within its fuel); with `n = tokenCount input`, a number that
depends on the input alone, the calls 1 to `n` return a token other than `ErrorToken`, and
call `n + 1` and every later call return `ErrorToken` with `Err() = io.EOF`. -/
theorem termination (input : List UInt8) (chunks : List (List UInt8))
    (hne : ∀ c ∈ chunks, c ≠ []) (hflat : chunks.flatten = input) :
    ∀ k, ∃ zk, nextN (k + 1) (NewTokenizer (chunkReader chunks)) = some zk ∧
      (zk.tt = TokenType.ErrorToken ↔ tokenCount input ≤ k) ∧
      (zk.tt = TokenType.ErrorToken → zk.Err = some Error.EOF) := by
  intro k
  have hs := Sim_new chunks hne
  have hcount : tokenCount input =
      (tokensUpTo (fuel (NewTokenizer (chunkReader chunks)))
        (NewTokenizer (chunkReader chunks))).length := by
    have := congrArg List.length (tokensUpTo_sim (fuel (NewTokenizer (chunkReader chunks))) _ _ hs)
    simp only [List.length_map] at this
    rw [this, tokenCount, allTokens, ← hflat, hs.fuel_same]
  obtain ⟨zk, h1, h2, h3⟩ := nextN_count (fuel (NewTokenizer (chunkReader chunks))) _ hs.wf1
    (by rw [fuel_eq_rest hs.wf1]; omega) k
  refine ⟨zk, h1, by rw [hcount]; exact h2, ?_⟩
  intro ht
  simp only [Tokenizer.Err, ht, ne_eq, not_true_eq_false, if_false]
  exact h3 ht

/-- C8 on a comment and two keywords delivered in two chunks: here `n = 2`, so the first
two calls return tokens and the third returns `ErrorToken` with `io.EOF`. -/
theorem termination_witness :
    tokenCount (bytes "** c\n*A\n1\n*B\n") = 2 ∧
    ∀ k, ∃ zk,
      nextN (k + 1) (NewTokenizer (chunkReader [bytes "** c\n*A", bytes "\n1\n*B\n"])) = some zk ∧
      (zk.tt = TokenType.ErrorToken ↔ tokenCount (bytes "** c\n*A\n1\n*B\n") ≤ k) ∧
      (zk.tt = TokenType.ErrorToken → zk.Err = some Error.EOF) :=
  ⟨by decide!, termination (bytes "** c\n*A\n1\n*B\n") [bytes "** c\n*A", bytes "\n1\n*B\n"]
    (by decide) (by decide)⟩

/-! ## Rendering the tokens of well-formed inputs -/

theorem Next_end {w : Bool} {input : List UInt8} {z : Tokenizer} {s : Int} {p : Nat}
    {nm dt pr : span} {t : TokenType} (h : At w input z s p nm dt pr t)
    (hw : w = true ∨ p = 0) (e : UInt8) (line rest : List UInt8)
    (hd : input.drop p = 42 :: e :: 110 :: 100 :: (line ++ 10 :: rest))
    (he : e = 69 ∨ e = 101) (h10 : 10 ∉ line) :
    ∃ z', Next z = some z' ∧
    At w input z' p ((p + 4 + line.length + 1 : Nat) : Int)
      (if t = TokenType.EndKeywordToken then
        ⟨(p : Int) + 1,
          (p : Int) + 2 + ((110 :: 100 :: line).takeWhile (fun b => b != 44)).length⟩ else nm)
      ⟨(p : Int), (p : Int) + 4 + line.length + 1⟩ pr TokenType.EndKeywordToken := by
  obtain ⟨z1, hz1, h1⟩ := Next_star h hw _ hd
  have hd1 := drop_succ_of_drop hd
  have hd2 := drop_succ_of_drop hd1
  have hd3 := drop_succ_of_drop hd2
  obtain ⟨hb2, he2, h2⟩ := h1.readByte e _ hd1
  obtain ⟨hb3, he3, h3⟩ := h2.readByte 110 _ hd2
  obtain ⟨hb4, he4, h4⟩ := h3.readByte 100 _ hd3
  have h5 := h4.unread 2 (by omega) (by push_cast; omega)
  have h5' : At w input (unread (readByte (readByte (readByte z1).2).2).2 2) p
      ((p + 1 + 1 : Nat) : Int) nm ⟨p, p⟩ pr t := h5.cast (by push_cast; omega) rfl rfl rfl
  have hdl : input.drop (p + 1 + 1) = (110 :: 100 :: line) ++ 10 :: rest := by
    rw [hd2]; rfl
  obtain ⟨z', hz', h6⟩ := readUntilLineBreak_ok h5' (110 :: 100 :: line) rest hdl
    (by simp; exact h10)
  have hne : e ≠ 42 := by rcases he with he | he <;> rw [he] <;> decide
  have hn : Next z = some { z' with tt := TokenType.EndKeywordToken } := by
    rw [hz1]
    simp only [nextAfterStar, hb2, he2, hb3, he3, hb4, he4]
    simp [hne, he, hz']
  refine ⟨_, hn, (h6.setTT _).cast ?_ ?_ ?_ rfl⟩
  · simp only [List.length_cons]; push_cast; omega
  · split <;> first | (simp; omega) | simp
  · simp only [List.length_cons]; simp; omega


theorem Str.toWF {w : Bool} {input : List UInt8} {z : Tokenizer} (h : Str w input z) :
    WF z ∧ restOf z = input.drop z.raw.end_.toNat := by
  obtain ⟨cs, hr, hne, hin, _, _⟩ := h.rd
  refine ⟨⟨h.start_nonneg, h.start_le, h.end_le, h.len_le_cap, h.cap_pos, h.len_le,
    ⟨cs, hr, hne⟩, Or.inl ⟨h.err, h.readErr⟩⟩, ?_⟩
  have h1 := h.start_nonneg
  have h2 := h.start_le
  have h3 := h.end_le
  have h6 := h.len_le
  rw [restOf_eq cs hr, ← hin, List.drop_append_of_le_length (by rw [List.length_take]; omega)]

/-- At the end of the input `Next` returns `ErrorToken`. -/
theorem Next_eof {w : Bool} {input : List UInt8} {z : Tokenizer} {s : Int} {p : Nat}
    {nm dt pr : span} {t : TokenType} (h : At w input z s p nm dt pr t)
    (hw : w = true ∨ p = 0) (hd : input.drop p = []) :
    ∃ z', Next z = some z' ∧ z'.tt = TokenType.ErrorToken := by
  have h0 := h.next hw
  obtain ⟨hwf, hrest0⟩ := h0.str.toWF
  have hrest : restOf { z with raw := ⟨z.raw.end_, z.raw.end_⟩,
                               data := ⟨z.raw.end_, z.raw.end_⟩ } = [] := by
    rw [hrest0]
    show input.drop z.raw.end_.toNat = []
    rw [h.end_eq, Int.toNat_ofNat, hd]
  obtain ⟨_, hb, _⟩ := readByte_view hwf
  obtain ⟨_, _, he, _⟩ := hb h0.str.err hrest
  have hf : fuel { z with raw := ⟨z.raw.end_, z.raw.end_⟩, data := ⟨z.raw.end_, z.raw.end_⟩ }
      = 0 + 1 := by
    rw [fuel_eq_rest hwf, hrest]; rfl
  have herr : ¬ (z.err ≠ none) := by simp [h.str.err]
  simp only [Next]
  rw [if_neg herr, hf]
  simp only [nextLoop]
  rw [if_pos (by rw [he]; simp)]
  exact ⟨_, rfl, rfl⟩

theorem split_of_not_mem (sep : UInt8) : ∀ l : List UInt8, sep ∉ l → split sep l = [l] := by
  intro l
  induction l with
  | nil => intro _; rfl
  | cons c l ih =>
    intro h
    have hc : c ≠ sep := fun e => h (by simp [e])
    have hl : sep ∉ l := fun e => h (by simp [e])
    simp [split, hc, ih hl]

theorem split_one (sep : UInt8) : ∀ a b : List UInt8, sep ∉ a → sep ∉ b →
    split sep (a ++ sep :: b) = [a, b] := by
  intro a
  induction a with
  | nil => intro b _ hb; simp [split, split_of_not_mem sep b hb]
  | cons c a ih =>
    intro b ha hb
    have hc : c ≠ sep := fun e => ha (by simp [e])
    have hl : sep ∉ a := fun e => ha (by simp [e])
    simp [split, hc, ih b hl hb]

/-- The attribute loop of `Token` on the header text of one valid attribute. -/
theorem parseAttrs_attr (a : Attribute) (h : attrValid (some a)) :
    parseAttrs (a.Key ++ (if a.Val = [] then [] else 61 :: a.Val)) = [a] := by
  obtain ⟨_, k44, k61, _, v44, v61, _⟩ := h
  by_cases hv : a.Val = []
  · rw [if_pos hv, List.append_nil]
    simp only [parseAttrs, split_of_not_mem 44 a.Key k44, List.foldl_cons, List.foldl_nil,
      split_of_not_mem 61 a.Key k61, List.nil_append]
    cases a
    simp only at hv
    subst hv
    rfl
  · rw [if_neg hv]
    have h44 : (44 : UInt8) ∉ a.Key ++ 61 :: a.Val := by
      simp only [List.mem_append, List.mem_cons, not_or]
      exact ⟨k44, by decide, v44⟩
    simp only [parseAttrs, split_of_not_mem 44 _ h44, List.foldl_cons, List.foldl_nil,
      split_one 61 a.Key a.Val k61 v61, List.nil_append]

theorem text_head (b : Block) : ∃ r, b.text = 42 :: r := by
  cases b <;> simp [Block.text]


theorem goSlice_isSome {w : Bool} {input : List UInt8} {z : Tokenizer} (h : Str w input z)
    (sp : span) (h0 : 0 ≤ sp.start) (h1 : sp.start ≤ sp.end_) (h2 : sp.end_ ≤ z.raw.end_) :
    ∃ x, goSlice z sp = some x := by
  have a := h.end_le
  have b := h.len_le_cap
  have hc : 0 ≤ sp.start ∧ sp.start ≤ sp.end_ ∧ sp.end_ ≤ (z.bufCap : Int) := by omega
  exact ⟨sliceBuf z.buf sp.start sp.end_, by simp only [goSlice, hc, and_self, if_true]⟩

theorem At.self {w : Bool} {input : List UInt8} {z : Tokenizer} {s e e' : Int}
    {nm dt pr : span} {t : TokenType} (h : At w input z s e nm dt pr t) (he : e = e') :
    At w input z s e' z.name z.data z.params z.tt :=
  ⟨h.str, by rw [h.raw, he], rfl, rfl, rfl, rfl⟩

theorem step_comment {input : List UInt8} {z : Tokenizer} {s : Int} {nm dt pr : span}
    {t : TokenType} (pre line rest : List UInt8)
    (hin : input = pre ++ ([42, 42] ++ line ++ [10]) ++ rest)
    (h : At true input z s pre.length nm dt pr t)
    (hnm : 0 ≤ nm.start ∧ nm.start ≤ nm.end_ ∧ nm.end_ ≤ (pre.length : Int))
    (h10 : 10 ∉ line) :
    ∃ z', Next z = some z' ∧
      Stepped input z' pre.length (pre ++ ([42, 42] ++ line ++ [10])).length
        ([42, 42] ++ line ++ [10]) := by
  have hd : input.drop pre.length = 42 :: 42 :: (line ++ 10 :: rest) := by
    rw [hin]; simp
  obtain ⟨z', hz', hk⟩ := Next_comment h (Or.inl rfl) line rest hd h10
  have htw := (List.takeWhile_prefix (l := line) (fun b : UInt8 => b != 44)).length_le
  have hq : ((pre ++ ([42, 42] ++ line ++ [10])).length : Int) = (pre.length : Int) + 2 +
      line.length + 1 := by
    simp; omega
  have hdt := goSlice_of_eq hk.str pre ([42, 42] ++ line ++ [10]) rest hin (pre.length : Int)
    ((pre.length : Int) + 2 + line.length + 1) rfl (by simp; omega)
    (by rw [hk.end_eq]; push_cast; omega)
  rw [← hk.data] at hdt
  refine ⟨z', hz', ⟨by rw [hk.tt]; decide, hk.self (by rw [hq]; push_cast; omega), ?_, ?_⟩⟩
  · rw [hk.name, hq]
    split <;> (try dsimp only) <;> omega
  · simp only [Tokenizer.Token, hk.tt, hdt, Option.map_some', Token.String]

theorem step_end {input : List UInt8} {z : Tokenizer} {s : Int} {nm dt pr : span}
    {t : TokenType} (pre : List UInt8) (e : UInt8) (line rest : List UInt8)
    (hin : input = pre ++ ([42, e, 110, 100] ++ line ++ [10]) ++ rest)
    (h : At true input z s pre.length nm dt pr t)
    (hnm : 0 ≤ nm.start ∧ nm.start ≤ nm.end_ ∧ nm.end_ ≤ (pre.length : Int))
    (he : e = 69 ∨ e = 101) (h10 : 10 ∉ line) :
    ∃ z', Next z = some z' ∧
      Stepped input z' pre.length (pre ++ ([42, e, 110, 100] ++ line ++ [10])).length
        ([42, e, 110, 100] ++ line ++ [10]) := by
  have hd : input.drop pre.length = 42 :: e :: 110 :: 100 :: (line ++ 10 :: rest) := by
    rw [hin]; simp
  obtain ⟨z', hz', hk⟩ := Next_end h (Or.inl rfl) e line rest hd he h10
  have htw := (List.takeWhile_prefix (l := 110 :: 100 :: line)
    (fun b : UInt8 => b != 44)).length_le
  simp only [List.length_cons] at htw
  have hq : ((pre ++ ([42, e, 110, 100] ++ line ++ [10])).length : Int) = (pre.length : Int) + 4 +
      line.length + 1 := by
    simp; omega
  have hdt := goSlice_of_eq hk.str pre ([42, e, 110, 100] ++ line ++ [10]) rest hin
    (pre.length : Int) ((pre.length : Int) + 4 + line.length + 1) rfl (by simp; omega)
    (by rw [hk.end_eq]; push_cast; omega)
  rw [← hk.data] at hdt
  have hname : 0 ≤ z'.name.start ∧ z'.name.start ≤ z'.name.end_ ∧
      z'.name.end_ ≤ (pre.length : Int) + 4 + line.length + 1 := by
    rw [hk.name]
    split <;> (try dsimp only) <;> omega
  obtain ⟨x, hx⟩ := goSlice_isSome hk.str z'.name hname.1 hname.2.1
    (by rw [hk.end_eq]; push_cast; omega)
  refine ⟨z', hz', ⟨by rw [hk.tt]; decide, hk.self (by rw [hq]; push_cast; omega), ?_, ?_⟩⟩
  · rw [hq]; exact hname
  · simp only [Tokenizer.Token, hk.tt, hdt, hx, Option.some_bind, Option.map_some', Token.String]


theorem paramString_one (t : Token) (a : Attribute) (h : t.Attr = [a]) :
    t.paramString = attrText (some a) := by
  simp only [Token.paramString, h, List.foldl_cons, List.foldl_nil, attrText, List.nil_append]
  by_cases hv : a.Val = []
  · simp [hv]
  · have : a.Val.length > 0 := List.length_pos.mpr hv
    simp [hv, this]

theorem attrText_cases (attr : Option Attribute) (h : attrValid attr) :
    (attr = none ∧ attrText attr = []) ∨
    ∃ a P, attr = some a ∧ attrText attr = 44 :: 32 :: P ∧ P ≠ [] ∧ 10 ∉ P ∧ parseAttrs P = [a] := by
  cases attr with
  | none => exact Or.inl ⟨rfl, rfl⟩
  | some a =>
    right
    have hp := parseAttrs_attr a h
    obtain ⟨k10, _, _, v10, _, _, hk⟩ := h
    refine ⟨a, a.Key ++ (if a.Val = [] then [] else 61 :: a.Val), rfl, by simp [attrText], ?_, ?_,
      hp⟩
    · by_cases hv : a.Val = []
      · simp [hv, hk hv]
      · simp [hv]
    · by_cases hv : a.Val = []
      · simp [hv, k10]
      · simp only [hv, if_false, List.mem_append, List.mem_cons, not_or]
        exact ⟨k10, by decide, v10⟩

theorem step_keyword {input : List UInt8} {z : Tokenizer} {s : Int} {nm dt pr : span}
    {t : TokenType} (pre name : List UInt8) (attr : Option Attribute) (D rest : List UInt8)
    (hin : input = pre ++ ([42] ++ name ++ attrText attr ++ [10] ++ D) ++ 42 :: rest)
    (h : At true input z s pre.length nm dt pr t)
    (hv : (Block.keyword name attr D).valid) :
    ∃ z', Next z = some z' ∧
      Stepped input z' pre.length (pre ++ ([42] ++ name ++ attrText attr ++ [10] ++ D)).length
        ([42] ++ name ++ attrText attr ++ [10] ++ D) := by
  obtain ⟨hne, h10, h44, hs1, hs2, hs3, hattr, hDs, hDn⟩ := hv
  cases name with
  | nil => exact absurd rfl hne
  | cons c name' =>
    have hc1 : c ≠ 42 := fun e => hs1 (by simp [e])
    have hc2 : c ≠ 69 := fun e => hs2 (by simp [e])
    have hc3 : c ≠ 101 := fun e => hs3 (by simp [e])
    have htail : attrText attr = [] ∨ ∃ line, attrText attr = 44 :: line := by
      rcases attrText_cases attr hattr with ⟨_, e⟩ | ⟨a, P, _, e, _⟩
      · exact Or.inl e
      · exact Or.inr ⟨_, e⟩
    have htail10 : 10 ∉ attrText attr := by
      rcases attrText_cases attr hattr with ⟨_, e⟩ | ⟨a, P, _, e, _, hP, _⟩
      · rw [e]; simp
      · rw [e]
        simp only [List.mem_cons, not_or]
        exact ⟨by decide, by decide, hP⟩
    have hd : input.drop pre.length =
        42 :: c :: (name' ++ attrText attr ++ 10 :: (D ++ 42 :: rest)) := by
      rw [hin]; simp
    obtain ⟨z', hz', hk⟩ := Next_keyword h (Or.inl rfl) c name' (attrText attr) D rest hd
      hc1 hc2 hc3 (fun e => h10 (by simp [e])) (fun e => h44 (by simp [e])) htail htail10 hDs
    have hq : ((pre ++ ([42] ++ c :: name' ++ attrText attr ++ [10] ++ D)).length : Int) =
        (pre.length : Int) + 2 + name'.length + (attrText attr).length + 1 + D.length := by
      simp; omega
    have hnm := goSlice_of_eq hk.str (pre ++ [42]) (c :: name')
      (attrText attr ++ [10] ++ D ++ 42 :: rest) (by rw [hin]; simp)
      ((pre.length : Int) + 1) ((pre.length : Int) + 2 + name'.length) (by simp)
      (by simp; omega) (by rw [hk.end_eq]; push_cast; omega)
    rw [← hk.name] at hnm
    have hdt : goSlice z' z'.data = some D := by
      rw [hk.data]
      by_cases hm : 10 ∈ D
      · rw [if_pos hm]
        exact goSlice_of_eq hk.str (pre ++ [42] ++ c :: name' ++ attrText attr ++ [10]) D
          (42 :: rest) (by rw [hin]; simp) _ _ (by simp; omega) (by simp; omega)
          (by rw [hk.end_eq]; push_cast; omega)
      · rw [if_neg hm]
        have hD : D = [] := by
          rcases hDn with e | e
          · exact e
          · exact absurd (List.mem_of_getLast?_eq_some e) hm
        rw [hD]
        exact goSlice_of_eq hk.str pre [] ([42] ++ c :: name' ++ attrText attr ++ [10] ++ 42 :: rest)
          (by rw [hin, hD]; simp) _ _ rfl (by simp) (by rw [hk.end_eq]; push_cast; omega)
    refine ⟨z', hz', ⟨by rw [hk.tt]; decide, hk.self (by rw [hq]; push_cast; omega), ?_, ?_⟩⟩
    · rw [hk.name, hq]
      dsimp only
      omega
    · rcases attrText_cases attr hattr with ⟨_, e⟩ | ⟨a, P, ha, e, hPne, hP10, hPa⟩
      · have hpr : ¬ (z'.params.start < z'.params.end_) := by
          rw [hk.params, e]; simp
        simp only [Tokenizer.Token, hk.tt, hnm, hdt, Option.some_bind, if_neg hpr,
          Option.map_some', Token.String, Token.paramString, List.foldl_nil, e]
      · have hPl : 0 < P.length := List.length_pos.mpr hPne
        have hpr : z'.params.start < z'.params.end_ := by
          rw [hk.params, e]
          simp only [List.length_cons]
          push_cast
          omega
        have hps := goSlice_of_eq hk.str (pre ++ [42] ++ c :: name' ++ [44, 32]) P
          ([10] ++ D ++ 42 :: rest) (by rw [hin, e]; simp)
          ((pre.length : Int) + 2 + name'.length + 2)
          ((pre.length : Int) + 2 + name'.length + (attrText attr).length)
          (by simp; omega) (by rw [e]; simp; omega) (by rw [hk.end_eq]; push_cast; omega)
        rw [← hk.params] at hps
        simp only [Tokenizer.Token, hk.tt, hnm, hdt, Option.some_bind, if_pos hpr, hps,
          Option.map_some', Token.String, hPa]
        rw [paramString_one _ a rfl, ha]


theorem block_step {input : List UInt8} {z : Tokenizer} {s : Int} {nm dt pr : span}
    {t : TokenType} (pre : List UInt8) (b : Block) (rest : List UInt8)
    (hin : input = pre ++ b.text ++ rest)
    (h : At true input z s pre.length nm dt pr t)
    (hnm : 0 ≤ nm.start ∧ nm.start ≤ nm.end_ ∧ nm.end_ ≤ (pre.length : Int))
    (hv : b.valid) (hnext : b.isKeyword = true → ∃ r, rest = 42 :: r) :
    ∃ z', Next z = some z' ∧ Stepped input z' pre.length (pre ++ b.text).length b.text := by
  cases b with
  | comment line => exact step_comment pre line rest hin h hnm hv
  | endKeyword e line => exact step_end pre e line rest hin h hnm hv.1 hv.2
  | keyword name attr D =>
    obtain ⟨r, hr⟩ := hnext rfl
    exact step_keyword pre name attr D r (by rw [hin, hr]; rfl) h hv

theorem blocksText_cons (b : Block) (bs : List Block) :
    blocksText (b :: bs) = b.text ++ blocksText bs := by
  simp [blocksText]

theorem length_le_blocksText (blocks : List Block) :
    blocks.length ≤ (blocksText blocks).length := by
  induction blocks with
  | nil => simp
  | cons b bs ih =>
    obtain ⟨r, hr⟩ := text_head b
    rw [blocksText_cons, List.length_append, hr]
    simp
    omega

theorem run_blocks (input : List UInt8) : ∀ (blocks : List Block) (m : Nat) (pre : List UInt8)
    (z : Tokenizer) (s : Int) (nm dt pr : span) (t : TokenType),
    input = pre ++ blocksText blocks → At true input z s pre.length nm dt pr t →
    (0 ≤ nm.start ∧ nm.start ≤ nm.end_ ∧ nm.end_ ≤ (pre.length : Int)) →
    (∀ b ∈ blocks, b.valid) →
    (∀ b, blocks.getLast? = some b → b.isKeyword = false) → blocks.length ≤ m →
    render (tokensUpTo m z) = blocksText blocks := by
  intro blocks
  induction blocks with
  | nil =>
    intro m pre z s nm dt pr t hin h _ _ _ _
    cases m with
    | zero => rfl
    | succ m =>
      obtain ⟨z', hz', ht⟩ := Next_eof h (Or.inl rfl) (by rw [hin]; simp [blocksText])
      simp [tokensUpTo, hz', ht, render, blocksText]
  | cons b bs ih =>
    intro m pre z s nm dt pr t hin h hnm hv hlast hm
    obtain ⟨m', rfl⟩ : ∃ m', m = m' + 1 := ⟨m - 1, by simp at hm; omega⟩
    rw [blocksText_cons] at hin
    have hnext : b.isKeyword = true → ∃ r, blocksText bs = 42 :: r := by
      intro hk
      cases bs with
      | nil =>
        have := hlast b rfl
        rw [hk] at this
        cases this
      | cons b2 bs2 =>
        obtain ⟨r, hr⟩ := text_head b2
        exact ⟨r ++ blocksText bs2, by rw [blocksText_cons, hr]; rfl⟩
    obtain ⟨z', hz', hs⟩ := block_step pre b (blocksText bs)
      (by rw [hin, List.append_assoc]) h hnm (hv b (by simp)) hnext
    obtain ⟨tk, htk, hstr⟩ : ∃ tk, z'.Token = some tk ∧ tk.String = b.text := by
      have := hs.token
      cases hq : z'.Token with
      | none => rw [hq] at this; simp at this
      | some tk => rw [hq] at this; simp at this; exact ⟨tk, rfl, this⟩
    have hlast' : ∀ b', bs.getLast? = some b' → b'.isKeyword = false := by
      intro b' hb'
      apply hlast b'
      cases bs with
      | nil => simp at hb'
      | cons b2 bs2 => rw [List.getLast?_cons_cons]; exact hb'
    have ih' := ih m' (pre ++ b.text) z' pre.length z'.name z'.data z'.params z'.tt
      (by rw [hin, List.append_assoc]) hs.at_ hs.name (fun b' hb' => hv b' (by simp [hb']))
      hlast' (by simp at hm; omega)
    rw [blocksText_cons, ← ih']
    simp [tokensUpTo, hz', hs.tt, render, htk, hstr]

/-- C7 as amended: for an input of at most 10240 bytes read from `strings.NewReader` that
is a sequence of valid blocks (comment lines, end-keyword lines, keyword lines with at most
one attribute `, key` or `, key=val` followed by data lines without `*`) whose last block
is not a keyword block, the rendered texts of the tokens up to the first `ErrorToken`,
concatenated, are the input byte for byte. -/
theorem render_round_trip (blocks : List Block) (hvalid : ∀ b ∈ blocks, b.valid)
    (hlast : blocks.getLast?.map Block.isKeyword ≠ some true)
    (hlen : (blocksText blocks).length ≤ 10240) :
    render (allTokens (NewTokenizer (stringsReader (blocksText blocks)))) = blocksText blocks := by
  have h0 := At_new_whole (blocksText blocks) hlen
  have hf := fuel_eq h0.str 0 rfl
  have hl := length_le_blocksText blocks
  have hlast' : ∀ b, blocks.getLast? = some b → b.isKeyword = false := by
    intro b hb
    cases hk : b.isKeyword with
    | false => rfl
    | true => exact absurd (by rw [hb]; simp [hk]) hlast
  exact run_blocks (blocksText blocks) blocks _ [] _ 0 ⟨0, 0⟩ ⟨0, 0⟩ ⟨0, 0⟩ TokenType.ErrorToken
    rfl h0 ⟨le_refl _, le_refl _, le_refl _⟩ hvalid hlast' (by rw [hf]; omega)

/-- C7 as amended, on a comment, a keyword with data, a keyword with an attribute and an
end-keyword line: the input `** c`, `*Node`, `1, 2`, `*Nset, nset=A`, `*End Part`. -/
theorem render_round_trip_witness :
    render (allTokens (NewTokenizer (stringsReader (blocksText
      [Block.comment (bytes " c"), Block.keyword (bytes "Node") none (bytes "1, 2\n"),
       Block.keyword (bytes "Nset") (some ⟨bytes "nset", bytes "A"⟩) [],
       Block.endKeyword 69 (bytes " Part")])))) =
    bytes "** c\n*Node\n1, 2\n*Nset, nset=A\n*End Part\n" :=
  render_round_trip
    [Block.comment (bytes " c"), Block.keyword (bytes "Node") none (bytes "1, 2\n"),
     Block.keyword (bytes "Nset") (some ⟨bytes "nset", bytes "A"⟩) [],
     Block.endKeyword 69 (bytes " Part")] (by decide) (by decide) (by decide)

/-- C7 as stated fails: text before the first `*` belongs to no token, and two attributes
written `, nset=A, generate` are rendered with the untrimmed key ` generate` after `, `. -/
theorem render_not_round_trip :
    render (allTokens (NewTokenizer (stringsReader (bytes "1, 2\n** c\n")))) = bytes "** c\n" ∧
    render (allTokens (NewTokenizer (stringsReader (bytes "1, 2\n** c\n")))) ≠
      bytes "1, 2\n** c\n" ∧
    render (allTokens (NewTokenizer (stringsReader (bytes "*Nset, nset=A, generate\n** c\n")))) =
      bytes "*Nset, nset=A,  generate\n** c\n" ∧
    render (allTokens (NewTokenizer (stringsReader (bytes "*Nset, nset=A, generate\n** c\n")))) ≠
      bytes "*Nset, nset=A, generate\n** c\n" := by
  decide!

/-! ## Rendering -/

theorem paramString_eq_attrsText (t : Token) : t.paramString = attrsText t.Attr := by
  have key : ∀ (l : List Attribute) (s : List UInt8),
      l.foldl (fun s p => (s ++ ([44, 32] ++ p.Key)) ++
        (if p.Val.length > 0 then [61] ++ p.Val else [])) s = s ++ attrsText l := by
    intro l
    induction l with
    | nil => intro s; simp [attrsText]
    | cons a l ih =>
      intro s
      rw [List.foldl_cons, ih]
      cases hv : a.Val with
      | nil => simp [attrsText, hv]
      | cons v vs => simp [attrsText, hv]
  have := key t.Attr []
  simpa [Token.paramString] using this

/-- C11: `Token.String` renders a token as the specification says: nothing for
`ErrorToken`, the data for `CommentToken` and `EndKeywordToken`, and for `KeywordToken`
the `*`, the name, for each attribute in order `, ` and the key and (only for a non-empty
value) `=` and the value, then a line feed and the data. -/
theorem token_string_rendering (t : Token) : t.String = renderSpec t := by
  unfold Token.String renderSpec
  cases t.Typ <;> simp [paramString_eq_attrsText]

/-! ## Reading with retries -/

theorem nthRead_succ {σ : Type} (read : σ → Nat → ReadResult × σ) (k i : Nat) (r : σ) :
    nthRead read k (i + 1) r = nthRead read k i (read r k).2 := rfl

theorem readAtLeastOneByteLoop_first {σ : Type} (read : σ → Nat → ReadResult × σ) (k : Nat) :
    ∀ (n : Nat) (r : σ) (i : Nat), i < n →
      (∀ j, j < i → stalled (nthRead read k j r).1) → ¬ stalled (nthRead read k i r).1 →
      readAtLeastOneByteLoop read n r k = nthRead read k i r := by
  intro n
  induction n with
  | zero => intro r i hi; omega
  | succ n ih =>
    intro r i hi hst hns
    rw [readAtLeastOneByteLoop]
    cases i with
    | zero =>
      have h0 : ¬ stalled (read r k).1 := hns
      have : (read r k).1.data.length ≠ 0 ∨ (read r k).1.err ≠ none := by
        unfold stalled at h0
        by_cases hl : (read r k).1.data.length = 0
        · right; intro he; exact h0 ⟨hl, he⟩
        · left; exact hl
      simp only [this, if_true]
      rfl
    | succ i =>
      have h0 : stalled (read r k).1 := hst 0 (by omega)
      have : ¬ ((read r k).1.data.length ≠ 0 ∨ (read r k).1.err ≠ none) := by
        unfold stalled at h0
        intro h
        rcases h with h | h
        · exact h h0.1
        · exact h h0.2
      simp only [this, if_false]
      rw [nthRead_succ]
      exact ih (read r k).2 i (by omega)
        (fun j hj => by have := hst (j + 1) (by omega); rwa [nthRead_succ] at this)
        (by rwa [nthRead_succ] at hns)

theorem readAtLeastOneByteLoop_stalled {σ : Type} (read : σ → Nat → ReadResult × σ) (k : Nat) :
    ∀ (n : Nat) (r : σ), (∀ j, j < n → stalled (nthRead read k j r).1) →
      readAtLeastOneByteLoop read n r k =
        (⟨[], some Error.ErrNoProgress⟩, readerAfter read k n r) := by
  intro n
  induction n with
  | zero => intro r _; rfl
  | succ n ih =>
    intro r hst
    rw [readAtLeastOneByteLoop]
    have h0 : stalled (read r k).1 := hst 0 (by omega)
    have : ¬ ((read r k).1.data.length ≠ 0 ∨ (read r k).1.err ≠ none) := by
      unfold stalled at h0
      intro h
      rcases h with h | h
      · exact h h0.1
      · exact h h0.2
    simp only [this, if_false]
    rw [ih (read r k).2 (fun j hj => by
      have := hst (j + 1) (by omega); rwa [nthRead_succ] at this)]
    rfl

theorem first_not_stalled {σ : Type} (read : σ → Nat → ReadResult × σ) (k : Nat) (r : σ) :
    ∀ n : Nat, (∀ j, j < n → stalled (nthRead read k j r).1) ∨
      ∃ i, i < n ∧ (∀ j, j < i → stalled (nthRead read k j r).1) ∧
        ¬ stalled (nthRead read k i r).1 := by
  intro n
  induction n with
  | zero => left; intro j hj; omega
  | succ n ih =>
    rcases ih with h | ⟨i, hi, h1, h2⟩
    · by_cases hn : stalled (nthRead read k n r).1
      · left
        intro j hj
        by_cases hjn : j = n
        · rw [hjn]; exact hn
        · exact h j (by omega)
      · right; exact ⟨n, by omega, h, hn⟩
    · right; exact ⟨i, by omega, h1, h2⟩

/-- C12 as amended: `readAtLeastOneByte` never returns `(0, nil)`; it returns unchanged the
first `Read` result other than `(0, nil)` among its first 100 calls, leaving the reader as
that call left it; after 100 successive results `(0, nil)` it returns
`(0, io.ErrNoProgress)`; and a result `(0, io.ErrNoProgress)` comes either from those 100
results `(0, nil)` or unchanged from a `Read` call that returned it. -/
theorem readAtLeastOneByte_retries {σ : Type} (read : σ → Nat → ReadResult × σ) (r : σ)
    (k : Nat) :
    ¬ stalled (readAtLeastOneByteLoop read 100 r k).1 ∧
    (∀ i, i < 100 → (∀ j, j < i → stalled (nthRead read k j r).1) →
      ¬ stalled (nthRead read k i r).1 →
      readAtLeastOneByteLoop read 100 r k = nthRead read k i r) ∧
    ((∀ j, j < 100 → stalled (nthRead read k j r).1) →
      readAtLeastOneByteLoop read 100 r k =
        (⟨[], some Error.ErrNoProgress⟩, readerAfter read k 100 r)) ∧
    ((readAtLeastOneByteLoop read 100 r k).1 = ⟨[], some Error.ErrNoProgress⟩ →
      (∀ j, j < 100 → stalled (nthRead read k j r).1) ∨
      ∃ i, i < 100 ∧ (∀ j, j < i → stalled (nthRead read k j r).1) ∧
        (nthRead read k i r).1 = ⟨[], some Error.ErrNoProgress⟩) := by
  refine ⟨?_, readAtLeastOneByteLoop_first read k 100 r,
    readAtLeastOneByteLoop_stalled read k 100 r, ?_⟩
  · intro h
    rcases readAtLeastOneByteLoop_progress read 100 r k with h1 | h1
    · exact h1 h.1
    · exact h1 h.2
  · intro h
    rcases first_not_stalled read k r 100 with h1 | ⟨i, hi, h1, h2⟩
    · left; exact h1
    · right
      refine ⟨i, hi, h1, ?_⟩
      rw [← readAtLeastOneByteLoop_first read k 100 r i hi h1 h2]
      exact h

/-- C12 as stated fails for a reader whose `Read` itself returns `(0, io.ErrNoProgress)`:
`readAtLeastOneByte` returns `(0, io.ErrNoProgress)` after this one call, which did not
return `(0, nil)`. -/
theorem no_progress_error_from_reader :
    readAtLeastOneByte ⟨[([], some Error.ErrNoProgress)]⟩ 16 =
      (⟨[], some Error.ErrNoProgress⟩, ⟨[]⟩) ∧
    (Reader.Read ⟨[([], some Error.ErrNoProgress)]⟩ 16).1 = ⟨[], some Error.ErrNoProgress⟩ ∧
    ¬ stalled (Reader.Read ⟨[([], some Error.ErrNoProgress)]⟩ 16).1 := by
  decide

/-! ## Refills -/

theorem readByte_refill (z : Tokenizer) (hex : z.raw.end_ ≥ (z.bufLen : Int))
    (herr : z.readErr = none) : readByte z = fillBuf (compactBuf z) := by
  unfold readByte fillBuf compactBuf
  simp only [hex, herr, if_true]

theorem sliceBuf_length (arr : List UInt8) (a b : Int) :
    (sliceBuf arr a b).length = (b - a).toNat := by
  unfold sliceBuf
  simp only [List.length_append, List.length_replicate, List.length_take, List.length_drop]
  omega

theorem sliceBuf_zero_of_take (arr live : List UInt8) (d : Int)
    (h : arr.take d.toNat = live) (hl : live.length = d.toNat) : sliceBuf arr 0 d = live := by
  unfold sliceBuf
  simp only [Int.toNat_zero, List.drop_zero, sub_zero, h, hl, Nat.sub_self, List.replicate_zero,
    List.append_nil]

theorem compactBuf_live (z : Tokenizer) :
    (compactBuf z).buf.take (z.raw.end_ - z.raw.start).toNat =
      sliceBuf z.buf z.raw.start z.raw.end_ := by
  have hl := sliceBuf_length z.buf z.raw.start z.raw.end_
  unfold compactBuf
  simp only
  split
  · rw [← hl, List.take_length]
  · unfold writeAt
    simp only [List.take_zero, List.nil_append, Nat.zero_sub, List.replicate_zero, zero_add]
    rw [← hl, List.take_left]

theorem fillBuf_live (zc : Tokenizer) (d : Nat) (hd : d ≤ zc.bufLen) (hlen : zc.bufLen ≤ zc.buf.length) :
    (fillBuf zc).2.buf.take d = zc.buf.take d := by
  unfold fillBuf
  simp only
  split
  · rfl
  · simp only [writeAt]
    have h0 : zc.bufLen - zc.buf.length = 0 := by omega
    rw [h0, List.replicate_zero, List.append_nil, List.append_assoc,
      List.take_append_of_le_length (by rw [List.length_take]; omega)]
    rw [List.take_take, min_eq_left hd]

/-- C20: when `readByte` finds the buffer exhausted with no pending read error, it continues
from the compacted state `compactBuf z`, whose capacity is `2c` if `2d > c` and `c`
otherwise, whose raw span is `[0, d)` and whose first `d` bytes are the old
`buf[raw.start:raw.end]`; the state `readByte` returns has the same capacity, a raw span
starting at 0 and ending at `d` or `d + 1`, and still the same first `d` bytes. -/
theorem refill_keeps_live_window (z : Tokenizer) (h0 : 0 ≤ z.raw.start)
    (h1 : z.raw.start ≤ z.raw.end_) (hex : z.raw.end_ = (z.bufLen : Int))
    (hcap : z.bufLen ≤ z.bufCap) (herr : z.readErr = none) :
    readByte z = fillBuf (compactBuf z) ∧
    (compactBuf z).bufCap =
      (if 2 * (z.raw.end_ - z.raw.start) > (z.bufCap : Int) then 2 * z.bufCap else z.bufCap) ∧
    (compactBuf z).raw = ⟨0, z.raw.end_ - z.raw.start⟩ ∧
    goSlice z z.raw = some (sliceBuf z.buf z.raw.start z.raw.end_) ∧
    goSlice (compactBuf z) ⟨0, z.raw.end_ - z.raw.start⟩ = goSlice z z.raw ∧
    (readByte z).2.bufCap = (compactBuf z).bufCap ∧
    (readByte z).2.raw.start = 0 ∧
    ((readByte z).2.raw.end_ = z.raw.end_ - z.raw.start ∨
      (readByte z).2.raw.end_ = z.raw.end_ - z.raw.start + 1) ∧
    goSlice (readByte z).2 ⟨0, z.raw.end_ - z.raw.start⟩ = goSlice z z.raw := by
  have hre := readByte_refill z (by omega) herr
  have hl := sliceBuf_length z.buf z.raw.start z.raw.end_
  have hlive := compactBuf_live z
  have hcapc : (compactBuf z).bufCap =
      (if 2 * (z.raw.end_ - z.raw.start) > (z.bufCap : Int) then 2 * z.bufCap else z.bufCap) := rfl
  have hraw : (compactBuf z).raw = ⟨0, z.raw.end_ - z.raw.start⟩ := rfl
  have hlen : (compactBuf z).bufLen = (z.raw.end_ - z.raw.start).toNat := rfl
  have hdcap : z.raw.end_ - z.raw.start ≤ ((compactBuf z).bufCap : Int) := by
    rw [hcapc]; split <;> (try push_cast) <;> omega
  have hbl : (compactBuf z).bufLen ≤ (compactBuf z).buf.length := by
    have := congrArg List.length hlive
    rw [List.length_take, hl] at this
    rw [hlen]; omega
  have hold : goSlice z z.raw = some (sliceBuf z.buf z.raw.start z.raw.end_) := by
    unfold goSlice
    rw [if_pos ⟨h0, h1, by omega⟩]
  have hnew : goSlice (compactBuf z) ⟨0, z.raw.end_ - z.raw.start⟩ = goSlice z z.raw := by
    rw [hold]
    unfold goSlice
    rw [if_pos ⟨le_refl _, by simp only; omega, hdcap⟩]
    simp only
    rw [sliceBuf_zero_of_take _ _ _ hlive hl]
  have hcap2 : (fillBuf (compactBuf z)).2.bufCap = (compactBuf z).bufCap := by
    unfold fillBuf; simp only; split <;> rfl
  have hraw2 : (fillBuf (compactBuf z)).2.raw.start = 0 ∧
      ((fillBuf (compactBuf z)).2.raw.end_ = z.raw.end_ - z.raw.start ∨
        (fillBuf (compactBuf z)).2.raw.end_ = z.raw.end_ - z.raw.start + 1) := by
    unfold fillBuf; simp only; split
    · exact ⟨rfl, Or.inl rfl⟩
    · exact ⟨rfl, Or.inr rfl⟩
  have hlive2 := fillBuf_live (compactBuf z) (z.raw.end_ - z.raw.start).toNat (by rw [hlen]) hbl
  refine ⟨hre, hcapc, hraw, hold, hnew, by rw [hre]; exact hcap2, by rw [hre]; exact hraw2.1,
    by rw [hre]; exact hraw2.2, ?_⟩
  rw [hre, hold]
  unfold goSlice
  rw [if_pos ⟨le_refl _, by simp only; omega, by rw [hcap2]; exact hdcap⟩]
  simp only
  rw [sliceBuf_zero_of_take _ _ _ (hlive2.trans hlive) hl]

/-- C20 at the refill of `midHeaderState`: the live window `*Node,` of 6 bytes moves from
offset 3 to offset 0 of the buffer, whose capacity stays 10240. -/
theorem refill_keeps_live_window_witness :
    goSlice midHeaderState midHeaderState.raw = some (bytes "*Node,") ∧
    (readByte midHeaderState = fillBuf (compactBuf midHeaderState) ∧
    (compactBuf midHeaderState).bufCap =
      (if 2 * (midHeaderState.raw.end_ - midHeaderState.raw.start) > (midHeaderState.bufCap : Int)
        then 2 * midHeaderState.bufCap else midHeaderState.bufCap) ∧
    (compactBuf midHeaderState).raw = ⟨0, midHeaderState.raw.end_ - midHeaderState.raw.start⟩ ∧
    goSlice midHeaderState midHeaderState.raw =
      some (sliceBuf midHeaderState.buf midHeaderState.raw.start midHeaderState.raw.end_) ∧
    goSlice (compactBuf midHeaderState)
      ⟨0, midHeaderState.raw.end_ - midHeaderState.raw.start⟩ =
        goSlice midHeaderState midHeaderState.raw ∧
    (readByte midHeaderState).2.bufCap = (compactBuf midHeaderState).bufCap ∧
    (readByte midHeaderState).2.raw.start = 0 ∧
    ((readByte midHeaderState).2.raw.end_ =
        midHeaderState.raw.end_ - midHeaderState.raw.start ∨
      (readByte midHeaderState).2.raw.end_ =
        midHeaderState.raw.end_ - midHeaderState.raw.start + 1) ∧
    goSlice (readByte midHeaderState).2
      ⟨0, midHeaderState.raw.end_ - midHeaderState.raw.start⟩ =
        goSlice midHeaderState midHeaderState.raw) :=
  ⟨by decide, refill_keeps_live_window midHeaderState (by decide) (by decide) (by decide)
    (by decide) (by decide)⟩

/-- C14 fails in the code: a refill of `readByte` that discards a prefix of `x > 0` bytes
re-bases the raw span (to offset 0) and the data span (by `x`), and leaves the name span
and the params span as they were. -/
theorem compaction_rebases_data_only (z : Tokenizer) (hex : z.raw.end_ ≥ (z.bufLen : Int))
    (herr : z.readErr = none) (hx : z.raw.start ≠ 0) :
    (readByte z).2.raw.start = 0 ∧
    (readByte z).2.data = ⟨z.data.start - z.raw.start, z.data.end_ - z.raw.start⟩ ∧
    (readByte z).2.name = z.name ∧ (readByte z).2.params = z.params := by
  rw [readByte_refill z hex herr]
  have hf : (fillBuf (compactBuf z)).2.raw.start = (compactBuf z).raw.start ∧
      (fillBuf (compactBuf z)).2.data = (compactBuf z).data ∧
      (fillBuf (compactBuf z)).2.name = (compactBuf z).name ∧
      (fillBuf (compactBuf z)).2.params = (compactBuf z).params := by
    unfold fillBuf
    simp only
    split <;> exact ⟨rfl, rfl, rfl, rfl⟩
  have hd : (compactBuf z).data = ⟨z.data.start - z.raw.start, z.data.end_ - z.raw.start⟩ := by
    unfold compactBuf
    simp only [hx, ne_eq, not_false_eq_true, if_true]
  rw [hf.1, hf.2.1, hf.2.2.1, hf.2.2.2, hd]
  exact ⟨rfl, rfl, rfl, rfl⟩

/-- C14 at the input `*A`, `*Node, x=1`, `1`, `*B` read in the two chunks `*A\n*Node,` and the
rest: `midHeaderState` is the state of the second `Next` when `readKeywordName` has returned;
its name span `[4, 8)` denotes `Node`; the next `readByte` discards the 3 bytes of the first
token and leaves the name span at `[4, 8)`, which now denotes `e, x`. -/
theorem compaction_rebases_data_only_witness :
    ((Next (NewTokenizer (chunkReader [bytes "*A\n*Node,", bytes " x=1\n1\n*B\n"]))).bind
      (fun z1 => readKeywordName (readByte (readByte
        { z1 with raw := ⟨z1.raw.end_, z1.raw.end_⟩, data := ⟨z1.raw.end_, z1.raw.end_⟩ }).2).2)
      = some midHeaderState) ∧
    goSlice midHeaderState midHeaderState.name = some (bytes "Node") ∧
    goSlice (readByte midHeaderState).2 (readByte midHeaderState).2.name = some (bytes "e, x") ∧
    ((readByte midHeaderState).2.raw.start = 0 ∧
    (readByte midHeaderState).2.data =
      ⟨midHeaderState.data.start - midHeaderState.raw.start,
        midHeaderState.data.end_ - midHeaderState.raw.start⟩ ∧
    (readByte midHeaderState).2.name = midHeaderState.name ∧
    (readByte midHeaderState).2.params = midHeaderState.params) :=
  ⟨by decide, by decide, by decide,
    compaction_rebases_data_only midHeaderState (by decide) (by decide) (by decide)⟩

/-! ## More evaluations of the code at inputs where it departs from the specification -/

/-- C13 at its own example `*End A`, `*End B` without a final line feed, read from
`strings.NewReader`: in the second `Next` the name span starts at 8 in the old buffer
offsets, the refill at the end of the input moves the token to offset 0 and the name span
ends at 6, so `z.buf[8:6]` in `Token` is out of bounds: `Token()` panics. -/
theorem token_panics_after_last_line :
    (nextN 2 (NewTokenizer (stringsReader (bytes "*End A\n*End B")))).map
        (fun z => (z.tt, z.name, z.data, z.bufLen, z.Token)) =
      some (TokenType.EndKeywordToken, ⟨8, 6⟩, ⟨0, 6⟩, 6, none) := by
  decide

/-- C15 at its own example `*Heading`, `load a*b`, `*Node`: the data loop stops at the `*`
in the middle of the data line; the first token has no data at all (no line feed was
counted before the `*`), the second token is a keyword named `b`, and `Node` comes third. -/
theorem data_stops_at_star_in_line :
    allTokens (NewTokenizer (stringsReader (bytes "*Heading\nload a*b\n*Node\n1, 2\n** c\n"))) =
      [(TokenType.KeywordToken,
        some { Typ := TokenType.KeywordToken, Name := bytes "Heading", Data := [] }),
       (TokenType.KeywordToken, some { Typ := TokenType.KeywordToken, Name := bytes "b" }),
       (TokenType.KeywordToken,
        some { Typ := TokenType.KeywordToken, Name := bytes "Node", Data := bytes "1, 2\n" }),
       (TokenType.CommentToken,
        some { Typ := TokenType.CommentToken, Data := bytes "** c\n" })] := by
  decide!

theorem WF.congrTo {z : Tokenizer} (h : WF z) (z' : Tokenizer)
    (h1 : z'.r = z.r) (h2 : z'.err = z.err) (h3 : z'.readErr = z.readErr) (h4 : z'.raw = z.raw)
    (h5 : z'.buf = z.buf) (h6 : z'.bufLen = z.bufLen) (h7 : z'.bufCap = z.bufCap) :
    WF z' ∧ restOf z' = restOf z ∧ pastOf z' = pastOf z :=
  h.congrWF h1 h2 h3 h4 h5 h6 h7

theorem readByte_fwd {z : Tokenizer} (h : WF z) :
    WF (readByte z).2 ∧ restOf (readByte z).2 <:+ restOf z := by
  obtain ⟨v1, v2, v3⟩ := readByte_view h
  by_cases he : z.err = none
  · cases hr : restOf z with
    | nil =>
      obtain ⟨_, w, _, r, _, _⟩ := v2 he hr
      exact ⟨w, by rw [r]⟩
    | cons b r =>
      obtain ⟨_, w, _, r', _, _⟩ := v3 he b r hr
      exact ⟨w, by rw [r']; exact List.suffix_cons b r⟩
  · rw [v1 he]; exact ⟨h, List.suffix_refl _⟩

theorem readByte_cases {z : Tokenizer} (h : WF z) (he : (readByte z).2.err = none) :
    ∃ b r, restOf z = b :: r ∧ (readByte z).1 = b ∧ WF (readByte z).2 ∧
      restOf (readByte z).2 = r ∧ pastOf (readByte z).2 = pastOf z ++ [b] := by
  obtain ⟨v1, v2, v3⟩ := readByte_view h
  by_cases hz : z.err = none
  · cases hr : restOf z with
    | nil =>
      obtain ⟨_, _, e, _⟩ := v2 hz hr
      rw [he] at e; cases e
    | cons b r =>
      obtain ⟨a, w, _, r', p, _⟩ := v3 hz b r hr
      exact ⟨b, r, rfl, a, w, r', p⟩
  · rw [v1 hz] at he; exact absurd he hz

theorem readByte_unread {z : Tokenizer} (h : WF z) (he : (readByte z).2.err = none) :
    WF (unread (readByte z).2 1) ∧ restOf (unread (readByte z).2 1) = restOf z := by
  obtain ⟨b, r, hr, _, w, r', p⟩ := readByte_cases h he
  obtain ⟨u1, u2, _⟩ := unread_view w he 1 (by rw [p]; simp)
  refine ⟨by simpa using u1, ?_⟩
  have : restOf (unread (readByte z).2 1) = restOf (unread (readByte z).2 ((1 : Nat) : Int)) := by
    simp
  rw [this, u2, p, r', hr]
  simp

theorem skipWhiteSpaceLoop_fwd : ∀ (n : Nat) (z z' : Tokenizer), WF z →
    skipWhiteSpaceLoop n z = some z' → WF z' ∧ restOf z' <:+ restOf z := by
  intro n
  induction n with
  | zero => intro z z' _ h; simp [skipWhiteSpaceLoop] at h
  | succ n ih =>
    intro z z' hw h
    unfold skipWhiteSpaceLoop at h
    obtain ⟨w1, s1⟩ := readByte_fwd hw
    by_cases e : (readByte z).2.err ≠ none
    · rw [if_pos e] at h
      simp only [Option.some.injEq] at h
      rw [← h]; exact ⟨w1, s1⟩
    · rw [if_neg e] at h
      have e0 : (readByte z).2.err = none := by simpa using e
      by_cases c : (readByte z).1 = 32
      · rw [if_pos c] at h
        obtain ⟨a, b⟩ := ih _ _ w1 h
        exact ⟨a, b.trans s1⟩
      · rw [if_neg c] at h
        simp only [Option.some.injEq] at h
        obtain ⟨a, b⟩ := readByte_unread hw e0
        rw [← h]; exact ⟨a, by rw [b]⟩

theorem headerLoop_fwd : ∀ (n : Nat) (z z' : Tokenizer), WF z →
    headerLoop n z = some z' → WF z' ∧ restOf z' <:+ restOf z := by
  intro n
  induction n with
  | zero => intro z z' _ h; simp [headerLoop] at h
  | succ n ih =>
    intro z z' hw h
    unfold headerLoop at h
    obtain ⟨w1, s1⟩ := readByte_fwd hw
    by_cases e : (readByte z).2.err ≠ none
    · rw [if_pos e] at h
      simp only [Option.some.injEq] at h
      rw [← h]; exact ⟨w1, s1⟩
    · rw [if_neg e] at h
      by_cases c : (readByte z).1 = 10
      · rw [if_pos c] at h
        simp only [Option.some.injEq] at h
        rw [← h]; exact ⟨w1, s1⟩
      · rw [if_neg c] at h
        obtain ⟨a, b⟩ := ih _ _ w1 h
        exact ⟨a, b.trans s1⟩

theorem dataLoop_fwd : ∀ (n lineNo : Nat) (z : Tokenizer) (res : Nat × Tokenizer), WF z →
    dataLoop n lineNo z = some res → WF res.2 ∧ restOf res.2 <:+ restOf z := by
  intro n
  induction n with
  | zero => intro l z res _ h; simp [dataLoop] at h
  | succ n ih =>
    intro l z res hw h
    unfold dataLoop at h
    obtain ⟨w1, s1⟩ := readByte_fwd hw
    by_cases e : (readByte z).2.err ≠ none
    · rw [if_pos e] at h
      simp only [Option.some.injEq] at h
      rw [← h]; exact ⟨w1, s1⟩
    · rw [if_neg e] at h
      have e0 : (readByte z).2.err = none := by simpa using e
      by_cases c : (readByte z).1 = 10
      · rw [if_pos c] at h
        obtain ⟨a, b⟩ := ih _ _ _ w1 h
        exact ⟨a, b.trans s1⟩
      · rw [if_neg c] at h
        by_cases c2 : (readByte z).1 = 42
        · rw [if_pos c2] at h
          simp only [Option.some.injEq] at h
          obtain ⟨a, b⟩ := readByte_unread hw e0
          rw [← h]; exact ⟨a, by rw [b]⟩
        · rw [if_neg c2] at h
          obtain ⟨a, b⟩ := ih _ _ _ w1 h
          exact ⟨a, b.trans s1⟩

theorem readUntilLineBreakLoop_fwd : ∀ (n : Nat) (z z' : Tokenizer), WF z →
    readUntilLineBreakLoop n z = some z' → WF z' ∧ restOf z' <:+ restOf z := by
  intro n
  induction n with
  | zero => intro z z' _ h; simp [readUntilLineBreakLoop] at h
  | succ n ih =>
    intro z z' hw h
    unfold readUntilLineBreakLoop at h
    obtain ⟨w1, s1⟩ := readByte_fwd hw
    obtain ⟨w2, r2, _⟩ := w1.congrTo
      ({ (readByte z).2 with data := ⟨(readByte z).2.data.start, (readByte z).2.raw.end_⟩ })
      rfl rfl rfl rfl rfl rfl rfl
    by_cases e : (readByte z).2.err ≠ none
    · rw [if_pos e] at h
      simp only [Option.some.injEq] at h
      rw [← h]; exact ⟨w2, by rw [r2]; exact s1⟩
    · rw [if_neg e] at h
      by_cases c : (readByte z).1 = 10
      · rw [if_pos c] at h
        simp only [Option.some.injEq] at h
        rw [← h]; exact ⟨w2, by rw [r2]; exact s1⟩
      · rw [if_neg c] at h
        obtain ⟨a, b⟩ := ih _ _ w1 h
        exact ⟨a, b.trans s1⟩

theorem readKeywordNameLoop_fwd : ∀ (n : Nat) (z z' : Tokenizer), WF z →
    readKeywordNameLoop n z = some z' → WF z' ∧ restOf z' <:+ restOf z := by
  intro n
  induction n with
  | zero => intro z z' _ h; simp [readKeywordNameLoop] at h
  | succ n ih =>
    intro z z' hw h
    unfold readKeywordNameLoop at h
    obtain ⟨w1, s1⟩ := readByte_fwd hw
    by_cases e : (readByte z).2.err ≠ none
    · rw [if_pos e] at h
      simp only [Option.some.injEq] at h
      obtain ⟨w2, r2, _⟩ := w1.congrTo (z') (by rw [← h]) (by rw [← h]) (by rw [← h])
        (by rw [← h]) (by rw [← h]) (by rw [← h]) (by rw [← h])
      exact ⟨w2, by rw [r2]; exact s1⟩
    · rw [if_neg e] at h
      have e0 : (readByte z).2.err = none := by simpa using e
      by_cases c : (readByte z).1 = 44
      · rw [if_pos c] at h
        simp only [Option.some.injEq] at h
        obtain ⟨w2, r2, _⟩ := w1.congrTo (z') (by rw [← h]) (by rw [← h]) (by rw [← h])
          (by rw [← h]) (by rw [← h]) (by rw [← h]) (by rw [← h])
        exact ⟨w2, by rw [r2]; exact s1⟩
      · rw [if_neg c] at h
        by_cases c2 : (readByte z).1 = 10
        · rw [if_pos c2] at h
          simp only [Option.some.injEq] at h
          obtain ⟨a, b⟩ := readByte_unread hw e0
          obtain ⟨w2, r2, _⟩ := a.congrTo (z') (by rw [← h]) (by rw [← h]) (by rw [← h])
            (by rw [← h]) (by rw [← h]) (by rw [← h]) (by rw [← h])
          exact ⟨w2, by rw [r2, b]⟩
        · rw [if_neg c2] at h
          obtain ⟨a, b⟩ := ih _ _ w1 h
          exact ⟨a, b.trans s1⟩

theorem skipWhiteSpace_fwd {z z' : Tokenizer} (hw : WF z) (h : skipWhiteSpace z = some z') :
    WF z' ∧ restOf z' <:+ restOf z := by
  unfold skipWhiteSpace at h
  by_cases e : z.err ≠ none
  · rw [if_pos e] at h
    simp only [Option.some.injEq] at h
    rw [← h]; exact ⟨hw, List.suffix_refl _⟩
  · rw [if_neg e] at h
    exact skipWhiteSpaceLoop_fwd _ _ _ hw h

theorem readKeywordName_fwd {z z' : Tokenizer} (hw : WF z) (h : readKeywordName z = some z') :
    WF z' ∧ restOf z' <:+ restOf z := by
  obtain ⟨w2, r2, _⟩ := hw.congrTo ({ z with name := ⟨z.raw.end_ - 1, z.name.end_⟩ })
    rfl rfl rfl rfl rfl rfl rfl
  have e1 : readKeywordName z =
      readKeywordNameLoop (fuel { z with name := ⟨z.raw.end_ - 1, z.name.end_⟩ })
        { z with name := ⟨z.raw.end_ - 1, z.name.end_⟩ } := rfl
  rw [e1] at h
  obtain ⟨a, b⟩ := readKeywordNameLoop_fwd _ _ _ w2 h
  exact ⟨a, by rw [← r2]; exact b⟩

theorem readUntilLineBreak_fwd {z z' : Tokenizer} (hw : WF z)
    (h : readUntilLineBreak z = some z') : WF z' ∧ restOf z' <:+ restOf z := by
  obtain ⟨w2, r2, _⟩ := hw.congrTo ({ z with data := ⟨z.raw.end_ - 2, z.data.end_⟩ })
    rfl rfl rfl rfl rfl rfl rfl
  have e1 : readUntilLineBreak z =
      (if z.tt = TokenType.EndKeywordToken then
        readKeywordName { z with data := ⟨z.raw.end_ - 2, z.data.end_⟩ }
        else some { z with data := ⟨z.raw.end_ - 2, z.data.end_⟩ }).bind
        (fun z2 => readUntilLineBreakLoop (fuel z2) z2) := rfl
  rw [e1] at h
  by_cases ht : z.tt = TokenType.EndKeywordToken
  · rw [if_pos ht] at h
    cases hq : readKeywordName { z with data := ⟨z.raw.end_ - 2, z.data.end_⟩ } with
    | none => simp [hq] at h
    | some y =>
      simp only [hq, Option.some_bind] at h
      obtain ⟨a, b⟩ := readKeywordName_fwd w2 hq
      obtain ⟨a', b'⟩ := readUntilLineBreakLoop_fwd _ _ _ a h
      exact ⟨a', by rw [← r2]; exact b'.trans b⟩
  · rw [if_neg ht] at h
    simp only [Option.some_bind] at h
    obtain ⟨a', b'⟩ := readUntilLineBreakLoop_fwd _ _ _ w2 h
    exact ⟨a', by rw [← r2]; exact b'⟩

theorem readKeywordWithData_fwd {z z' : Tokenizer} {t : TokenType} (hw : WF z)
    (h : readKeywordWithData z = some (t, z')) : WF z' ∧ restOf z' <:+ restOf z := by
  unfold readKeywordWithData at h
  cases h0 : readKeywordName z with
  | none => simp [h0] at h
  | some z0 =>
    obtain ⟨w0, s0⟩ := readKeywordName_fwd hw h0
    cases h1 : skipWhiteSpace z0 with
    | none => simp [h0, h1] at h
    | some z1 =>
      obtain ⟨w1, s1⟩ := skipWhiteSpace_fwd w0 h1
      simp only [h0, h1, Option.some_bind] at h
      by_cases e1 : z1.err ≠ none
      · rw [if_pos e1] at h; simp only [Option.some.injEq, Prod.mk.injEq] at h
        rw [← h.2]; exact ⟨w1, s1.trans s0⟩
      · rw [if_neg e1] at h
        cases h2 : headerLoop (fuel z1) z1 with
        | none => simp [h2] at h
        | some z2 =>
          obtain ⟨w2, s2⟩ := headerLoop_fwd _ _ _ w1 h2
          simp only [h2, Option.some_bind] at h
          by_cases e2 : z2.err ≠ none
          · rw [if_pos e2] at h; simp only [Option.some.injEq, Prod.mk.injEq] at h
            rw [← h.2]; exact ⟨w2, s2.trans (s1.trans s0)⟩
          · rw [if_neg e2] at h
            obtain ⟨w3, r3, _⟩ := w2.congrTo
              ({ z2 with params := ⟨z2.name.end_ + 2, z2.raw.end_ - 1⟩ })
              rfl rfl rfl rfl rfl rfl rfl
            cases h3 : dataLoop (fuel { z2 with params := ⟨z2.name.end_ + 2, z2.raw.end_ - 1⟩ }) 1
                { z2 with params := ⟨z2.name.end_ + 2, z2.raw.end_ - 1⟩ } with
            | none => simp [h3] at h
            | some res =>
              obtain ⟨w4, s4⟩ := dataLoop_fwd _ _ _ _ w3 h3
              rw [r3] at s4
              have s : restOf res.2 <:+ restOf z := s4.trans (s2.trans (s1.trans s0))
              simp only [h3, Option.some_bind] at h
              by_cases e3 : res.2.err ≠ none
              · rw [if_pos e3] at h; simp only [Option.some.injEq, Prod.mk.injEq] at h
                rw [← h.2]; exact ⟨w4, s⟩
              · rw [if_neg e3] at h
                split at h <;> simp only [Option.some.injEq, Prod.mk.injEq] at h
                · obtain ⟨w5, r5, _⟩ := w4.congrTo (z') (by rw [← h.2]) (by rw [← h.2])
                    (by rw [← h.2]) (by rw [← h.2]) (by rw [← h.2]) (by rw [← h.2])
                    (by rw [← h.2])
                  exact ⟨w5, by rw [r5]; exact s⟩
                · rw [← h.2]; exact ⟨w4, s⟩

theorem restOf_of_err {z : Tokenizer} (h : WF z) (he : z.err ≠ none) : restOf z = [] := by
  rcases h.errs with ⟨e, _⟩ | ⟨_, _, e, r⟩
  · exact absurd e he
  · rw [restOf_eq [] r, e]
    simp

theorem readByte_err_rest {z : Tokenizer} (h : WF z) (he : (readByte z).2.err ≠ none) :
    restOf z = [] := by
  obtain ⟨v1, v2, v3⟩ := readByte_view h
  by_cases hz : z.err = none
  · cases hr : restOf z with
    | nil => rfl
    | cons b r =>
      obtain ⟨_, _, e, _⟩ := v3 hz b r hr
      exact absurd e he
  · exact restOf_of_err h hz

theorem nextAfterStar_view {z z' : Tokenizer} (hw : WF z) (hn : nextAfterStar z = some z') :
    WF z' ∧ restOf z' <:+ restOf z ∧
    (z'.tt = TokenType.CommentToken ↔ ∃ t, restOf z = 42 :: t) ∧
    (z'.tt = TokenType.EndKeywordToken ↔
      ∃ e t, restOf z = e :: 110 :: 100 :: t ∧ (e = 69 ∨ e = 101)) := by
  have hE : ∀ y : Tokenizer, WF y → restOf y <:+ restOf z →
      { y with tt := TokenType.ErrorToken } = z' →
      WF z' ∧ restOf z' <:+ restOf z ∧ z'.tt = TokenType.ErrorToken := by
    intro y wy sy hz
    obtain ⟨a, b, _⟩ := wy.congrTo z' (by rw [← hz]) (by rw [← hz]) (by rw [← hz])
      (by rw [← hz]) (by rw [← hz]) (by rw [← hz]) (by rw [← hz])
    exact ⟨a, by rw [b]; exact sy, by rw [← hz]⟩
  have hL : ∀ (y : Tokenizer) (t : TokenType), WF y → restOf y <:+ restOf z →
      (readUntilLineBreak y).map (fun v => { v with tt := t }) = some z' →
      WF z' ∧ restOf z' <:+ restOf z ∧ z'.tt = t := by
    intro y t wy sy hz
    cases hq : readUntilLineBreak y with
    | none => simp [hq] at hz
    | some v =>
      simp only [hq, Option.map_some', Option.some.injEq] at hz
      obtain ⟨wv, sv⟩ := readUntilLineBreak_fwd wy hq
      obtain ⟨a, b, _⟩ := wv.congrTo z' (by rw [← hz]) (by rw [← hz]) (by rw [← hz])
        (by rw [← hz]) (by rw [← hz]) (by rw [← hz]) (by rw [← hz])
      exact ⟨a, by rw [b]; exact sv.trans sy, by rw [← hz]⟩
  have hK : ∀ y : Tokenizer, WF y → restOf y <:+ restOf z →
      (readKeywordWithData y).map (fun k => { k.2 with tt := k.1 }) = some z' →
      WF z' ∧ restOf z' <:+ restOf z ∧
        (z'.tt = TokenType.KeywordToken ∨ z'.tt = TokenType.ErrorToken) := by
    intro y wy sy hz
    cases hq : readKeywordWithData y with
    | none => simp [hq] at hz
    | some k =>
      simp only [hq, Option.map_some', Option.some.injEq] at hz
      obtain ⟨wv, sv⟩ := @readKeywordWithData_fwd y k.2 k.1 wy hq
      obtain ⟨a, b, _⟩ := wv.congrTo z' (by rw [← hz]) (by rw [← hz]) (by rw [← hz])
        (by rw [← hz]) (by rw [← hz]) (by rw [← hz]) (by rw [← hz])
      refine ⟨a, by rw [b]; exact sv.trans sy, ?_⟩
      rcases readKeywordWithData_error y k.2 k.1 hq with h | h
      · left; rw [← hz]; exact h
      · right; rw [← hz]; exact h.1
  unfold nextAfterStar at hn
  obtain ⟨w2, s2⟩ := readByte_fwd hw
  by_cases e2 : (readByte z).2.err ≠ none
  · rw [if_pos e2] at hn
    simp only [Option.some.injEq] at hn
    obtain ⟨a, b, c⟩ := hE _ w2 s2 hn
    have hr := readByte_err_rest hw e2
    refine ⟨a, b, ?_, ?_⟩ <;> simp [c, hr]
  · rw [if_neg e2] at hn
    have e20 : (readByte z).2.err = none := by simpa using e2
    obtain ⟨b1, r1, hr1, hb1, _, hrr1, hp1⟩ := readByte_cases hw e20
    rw [hb1] at hn
    by_cases c1 : b1 = 42
    · rw [if_pos c1] at hn
      obtain ⟨a, b, c⟩ := hL _ _ w2 s2 hn
      refine ⟨a, b, ?_, ?_⟩
      · simp [c, hr1, c1]
      · rw [c, hr1, c1]
        constructor
        · intro h; cases h
        · rintro ⟨e, t, h1, h2⟩
          simp only [List.cons.injEq] at h1
          rcases h2 with h2 | h2 <;> rw [h2] at h1 <;> exact absurd h1.1 (by decide)
    · rw [if_neg c1] at hn
      by_cases c2 : b1 = 69 ∨ b1 = 101
      · rw [if_pos c2] at hn
        obtain ⟨w3, s3⟩ := readByte_fwd w2
        by_cases e3 : (readByte (readByte z).2).2.err ≠ none
        · rw [if_pos e3] at hn
          simp only [Option.some.injEq] at hn
          obtain ⟨a, b, c⟩ := hE _ w3 (s3.trans s2) hn
          have hr := readByte_err_rest w2 e3
          rw [hrr1] at hr
          refine ⟨a, b, ?_, ?_⟩ <;> simp [c, hr1, hr, c1]
        · rw [if_neg e3] at hn
          have e30 : (readByte (readByte z).2).2.err = none := by simpa using e3
          obtain ⟨b2, r2, hr2, hb2, _, hrr2, hp2⟩ := readByte_cases w2 e30
          obtain ⟨w4, s4⟩ := readByte_fwd w3
          by_cases e4 : (readByte (readByte (readByte z).2).2).2.err ≠ none
          · rw [if_pos e4] at hn
            simp only [Option.some.injEq] at hn
            obtain ⟨a, b, c⟩ := hE _ w4 (s4.trans (s3.trans s2)) hn
            have hr := readByte_err_rest w3 e4
            rw [hrr2] at hr
            rw [hrr1] at hr2
            refine ⟨a, b, ?_, ?_⟩ <;> simp [c, hr1, hr2, hr, c1]
          · rw [if_neg e4] at hn
            have e40 : (readByte (readByte (readByte z).2).2).2.err = none := by simpa using e4
            obtain ⟨b3, r3, hr3, hb3, _, hrr3, hp3⟩ := readByte_cases w3 e40
            rw [hb2, hb3] at hn
            rw [hrr1] at hr2
            rw [hrr2] at hr3
            have hrest : restOf z = b1 :: b2 :: b3 :: r3 := by rw [hr1, hr2, hr3]
            have hpast : pastOf (readByte (readByte (readByte z).2).2).2 =
                pastOf z ++ [b1, b2, b3] := by
              rw [hp3, hp2, hp1]; simp
            by_cases c3 : b2 = 110 ∧ b3 = 100
            · rw [if_pos c3] at hn
              obtain ⟨u1, u2, _⟩ := unread_view w4 e40 2 (by rw [hpast]; simp)
              have hu : restOf (unread (readByte (readByte (readByte z).2).2).2 2) =
                  b2 :: b3 :: r3 := by
                have := u2
                rw [hpast, hrr3] at this
                simpa using this
              obtain ⟨a, b, c⟩ := hL _ _ (by simpa using u1)
                (by rw [hu, hrest]; exact List.suffix_cons _ _) hn
              refine ⟨a, b, ?_, ?_⟩
              · simp [c, hrest, c1]
              · rw [c, hrest, c3.1, c3.2]
                simp only [true_iff]
                exact ⟨b1, r3, rfl, c2⟩
            · rw [if_neg c3] at hn
              obtain ⟨u1, u2, _⟩ := unread_view w4 e40 3 (by rw [hpast]; simp)
              have hu : restOf (unread (readByte (readByte (readByte z).2).2).2 3) =
                  b1 :: b2 :: b3 :: r3 := by
                have := u2
                rw [hpast, hrr3] at this
                simpa using this
              obtain ⟨a, b, c⟩ := hK _ (by simpa using u1) (by rw [hu, hrest]) hn
              refine ⟨a, b, ?_, ?_⟩
              · rw [hrest]
                constructor
                · intro h; rcases c with c | c <;> rw [c] at h <;> cases h
                · rintro ⟨t, h⟩
                  simp only [List.cons.injEq] at h
                  exact absurd h.1 c1
              · rw [hrest]
                constructor
                · intro h; rcases c with c | c <;> rw [c] at h <;> cases h
                · rintro ⟨e, t, h, _⟩
                  simp only [List.cons.injEq] at h
                  exact absurd ⟨h.2.1, h.2.2.1⟩ c3
      · rw [if_neg c2] at hn
        obtain ⟨a, b, c⟩ := hK _ w2 s2 hn
        refine ⟨a, b, ?_, ?_⟩
        · rw [hr1]
          constructor
          · intro h; rcases c with c | c <;> rw [c] at h <;> cases h
          · rintro ⟨t, h⟩
            simp only [List.cons.injEq] at h
            exact absurd h.1 c1
        · rw [hr1]
          constructor
          · intro h; rcases c with c | c <;> rw [c] at h <;> cases h
          · rintro ⟨e, t, h, h2⟩
            simp only [List.cons.injEq] at h
            rw [← h.1] at h2
            exact absurd h2 c2

theorem nextLoop_view : ∀ (n : Nat) (z z' : Tokenizer), WF z → nextLoop n z = some z' →
    (42 ∉ restOf z ∧ z'.tt = TokenType.ErrorToken ∧ WF z' ∧ restOf z' <:+ restOf z) ∨
    ∃ pre z1, 42 ∉ pre ∧ restOf z = pre ++ 42 :: restOf z1 ∧ WF z1 ∧
      nextAfterStar z1 = some z' := by
  intro n
  induction n with
  | zero => intro z z' _ h; simp [nextLoop] at h
  | succ n ih =>
    intro z z' hw h
    unfold nextLoop at h
    obtain ⟨w1, s1⟩ := readByte_fwd hw
    by_cases e : (readByte z).2.err ≠ none
    · rw [if_pos e] at h
      simp only [Option.some.injEq] at h
      have hr := readByte_err_rest hw e
      obtain ⟨a, b, _⟩ := w1.congrTo z' (by rw [← h]) (by rw [← h]) (by rw [← h])
        (by rw [← h]) (by rw [← h]) (by rw [← h]) (by rw [← h])
      left
      exact ⟨by rw [hr]; simp, by rw [← h], a, by rw [b]; exact s1⟩
    · rw [if_neg e] at h
      have e0 : (readByte z).2.err = none := by simpa using e
      obtain ⟨b1, r1, hr1, hb1, _, hrr1, _⟩ := readByte_cases hw e0
      rw [hb1] at h
      by_cases c : b1 ≠ 42
      · rw [if_pos c] at h
        rcases ih _ _ w1 h with ⟨a1, a2, a3, a4⟩ | ⟨pre, z1, a1, a2, a3, a4⟩
        · left
          refine ⟨?_, a2, a3, a4.trans s1⟩
          rw [hr1, ← hrr1]
          simp only [List.mem_cons, not_or]
          exact ⟨fun hc => c hc.symm, a1⟩
        · right
          refine ⟨b1 :: pre, z1, ?_, ?_, a3, a4⟩
          · simp only [List.mem_cons, not_or]
            exact ⟨fun hc => c hc.symm, a1⟩
          · rw [hr1, ← hrr1, a2]; rfl
      · rw [if_neg c] at h
        have c' : b1 = 42 := by simpa using c
        right
        exact ⟨[], _, by simp, by rw [hr1, c', hrr1]; rfl, w1, h⟩

/-- One call of `Next` on a well-formed state: it skips to the first `*` of the remaining
input, the token type is decided by the bytes after that `*`, and what remains afterwards
is a part of what followed the `*`. -/
theorem Next_view {z z' : Tokenizer} (hw : WF z) (hn : Next z = some z') :
    WF z' ∧ restOf z' <:+ restOf z ∧
    ((42 ∉ restOf z ∧ z'.tt = TokenType.ErrorToken) ∨
      ∃ pre post, restOf z = pre ++ 42 :: post ∧ 42 ∉ pre ∧ restOf z' <:+ post ∧
        (z'.tt = TokenType.CommentToken ↔ ∃ t, post = 42 :: t) ∧
        (z'.tt = TokenType.EndKeywordToken ↔
          ∃ e t, post = e :: 110 :: 100 :: t ∧ (e = 69 ∨ e = 101))) := by
  obtain ⟨w0, r0, _⟩ := hw.atStart
  by_cases he : z.err ≠ none
  · rw [Next_of_err z he] at hn
    simp only [Option.some.injEq] at hn
    obtain ⟨a, b, _⟩ := w0.congrTo z' (by rw [← hn]) (by rw [← hn]) (by rw [← hn])
      (by rw [← hn]) (by rw [← hn]) (by rw [← hn]) (by rw [← hn])
    refine ⟨a, by rw [b, r0], Or.inl ⟨?_, by rw [← hn]⟩⟩
    rw [restOf_of_err hw he]; simp
  · unfold Next at hn
    rw [if_neg he] at hn
    rcases nextLoop_view _ _ _ w0 hn with ⟨a1, a2, a3, a4⟩ | ⟨pre, z1, a1, a2, a3, a4⟩
    · exact ⟨a3, by rw [← r0]; exact a4, Or.inl ⟨by rw [← r0]; exact a1, a2⟩⟩
    · obtain ⟨b1, b2, b3, b4⟩ := nextAfterStar_view a3 a4
      refine ⟨b1, ?_, Or.inr ⟨pre, restOf z1, by rw [← r0]; exact a2, a1, b2, b3, b4⟩⟩
      rw [← r0, a2]
      exact b2.trans ((List.suffix_cons _ _).trans (List.suffix_append _ _))

theorem nextN_WF : ∀ (k : Nat) (z zk : Tokenizer), WF z → nextN k z = some zk →
    WF zk ∧ restOf zk <:+ restOf z := by
  intro k
  induction k with
  | zero =>
    intro z zk hw h
    simp only [nextN, Option.some.injEq] at h
    rw [← h]; exact ⟨hw, List.suffix_refl _⟩
  | succ k ih =>
    intro z zk hw h
    rw [nextN] at h
    cases hq : Next z with
    | none => simp [hq] at h
    | some z1 =>
      simp only [hq, Option.some_bind] at h
      obtain ⟨w1, s1, _⟩ := Next_view hw hq
      obtain ⟨a, b⟩ := ih z1 zk w1 h
      exact ⟨a, b.trans s1⟩

theorem dropWhile_star (pre post : List UInt8) (h : 42 ∉ pre) :
    (pre ++ 42 :: post).dropWhile (fun b => b != 42) = 42 :: post := by
  induction pre with
  | nil => simp
  | cons a pre ih =>
    simp only [List.mem_cons, not_or] at h
    have ha : (a != 42) = true := by simpa using fun hc => h.1 hc.symm
    rw [List.cons_append, List.dropWhile_cons, ha]
    exact ih h.2

theorem dropWhile_no_star (l : List UInt8) (h : 42 ∉ l) :
    l.dropWhile (fun b => b != 42) = [] := by
  rw [List.dropWhile_eq_nil_iff]
  intro x hx
  have : x ≠ 42 := fun hc => h (hc ▸ hx)
  simpa using this

/-- C16: at any scan position reached by calls of `Next` on an input delivered in non-empty
chunks, the next call of `Next` returns, and with `s` the remaining input from its first
`*` on, it returns `CommentToken` exactly when `s` starts with `**`, and `EndKeywordToken`
exactly when `s` starts with `*`, `E` or `e`, `n`, `d`; in every other case the token
type is therefore `KeywordToken` or `ErrorToken`. -/
theorem token_type_recognition (chunks : List (List UInt8)) (k : Nat) (z : Tokenizer)
    (hne : ∀ c ∈ chunks, c ≠ [])
    (hk : nextN k (NewTokenizer (chunkReader chunks)) = some z) :
    restOf z <:+ chunks.flatten ∧
    ∃ z', Next z = some z' ∧
      (z'.tt = TokenType.CommentToken ↔
        ∃ t, (restOf z).dropWhile (fun b => b != 42) = 42 :: 42 :: t) ∧
      (z'.tt = TokenType.EndKeywordToken ↔
        ∃ e t, (restOf z).dropWhile (fun b => b != 42) = 42 :: e :: 110 :: 100 :: t ∧
          (e = 69 ∨ e = 101)) := by
  obtain ⟨w0, r0, _⟩ := WF_new chunks hne
  obtain ⟨hw, hs⟩ := nextN_WF k _ z w0 hk
  rw [r0] at hs
  obtain ⟨z', _, hn, _⟩ := Next_sim (Sim.refl hw)
  refine ⟨hs, z', hn, ?_⟩
  obtain ⟨_, _, hv⟩ := Next_view hw hn
  rcases hv with ⟨h1, h2⟩ | ⟨pre, post, h1, h2, _, h4, h5⟩
  · rw [dropWhile_no_star _ h1, h2]
    simp
  · rw [h1, dropWhile_star pre post h2, h4, h5]
    simp

theorem tokensUpTo_le : ∀ (m : Nat) (z : Tokenizer), WF z →
    (tokensUpTo m z).length ≤ (restOf z).count 42 := by
  intro m
  induction m with
  | zero => intro z _; simp [tokensUpTo]
  | succ m ih =>
    intro z hw
    rw [tokensUpTo]
    cases hq : Next z with
    | none => simp
    | some z1 =>
      simp only
      obtain ⟨w1, _, hv⟩ := Next_view hw hq
      by_cases ht : z1.tt = TokenType.ErrorToken
      · rw [if_pos ht]; simp
      · rw [if_neg ht]
        rcases hv with ⟨_, h2⟩ | ⟨pre, post, h1, _, h3, _, _⟩
        · exact absurd h2 ht
        · have := ih z1 w1
          have hc : (restOf z1).count 42 ≤ post.count 42 := h3.sublist.count_le 42
          rw [h1, List.count_append, List.count_cons_self, List.length_cons]
          omega

/-- C19: for an input delivered in non-empty chunks, the tokens `Next` returns before the
first `ErrorToken` are at most as many as the input has `*` bytes: this holds for the
token sequence, for the token count of the input, and for the number of any call of `Next`
that returns a token; and on an input without `*` the first call returns `ErrorToken`
with `Err() = io.EOF`. -/
theorem token_count_bound (input : List UInt8) (chunks : List (List UInt8))
    (hne : ∀ c ∈ chunks, c ≠ []) (hflat : chunks.flatten = input) :
    (allTokens (NewTokenizer (chunkReader chunks))).length ≤ input.count 42 ∧
    tokenCount input ≤ input.count 42 ∧
    (∀ k zk, nextN (k + 1) (NewTokenizer (chunkReader chunks)) = some zk →
      zk.tt ≠ TokenType.ErrorToken → k + 1 ≤ input.count 42) ∧
    (42 ∉ input → ∃ z1, Next (NewTokenizer (chunkReader chunks)) = some z1 ∧
      z1.tt = TokenType.ErrorToken ∧ z1.Err = some Error.EOF) := by
  obtain ⟨w0, r0, _⟩ := WF_new chunks hne
  have hs := Sim_new chunks hne
  have hall : (allTokens (NewTokenizer (chunkReader chunks))).length ≤ input.count 42 := by
    have := tokensUpTo_le (fuel (NewTokenizer (chunkReader chunks))) _ w0
    rw [r0, hflat] at this
    exact this
  have hcount : tokenCount input ≤ input.count 42 := by
    have := tokensUpTo_le (fuel (NewTokenizer (stringsReader chunks.flatten))) _ hs.wf2
    rw [← hs.rest, r0, hflat] at this
    exact this
  have hcalls : ∀ k, ∃ zk, nextN (k + 1) (NewTokenizer (chunkReader chunks)) = some zk ∧
      (zk.tt = TokenType.ErrorToken ↔
        (allTokens (NewTokenizer (chunkReader chunks))).length ≤ k) ∧
      (zk.tt = TokenType.ErrorToken → zk.err = some Error.EOF) :=
    nextN_count (fuel (NewTokenizer (chunkReader chunks))) _ w0 (by rw [fuel_eq_rest w0]; omega)
  refine ⟨hall, hcount, ?_, ?_⟩
  · intro k zk hk ht
    obtain ⟨zk', h1, h2, _⟩ := hcalls k
    rw [hk] at h1
    simp only [Option.some.injEq] at h1
    rw [← h1] at h2
    have : ¬ (allTokens (NewTokenizer (chunkReader chunks))).length ≤ k := fun hc => ht (h2.mpr hc)
    omega
  · intro hno
    obtain ⟨z1, h1, h2, h3⟩ := hcalls 0
    have hz : input.count 42 = 0 := List.count_eq_zero.mpr hno
    have ht : z1.tt = TokenType.ErrorToken := h2.mpr (by omega)
    refine ⟨z1, ?_, ht, ?_⟩
    · cases hq : Next (NewTokenizer (chunkReader chunks)) with
      | none => simp [nextN, hq] at h1
      | some y => simp only [nextN, hq, Option.some_bind, Option.some.injEq] at h1; rw [h1]
    · simp only [Tokenizer.Err, ht, ne_eq, not_true_eq_false, if_false]
      exact h3 ht

/-- C16 on the input `1, 2`, `*End Part`, `*B` read in two chunks that split the `*End`: the
first `*` is followed by `E`, `n`, `d`, so the first `Next` returns `EndKeywordToken`. -/
theorem token_type_recognition_witness :
    (restOf (NewTokenizer (chunkReader [bytes "1, 2\n*En", bytes "d Part\n*B\n"]))).dropWhile
        (fun b => b != 42) = bytes "*End Part\n*B\n" ∧
    (restOf (NewTokenizer (chunkReader [bytes "1, 2\n*En", bytes "d Part\n*B\n"])) <:+
        [bytes "1, 2\n*En", bytes "d Part\n*B\n"].flatten ∧
      ∃ z', Next (NewTokenizer (chunkReader [bytes "1, 2\n*En", bytes "d Part\n*B\n"])) = some z' ∧
        (z'.tt = TokenType.CommentToken ↔
          ∃ t, (restOf (NewTokenizer (chunkReader
            [bytes "1, 2\n*En", bytes "d Part\n*B\n"]))).dropWhile (fun b => b != 42) =
              42 :: 42 :: t) ∧
        (z'.tt = TokenType.EndKeywordToken ↔
          ∃ e t, (restOf (NewTokenizer (chunkReader
            [bytes "1, 2\n*En", bytes "d Part\n*B\n"]))).dropWhile (fun b => b != 42) =
              42 :: e :: 110 :: 100 :: t ∧ (e = 69 ∨ e = 101))) :=
  ⟨by decide, token_type_recognition [bytes "1, 2\n*En", bytes "d Part\n*B\n"] 0
    (NewTokenizer (chunkReader [bytes "1, 2\n*En", bytes "d Part\n*B\n"])) (by decide) rfl⟩

/-- C19 on a comment and two keywords delivered in two chunks: the input has four `*` and
two tokens. -/
theorem token_count_bound_witness :
    (bytes "** c\n*A\n1\n*B\n").count 42 = 4 ∧
    ((allTokens (NewTokenizer (chunkReader [bytes "** c\n*A", bytes "\n1\n*B\n"]))).length ≤
        (bytes "** c\n*A\n1\n*B\n").count 42 ∧
      tokenCount (bytes "** c\n*A\n1\n*B\n") ≤ (bytes "** c\n*A\n1\n*B\n").count 42 ∧
      (∀ k zk, nextN (k + 1) (NewTokenizer (chunkReader [bytes "** c\n*A", bytes "\n1\n*B\n"])) =
          some zk →
        zk.tt ≠ TokenType.ErrorToken → k + 1 ≤ (bytes "** c\n*A\n1\n*B\n").count 42) ∧
      (42 ∉ bytes "** c\n*A\n1\n*B\n" →
        ∃ z1, Next (NewTokenizer (chunkReader [bytes "** c\n*A", bytes "\n1\n*B\n"])) = some z1 ∧
          z1.tt = TokenType.ErrorToken ∧ z1.Err = some Error.EOF)) :=
  ⟨by decide, token_count_bound (bytes "** c\n*A\n1\n*B\n")
    [bytes "** c\n*A", bytes "\n1\n*B\n"] (by decide) (by decide)⟩

/-! ## Attribute text -/

theorem split_cons_sep (sep : UInt8) : ∀ a rest : List UInt8, sep ∉ a →
    split sep (a ++ sep :: rest) = a :: split sep rest := by
  intro a
  induction a with
  | nil => intro rest _; simp [split]
  | cons c a ih =>
    intro rest ha
    have hc : c ≠ sep := fun e => ha (by simp [e])
    have hl : sep ∉ a := fun e => ha (by simp [e])
    simp [split, hc, ih rest hl]

theorem pieceText_no_comma (p : List UInt8 × Option (List UInt8)) (h : pieceValid p) :
    44 ∉ pieceText p := by
  obtain ⟨k, v⟩ := p
  cases v with
  | none => exact h.1
  | some v =>
    obtain ⟨h1, _, h3⟩ := h
    simp only at h3
    simp only [pieceText, List.mem_append, List.mem_cons, not_or]
    exact ⟨h1, by decide, h3.1⟩

theorem split_piecesText : ∀ ps : List (List UInt8 × Option (List UInt8)), ps ≠ [] →
    (∀ p ∈ ps, pieceValid p) → split 44 (piecesText ps) = ps.map pieceText := by
  intro ps
  induction ps with
  | nil => intro h; exact absurd rfl h
  | cons p ps ih =>
    intro _ hv
    cases ps with
    | nil =>
      simp only [piecesText, List.map_cons, List.map_nil]
      exact split_of_not_mem 44 _ (pieceText_no_comma p (hv p (by simp)))
    | cons q ps =>
      rw [piecesText, split_cons_sep 44 _ _ (pieceText_no_comma p (hv p (by simp))),
        ih (by simp) (fun x hx => hv x (by simp [hx]))]
      rfl

theorem foldl_pieces (f : List Attribute → List UInt8 → List Attribute)
    (hf : ∀ acc p, pieceValid p → f acc (pieceText p) = acc ++ [pieceAttr p]) :
    ∀ (l : List (List UInt8 × Option (List UInt8))) (acc : List Attribute),
      (∀ p ∈ l, pieceValid p) → (l.map pieceText).foldl f acc = acc ++ l.map pieceAttr := by
  intro l
  induction l with
  | nil => intro acc _; simp
  | cons p l ih =>
    intro acc h
    rw [List.map_cons, List.foldl_cons, hf acc p (h p (by simp)),
      ih _ (fun x hx => h x (by simp [hx]))]
    simp

theorem parseAttrs_pieces (ps : List (List UInt8 × Option (List UInt8))) (hne : ps ≠ [])
    (hv : ∀ p ∈ ps, pieceValid p) : parseAttrs (piecesText ps) = ps.map pieceAttr := by
  rw [parseAttrs, split_piecesText ps hne hv]
  refine (foldl_pieces _ ?_ ps [] hv).trans (by simp)
  intro acc p h
  obtain ⟨k, v⟩ := p
  cases v with
  | none =>
    have : split 61 k = [k] := split_of_not_mem 61 k h.2.1
    simp only [pieceText, this]
    rfl
  | some v =>
    obtain ⟨_, h2, h3⟩ := h
    simp only at h3
    have : split 61 (k ++ 61 :: v) = [k, v] := split_one 61 k v h2 h3.2
    simp only [pieceText, this]
    rfl

theorem Next_header_attrs {w : Bool} {input : List UInt8} {z : Tokenizer} {s : Int}
    {nm dt pr : span} {t : TokenType} (pre name : List UInt8)
    (ps : List (List UInt8 × Option (List UInt8))) (rest : List UInt8)
    (hin : input = pre ++ ([42] ++ name ++ [44, 32] ++ piecesText ps ++ [10, 42] ++ rest))
    (h : At w input z s pre.length nm dt pr t) (hw : w = true ∨ pre.length = 0)
    (hne : name ≠ []) (h44 : 44 ∉ name) (h10 : 10 ∉ name)
    (hstar : name.head? ≠ some 42) (hE : name.head? ≠ some 69) (he : name.head? ≠ some 101)
    (hps : ∀ p ∈ ps, pieceValid p) (hP10 : 10 ∉ piecesText ps) (hP : piecesText ps ≠ []) :
    ∃ z1, Next z = some z1 ∧ z1.tt = TokenType.KeywordToken ∧
      z1.Token = some { Typ := TokenType.KeywordToken, Name := name, Data := [],
                        Attr := ps.map pieceAttr } := by
  have hpsne : ps ≠ [] := fun h => hP (by rw [h]; rfl)
  cases name with
  | nil => exact absurd rfl hne
  | cons c name' =>
    have hc1 : c ≠ 42 := fun h => hstar (by simp [h])
    have hc2 : c ≠ 69 := fun h => hE (by simp [h])
    have hc3 : c ≠ 101 := fun h => he (by simp [h])
    have hd : input.drop pre.length =
        42 :: c :: (name' ++ (44 :: 32 :: piecesText ps) ++ 10 :: ([] ++ 42 :: rest)) := by
      rw [hin]; simp
    obtain ⟨z1, hz1, hk⟩ := Next_keyword h hw c name' (44 :: 32 :: piecesText ps) []
      rest hd hc1 hc2 hc3
      (fun h => h10 (by simp [h])) (fun h => h44 (by simp [h])) (Or.inr ⟨_, rfl⟩)
      (by simp only [List.mem_cons, not_or]; exact ⟨by decide, by decide, hP10⟩) (by simp)
    rw [if_neg (by simp)] at hk
    refine ⟨z1, hz1, hk.tt, ?_⟩
    have hnm := goSlice_of_eq hk.str (pre ++ [42]) (c :: name')
      ([44, 32] ++ piecesText ps ++ [10, 42] ++ rest)
      (by rw [hin]; simp) ((pre.length : Int) + 1) ((pre.length : Int) + 2 + name'.length)
      (by simp) (by simp; omega) (by rw [hk.end_eq]; push_cast; omega)
    have hdt := goSlice_of_eq hk.str pre []
      ([42] ++ c :: name' ++ [44, 32] ++ piecesText ps ++ [10, 42] ++ rest)
      (by rw [hin]; simp) (pre.length : Int) (pre.length : Int)
      (by simp) (by simp) (by rw [hk.end_eq]; push_cast; omega)
    have hpa := goSlice_of_eq hk.str (pre ++ [42] ++ c :: name' ++ [44, 32]) (piecesText ps)
      ([10, 42] ++ rest) (by rw [hin]; simp)
      ((pre.length : Int) + 2 + name'.length + 2)
      ((pre.length : Int) + 2 + name'.length + (44 :: 32 :: piecesText ps).length)
      (by simp; omega) (by simp; omega) (by rw [hk.end_eq]; push_cast; omega)
    have hlen : 0 < (piecesText ps).length := List.length_pos.mpr hP
    have hpr : z1.params.start < z1.params.end_ := by
      rw [hk.params]; simp only [List.length_cons]; push_cast; omega
    rw [← hk.name] at hnm
    rw [← hk.data] at hdt
    rw [← hk.params] at hpa
    simp only [Tokenizer.Token, hk.tt, hnm, hdt, hpa, Option.bind_eq_bind, Option.some_bind,
      if_pos hpr, Option.map_some', parseAttrs_pieces ps hpsne hps]

theorem nextN_add : ∀ (a b : Nat) (z : Tokenizer),
    nextN (a + b) z = (nextN a z).bind (nextN b) := by
  intro a
  induction a with
  | zero => intro b z; simp [nextN]
  | succ a ih =>
    intro b z
    rw [Nat.add_right_comm, nextN, nextN]
    cases Next z with
    | none => rfl
    | some z1 => simp only [Option.some_bind]; exact ih b z1

theorem nextN_blocks (input : List UInt8) : ∀ (blocks : List Block) (pre : List UInt8)
    (z : Tokenizer) (s : Int) (nm dt pr : span) (t : TokenType) (tail : List UInt8),
    input = pre ++ blocksText blocks ++ 42 :: tail → At true input z s pre.length nm dt pr t →
    (0 ≤ nm.start ∧ nm.start ≤ nm.end_ ∧ nm.end_ ≤ (pre.length : Int)) →
    (∀ b ∈ blocks, b.valid) →
    ∃ z' s', nextN blocks.length z = some z' ∧
      At true input z' s' (pre ++ blocksText blocks).length z'.name z'.data z'.params z'.tt := by
  intro blocks
  induction blocks with
  | nil =>
    intro pre z s nm dt pr t tail _ h _ _
    exact ⟨z, s, rfl, by simpa [blocksText] using h.self rfl⟩
  | cons b bs ih =>
    intro pre z s nm dt pr t tail hin h hnm hv
    rw [blocksText_cons] at hin
    have hnext : b.isKeyword = true → ∃ r, blocksText bs ++ 42 :: tail = 42 :: r := by
      intro _
      cases bs with
      | nil => exact ⟨tail, by simp [blocksText]⟩
      | cons b2 bs2 =>
        obtain ⟨r, hr⟩ := text_head b2
        exact ⟨r ++ blocksText bs2 ++ 42 :: tail, by rw [blocksText_cons, hr]; simp⟩
    obtain ⟨z1, hz1, hs⟩ := block_step pre b (blocksText bs ++ 42 :: tail)
      (by rw [hin]; simp) h hnm (hv b (by simp)) hnext
    obtain ⟨z', s', h1, h2⟩ := ih (pre ++ b.text) z1 pre.length z1.name z1.data z1.params z1.tt
      tail (by rw [hin]; simp) hs.at_ hs.name (fun b' hb' => hv b' (by simp [hb']))
    refine ⟨z', s', ?_, ?_⟩
    · rw [List.length_cons, nextN, hz1, Option.some_bind, h1]
    · rw [blocksText_cons, ← List.append_assoc]; exact h2

/-- Where no refill discards bytes, the attributes of a keyword header are its pieces
untrimmed.  For a keyword header `*` + name + `, ` + P + `\n` followed by a `*`, where name
is non-empty, has no `,` or `\n` and does not begin with `*`, `E` or `e`, and P is a
non-empty text without `\n` made of pieces `key` or `key=val` separated by `,` (keys and
values without `,` and `=`): when the header starts the input, delivered in any non-empty
chunks, or follows a run of well-formed blocks in an input of at most 10240 bytes delivered
in one read, the call of `Next` that reaches it returns `KeywordToken` and `Token().Attr`
has one attribute per piece, in order, whose `Key` and `Val` are the bytes of the piece
before and after its `=`, spaces included. -/
theorem attribute_text_not_trimmed (blocks : List Block) (chunks : List (List UInt8))
    (name : List UInt8) (ps : List (List UInt8 × Option (List UInt8))) (rest : List UInt8)
    (hchunks : ∀ c ∈ chunks, c ≠ [])
    (hinput : chunks.flatten =
      blocksText blocks ++ ([42] ++ name ++ [44, 32] ++ piecesText ps ++ [10, 42] ++ rest))
    (hblocks : ∀ b ∈ blocks, b.valid)
    (hregime : blocks = [] ∨ (chunks.length = 1 ∧ chunks.flatten.length ≤ 10240))
    (hne : name ≠ []) (h44 : 44 ∉ name) (h10 : 10 ∉ name)
    (hstar : name.head? ≠ some 42) (hE : name.head? ≠ some 69) (he : name.head? ≠ some 101)
    (hps : ∀ p ∈ ps, pieceValid p) (hP10 : 10 ∉ piecesText ps) (hP : piecesText ps ≠ []) :
    ∃ z1, nextN (blocks.length + 1) (NewTokenizer (chunkReader chunks)) = some z1 ∧
      z1.tt = TokenType.KeywordToken ∧
      z1.Token = some { Typ := TokenType.KeywordToken, Name := name, Data := [],
                        Attr := ps.map pieceAttr } := by
  rcases hregime with hb | ⟨hone, hlen⟩
  · subst hb
    have h0 := At_new chunks hchunks
    obtain ⟨z1, a, b, c⟩ := Next_header_attrs [] name ps rest
      (by rw [hinput]; simp [blocksText]) h0 (Or.inr rfl) hne h44 h10 hstar hE he hps hP10 hP
    exact ⟨z1, by simp only [List.length_nil, zero_add, nextN, a, Option.some_bind], b, c⟩
  · obtain ⟨c, hc⟩ : ∃ c, chunks = [c] := List.length_eq_one.mp hone
    have hflat : chunks.flatten = c := by rw [hc]; simp
    have hcne : c ≠ [] := hchunks c (by rw [hc]; simp)
    have hrd : chunkReader chunks = stringsReader chunks.flatten := by
      rw [hflat, stringsReader, if_neg hcne, hc]
    have h0 := At_new_whole chunks.flatten hlen
    rw [← hrd] at h0
    obtain ⟨z', s', h1, h2⟩ := nextN_blocks chunks.flatten blocks [] _ _ _ _ _ _
      (name ++ [44, 32] ++ piecesText ps ++ [10, 42] ++ rest)
      (by rw [hinput]; simp) h0 ⟨le_refl _, le_refl _, le_refl _⟩ hblocks
    obtain ⟨z1, a, b, c'⟩ := Next_header_attrs ([] ++ blocksText blocks) name ps rest
      (by rw [hinput]; simp) h2 (Or.inl rfl) hne h44 h10 hstar hE he hps hP10 hP
    refine ⟨z1, ?_, b, c'⟩
    rw [nextN_add, h1, Option.some_bind, nextN, a, Option.some_bind, nextN]

/-- The header `*Instance, name=Euler-1, part=Euler` after a comment line, in one read: the
second key is ` part`, with its leading space. -/
theorem attribute_text_not_trimmed_witness :
    ∃ z1, nextN 2 (NewTokenizer (chunkReader
        [bytes "** c\n*Instance, name=Euler-1, part=Euler\n*End Instance\n"])) = some z1 ∧
      z1.tt = TokenType.KeywordToken ∧
      z1.Token = some { Typ := TokenType.KeywordToken, Name := bytes "Instance", Data := [],
                        Attr := [⟨bytes "name", bytes "Euler-1"⟩,
                                 ⟨bytes " part", bytes "Euler"⟩] } :=
  attribute_text_not_trimmed [Block.comment (bytes " c")]
    [bytes "** c\n*Instance, name=Euler-1, part=Euler\n*End Instance\n"] (bytes "Instance")
    [(bytes "name", some (bytes "Euler-1")), (bytes " part", some (bytes "Euler"))]
    (bytes "End Instance\n")
    (by decide) (by decide) (by decide) (Or.inr (by decide)) (by decide) (by decide)
    (by decide) (by decide) (by decide) (by decide) (by decide) (by decide) (by decide)

/-- C17 fails in the code at its own example `name=Euler-1, part=Euler`: for the input
`** c`, `*Instance, name=Euler-1, part=Euler`, `*End Instance` delivered in one read the
second token is named `Instance` and has the attributes `name=Euler-1` and ` part=Euler`
untrimmed, but delivered in two reads that part inside the header, the refill discards the
5 bytes of the comment without re-basing the name span, so the token is named `nce, nam`,
the params span starts 5 bytes late and the first attribute is the key `Euler-1` alone. -/
theorem header_attributes_stale_after_refill :
    (nextN 2 (NewTokenizer (chunkReader
        [bytes "** c\n*Instance, name=Eu", bytes "ler-1, part=Euler\n*End Instance\n"]))).bind
        Tokenizer.Token =
      some { Typ := TokenType.KeywordToken, Name := bytes "nce, nam", Data := [],
             Attr := [⟨bytes "Euler-1", []⟩, ⟨bytes " part", bytes "Euler"⟩] } ∧
    (nextN 2 (NewTokenizer (chunkReader
        [bytes "** c\n*Instance, name=Euler-1, part=Euler\n*End Instance\n"]))).bind
        Tokenizer.Token =
      some { Typ := TokenType.KeywordToken, Name := bytes "Instance", Data := [],
             Attr := [⟨bytes "name", bytes "Euler-1"⟩, ⟨bytes " part", bytes "Euler"⟩] } := by
  decide

end InpParser
